import Mathlib

/-!
# Local operators and assembly of the INMOST diffusion drivers

A shallow embedding of the four drivers of the repository

* `2d_poisson_fem.cpp`   (namespace `FEM`),
* `2d_diffusion_mfd.cpp` (namespace `MFD`),
* `2d_diffusion_vem.cpp` (namespace `VEM2D`),
* `3d_diffusion_vem.cpp` (namespace `VEM3D`),

in exact arithmetic: the C++ `double` is an arbitrary linearly ordered field `F`
(so every definition can be evaluated over `ℚ`), `rMatrix` is a Mathlib `Matrix`
indexed by `Fin`, and the dense inversion of the INMOST library is the
adjugate formula.  The square root of the C library is a parameter `sqrtF`
wherever the source calls `sqrt`.
-/

open Matrix BigOperators

/-! ## Dense matrix routines of the library -/

section Dense

variable {F : Type} [LinearOrderedField F]

/-- The routine `rMatrix::Invert()`: the inverse of a square matrix, computed exactly. -/
def Invert {n : Nat} (A : Matrix (Fin n) (Fin n) F) : Matrix (Fin n) (Fin n) F :=
  (A.det)⁻¹ • A.adjugate

/-- The routine `rMatrix::FrobeniusNorm()`: square root of the sum of the squared entries. -/
def FrobeniusNorm (sqrtF : F → F) {m n : Nat} (A : Matrix (Fin m) (Fin n) F) : F :=
  sqrtF (∑ i, ∑ j, A i j * A i j)

end Dense

/-! ## `2d_poisson_fem.cpp` -/

namespace FEM

variable {F : Type} [LinearOrderedField F]

/-- A mesh node as the FEM driver reads it. -/
structure Node (F : Type) where
  /-- The coordinates `Barycenter(x)` of the node -/
  x : F × F
  /-- The value of `LocalID()` -/
  localID : Nat
  /-- The value of `GlobalID()` -/
  globalID : Nat
  /-- The value of `GetMarker(mrkDirNode)` -/
  dirichlet : Bool
  /-- The value of `Real(tagBC)` -/
  bc : F
  /-- Whether `GetStatus() == Element::Ghost` -/
  ghost : Bool

/-- A triangular cell: `getNodes()`, `RealArray(tagD)` and the ghost status. -/
structure Cell (F : Type) where
  nodes : Fin 3 → Node F
  tagD : Fin 3 → F
  ghost : Bool

/-- The constant `Dxx`. -/
def Dxx : F := 100

/-- The constant `Dyy`. -/
def Dyy : F := 1

/-- The constant `Dxy`. -/
def Dxy : F := 0

/-- The function `exactSolution(x)`. -/
def exactSolution (x : F × F) : F := x.1 * x.1

/-- The function `exactSolutionRHS(x)`. -/
def exactSolutionRHS (_x : F × F) : F := -2 * Dxx

/-- The local `Dk` of `computeStiffMatrix`. -/
def Dk (cell : Cell F) : Matrix (Fin 2) (Fin 2) F :=
  !![cell.tagD 0, cell.tagD 2; cell.tagD 2, cell.tagD 1]

/-- The local `Bk` of `computeStiffMatrix` and `integrateRHS`. -/
def Bk (cell : Cell F) : Matrix (Fin 2) (Fin 2) F :=
  !![(cell.nodes 1).x.1 - (cell.nodes 0).x.1, (cell.nodes 2).x.1 - (cell.nodes 0).x.1;
     (cell.nodes 1).x.2 - (cell.nodes 0).x.2, (cell.nodes 2).x.2 - (cell.nodes 0).x.2]

/-- The local `Ck = Bk.Invert() * Dk * Bk.Invert().Transpose()`. -/
def Ck (cell : Cell F) : Matrix (Fin 2) (Fin 2) F :=
  Invert (Bk cell) * Dk cell * (Invert (Bk cell))ᵀ

/-- The local `detBk`. -/
def detBk (cell : Cell F) : F :=
  Bk cell 0 0 * Bk cell 1 1 - Bk cell 0 1 * Bk cell 1 0

/-- The shape matrix `Kee` after `Kee *= 0.5`. -/
def Kee : Matrix (Fin 3) (Fin 3) F :=
  (1 / 2 : F) • !![1, -1, 0; -1, 1, 0; 0, 0, 0]

/-- The shape matrix `Knn` after `Knn *= 0.5`. -/
def Knn : Matrix (Fin 3) (Fin 3) F :=
  (1 / 2 : F) • !![1, 0, -1; 0, 0, 0; -1, 0, 1]

/-- The shape matrix `Ken` after `Ken *= 0.5`. -/
def Ken : Matrix (Fin 3) (Fin 3) F :=
  (1 / 2 : F) • !![1, 0, -1; -1, 0, 1; 0, 0, 0]

/-- The method `Problem::computeStiffMatrix`. -/
def computeStiffMatrix (cell : Cell F) : Matrix (Fin 3) (Fin 3) F :=
  |detBk cell| • (Ck cell 0 0 • Kee + Ck cell 1 1 • Knn + Ck cell 0 1 • (Ken + Kenᵀ))

/-- The method `Problem::integrateRHS`: the 3x1 load vector. -/
def integrateRHS (cell : Cell F) : Fin 3 → F :=
  fun _ =>
    (exactSolutionRHS (cell.nodes 0).x + exactSolutionRHS (cell.nodes 1).x
      + exactSolutionRHS (cell.nodes 2).x) * |detBk cell| / 18

/-- The struct `LinearSystem`, with the `size` member of `Problem`. -/
structure LinearSystem (F : Type) where
  A : Nat → Nat → F
  b : Nat → F
  size : Nat

/-- The statement `A[i][j] += v`. -/
def addA (s : LinearSystem F) (i j : Nat) (v : F) : LinearSystem F :=
  { s with A := Function.update s.A i (Function.update (s.A i) j (s.A i j + v)) }

/-- The statement `b[i] += v`. -/
def addb (s : LinearSystem F) (i : Nat) (v : F) : LinearSystem F :=
  { s with b := Function.update s.b i (s.b i + v) }

/-- The statement `b[i] -= v`. -/
def subb (s : LinearSystem F) (i : Nat) (v : F) : LinearSystem F :=
  { s with b := Function.update s.b i (s.b i - v) }

/-- The three `if(nodes[i].GetMarker(mrkDirNode)) ... else ...` blocks of the cell loop of
`assembleGlobalSystem`, for a cell that is not a ghost. -/
def assembleCell (s : LinearSystem F) (cell : Cell F) : LinearSystem F :=
  let stiffMatrix := computeStiffMatrix cell
  let bRHS := integrateRHS cell
  let n0 := cell.nodes 0
  let n1 := cell.nodes 1
  let n2 := cell.nodes 2
  let ind0 := n0.localID
  let ind1 := n1.localID
  let ind2 := n2.localID
  let s :=
    if n0.dirichlet then
      let bcVal := n0.bc
      let s := if !n1.dirichlet then subb s ind1 (bcVal * stiffMatrix 1 0) else s
      if !n2.dirichlet then subb s ind2 (bcVal * stiffMatrix 2 0) else s
    else
      let s := addA s ind0 ind0 (stiffMatrix 0 0)
      let s := addA s ind0 ind1 (stiffMatrix 1 0)
      let s := addA s ind0 ind2 (stiffMatrix 2 0)
      addb s ind0 (bRHS 0)
  let s :=
    if n1.dirichlet then
      let bcVal := n1.bc
      let s := if !n0.dirichlet then subb s ind0 (bcVal * stiffMatrix 0 1) else s
      if !n2.dirichlet then subb s ind2 (bcVal * stiffMatrix 2 1) else s
    else
      let s := addA s ind1 ind0 (stiffMatrix 0 1)
      let s := addA s ind1 ind1 (stiffMatrix 1 1)
      let s := addA s ind1 ind2 (stiffMatrix 2 1)
      addb s ind1 (bRHS 1)
  if n2.dirichlet then
    let bcVal := n2.bc
    let s := if !n1.dirichlet then subb s ind1 (bcVal * stiffMatrix 1 2) else s
    if !n0.dirichlet then subb s ind0 (bcVal * stiffMatrix 0 2) else s
  else
    let s := addA s ind2 ind0 (stiffMatrix 0 2)
    let s := addA s ind2 ind1 (stiffMatrix 1 2)
    let s := addA s ind2 ind2 (stiffMatrix 2 2)
    addb s ind2 (bRHS 2)

/-- One pass of the cell loop of `assembleGlobalSystem`: ghost cells are skipped. -/
def processCell (s : LinearSystem F) (cell : Cell F) : LinearSystem F :=
  if cell.ghost then s else assembleCell s cell

/-- The mesh as the FEM driver reads it. -/
structure Mesh (F : Type) where
  cells : List (Cell F)
  nodes : List (Node F)

/-- The value of `NumberOfNodes()`. -/
def Mesh.NumberOfNodes (m : Mesh F) : Nat := m.nodes.length

/-- The method `Problem::assembleGlobalSystem`, started from the system `s`. -/
def assembleGlobalSystem (m : Mesh F) (s : LinearSystem F) : LinearSystem F :=
  m.cells.foldl processCell { s with size := m.NumberOfNodes + 1 }

/-! ### Reference objects of the P1 element -/

/-- An affine function `x ↦ c + g · x` of the plane. -/
structure Affine (F : Type) where
  c : F
  g : F × F

/-- The value of an affine function at a point. -/
def Affine.eval (p : Affine F) (x : F × F) : F := p.c + p.g.1 * x.1 + p.g.2 * x.2

/-- The area `|det B| / 2` of the triangle. -/
def area (cell : Cell F) : F := |detBk cell| / 2

/-- The form `u^T D v` of the symmetric tensor with stored components `(Dxx, Dyy, Dxy)`. -/
def tensorForm (d : Fin 3 → F) (u v : F × F) : F :=
  u.1 * (d 0 * v.1 + d 2 * v.2) + u.2 * (d 2 * v.1 + d 1 * v.2)

/-- The edge vector opposite vertex `i`, the edges being run through cyclically:
`e_0 = x2 - x1`, `e_1 = x0 - x2`, `e_2 = x1 - x0`. -/
def edgeOpp (cell : Cell F) (i : Fin 3) : F × F :=
  ((cell.nodes (i + 2)).x.1 - (cell.nodes (i + 1)).x.1,
   (cell.nodes (i + 2)).x.2 - (cell.nodes (i + 1)).x.2)

/-- The scalar product of two plane vectors. -/
def dot (u v : F × F) : F := u.1 * v.1 + u.2 * v.2

/-- The gradient of the hat function of vertex `i`, from Cramer's rule on the nodal conditions. -/
def gradPhi (cell : Cell F) (i : Fin 3) : F × F :=
  ((((if i = 1 then 1 else 0) - (if i = 0 then 1 else 0)) * Bk cell 1 1
      - ((if i = 2 then 1 else 0) - (if i = 0 then 1 else 0)) * Bk cell 1 0) / detBk cell,
   (((if i = 2 then 1 else 0) - (if i = 0 then 1 else 0)) * Bk cell 0 0
      - ((if i = 1 then 1 else 0) - (if i = 0 then 1 else 0)) * Bk cell 0 1) / detBk cell)

/-- The gradient of the affine interpolant of the nodal vector `v`. -/
def gradOf (cell : Cell F) (v : Fin 3 → F) : F × F :=
  (((v 1 - v 0) * Bk cell 1 1 - (v 2 - v 0) * Bk cell 1 0) / detBk cell,
   ((v 2 - v 0) * Bk cell 0 0 - (v 1 - v 0) * Bk cell 0 1) / detBk cell)

/-- The reference triangle `(0,0), (1,0), (0,1)` with the tensor of the driver, all nodes free. -/
def refCell : Cell ℚ where
  nodes := ![⟨(0, 0), 0, 0, false, 0, false⟩, ⟨(1, 0), 1, 1, false, 0, false⟩,
    ⟨(0, 1), 2, 2, false, 0, false⟩]
  tagD := ![Dxx, Dyy, Dxy]
  ghost := false

/-- The triangle `(0,0), (1,0), (0,1)` whose node `(1,0)` is a Dirichlet node with the
boundary value `exactSolution = 1`; the two other nodes are free. -/
def bndCell : Cell ℚ where
  nodes := ![⟨(0, 0), 0, 0, false, 0, false⟩, ⟨(1, 0), 1, 1, true, 1, false⟩,
    ⟨(0, 1), 2, 2, false, 0, false⟩]
  tagD := ![Dxx, Dyy, Dxy]
  ghost := false

/-- The empty linear system. -/
def zeroSys : LinearSystem ℚ := ⟨fun _ _ => 0, fun _ => 0, 0⟩

/-- The hat functions `1 - x - y`, `x`, `y` of the reference triangle. -/
def refPhi : Fin 3 → Affine ℚ := ![⟨1, (-1, -1)⟩, ⟨0, (1, 0)⟩, ⟨0, (0, 1)⟩]

end FEM

/-! ## `2d_diffusion_mfd.cpp` -/

namespace MFD

variable {F : Type} [LinearOrderedField F]

/-- A face (an edge of the 2D mesh) as the MFD driver reads it. -/
structure Face (F : Type) where
  /-- The value of `LocalID()`, which indexes the flux unknown of the face -/
  id : Nat
  /-- The point `Barycenter(xf)` -/
  xf : F × F
  /-- The vector `UnitNormal(n)` -/
  n : F × F
  /-- The value of `Area()` -/
  area : F
  /-- The handle of `FrontCell()`, `none` when there is no front cell -/
  frontCell : Option Nat
  /-- The value of `Boundary()` -/
  boundary : Bool

/-- A polygonal cell as the MFD driver reads it. -/
structure Cell (F : Type) where
  /-- The handle of the cell, which `cell == f.FrontCell()` compares -/
  handle : Nat
  /-- The number `faces.size()` of faces -/
  nf : Nat
  /-- The array `getFaces()` -/
  faces : Fin nf → Face F
  /-- The point `Barycenter(xP)` -/
  xP : F × F
  /-- The value of `Volume()` -/
  volume : F
  /-- The array `RealArray(tagD)` -/
  tagD : Fin 3 → F
  /-- Whether `GetStatus() == Element::Ghost` -/
  ghost : Bool

/-- The local `D` of `assembleLocalSystem`: the diffusion tensor of the cell. -/
def D (cell : Cell F) : Matrix (Fin 2) (Fin 2) F :=
  !![cell.tagD 0, cell.tagD 2; cell.tagD 2, cell.tagD 1]

/-- The sign `(cell == faces[i].FrontCell()) ? -1. : 1.`. -/
def sign (cell : Cell F) (i : Fin cell.nf) : F :=
  if (cell.faces i).frontCell = some cell.handle then -1 else 1

/-- The matrix `NP` as filled by the face loop, before `NP = NP * D`. -/
def NP0 (cell : Cell F) : Matrix (Fin cell.nf) (Fin 2) F :=
  Matrix.of fun i j => ![(cell.faces i).n.1, (cell.faces i).n.2] j

/-- The matrix `NP` after `NP = NP * D`. -/
def NP (cell : Cell F) : Matrix (Fin cell.nf) (Fin 2) F :=
  NP0 cell * D cell

/-- The matrix `RP`: `RP(i,k) = a * (xf[k] - xP[k])` with `a = sign * Area`. -/
def RP (cell : Cell F) : Matrix (Fin cell.nf) (Fin 2) F :=
  Matrix.of fun i j =>
    (sign cell i * (cell.faces i).area) *
      ![(cell.faces i).xf.1 - cell.xP.1, (cell.faces i).xf.2 - cell.xP.2] j

/-- The local `test = RP.Transpose()*NP - cell.Volume() * D`. -/
def test (cell : Cell F) : Matrix (Fin 2) (Fin 2) F :=
  (RP cell)ᵀ * NP cell - cell.volume • D cell

/-- The consistency term `MP0 = RP * (RP.Transpose()*NP).Invert() * RP.Transpose()`. -/
def MP0 (cell : Cell F) : Matrix (Fin cell.nf) (Fin cell.nf) F :=
  RP cell * Invert ((RP cell)ᵀ * NP cell) * (RP cell)ᵀ

/-- The scale `gammaP = MP0.Trace() / nf`. -/
def gammaP (cell : Cell F) : F :=
  (MP0 cell).trace / (cell.nf : F)

/-- The stability term `MP1 = gammaP * (I - NP * (NP.Transpose()*NP).Invert() * NP.Transpose())`. -/
def MP1 (cell : Cell F) : Matrix (Fin cell.nf) (Fin cell.nf) F :=
  gammaP cell • (1 - NP cell * Invert ((NP cell)ᵀ * NP cell) * (NP cell)ᵀ)

/-- The matrix `MP = MP0 + MP1` that is copied to `MF`. -/
def MP (cell : Cell F) : Matrix (Fin cell.nf) (Fin cell.nf) F :=
  MP0 cell + MP1 cell

/-- The method `Problem::assembleLocalSystem`: `none` stands for the `exit(1)` taken when the
Frobenius norm of `test` exceeds `1e-3`. -/
def assembleLocalSystem (sqrtF : F → F) (cell : Cell F) :
    Option (Matrix (Fin cell.nf) (Fin cell.nf) F) :=
  if FrobeniusNorm sqrtF (test cell) > 1 / 1000 then none else some (MP cell)

/-- The outward normal of the segment from `s` to `t` scaled by its length, for a boundary run
through counter-clockwise: the segment turned by a right angle to its right. -/
def rot (s t : F × F) : F × F := (t.2 - s.2, -(t.1 - s.1))

/-- The shoelace area of a polygon whose edges run from `s i` to `t i`. -/
def shoelace {n : Nat} (s t : Fin n → F × F) : F :=
  (1 / 2) * ∑ i, ((s i).1 * (t i).2 - (t i).1 * (s i).2)

/-- The unit square `(0,0), (1,0), (1,1), (0,1)` as a cell with handle 7: its top face has the
cell as front cell (unit normal looking into the cell), the three other faces are boundary
faces; the tensor is `diag(1, 10)`. -/
def squareCell : Cell ℚ where
  handle := 7
  nf := 4
  faces := ![⟨0, (1 / 2, 0), (0, -1), 1, none, true⟩, ⟨1, (1, 1 / 2), (1, 0), 1, none, true⟩,
    ⟨2, (1 / 2, 1), (0, -1), 1, some 7, false⟩, ⟨3, (0, 1 / 2), (-1, 0), 1, none, true⟩]
  xP := (1 / 2, 1 / 2)
  volume := 1
  tagD := ![1, 10, 0]
  ghost := false

/-- The start points of the faces of `squareCell`, run through counter-clockwise. -/
def squareStart : Fin 4 → ℚ × ℚ := ![(0, 0), (1, 0), (1, 1), (0, 1)]

/-- The end points of the faces of `squareCell`. -/
def squareEnd : Fin 4 → ℚ × ℚ := ![(1, 0), (1, 1), (0, 1), (0, 0)]

end MFD

/-! ## `2d_diffusion_vem.cpp` -/

namespace VEM2D

variable {F : Type} [LinearOrderedField F]

/-- The constant `n_polys` of the 2D driver. -/
abbrev n_polys : Nat := 3

/-- A mesh node as the 2D VEM driver reads it. -/
structure Node (F : Type) where
  /-- The coordinates `Coords()` -/
  x : F × F
  /-- The value of `GetMarker(mrkDirNode)` -/
  dirichlet : Bool
  /-- The value of `Real(tagBC)` -/
  bc : F
  /-- The value of `var.Index(node)` -/
  index : Nat

/-- A polygonal cell as the 2D VEM driver reads it. -/
structure Cell (F : Type) where
  /-- The number `nodes.size()` of nodes -/
  nn : Nat
  /-- The array `getNodes()` -/
  nodes : Fin nn → Node F
  /-- The number `faces.size()` of faces -/
  nfaces : Nat
  /-- The point `Centroid(xc)` -/
  xc : F × F
  /-- The value of `Volume()` -/
  volume : F
  /-- The array `RealArray(tagD)`, which `assembleLocalSystem` never reads -/
  tagD : Fin 3 → F
  /-- Whether `GetStatus() == Element::Ghost` -/
  ghost : Bool

/-- The function `exactSolutionRHS(x)` of the 2D VEM driver. -/
def exactSolutionRHS (_x : F × F) : F := 0

/-- The squared distance accumulated by the double loop over the nodes: the maximum, started
from `0`, of the squared distances of all pairs of nodes. -/
def diam2 (cell : Cell F) : F :=
  (List.finRange cell.nn).foldl
    (fun d i => (List.finRange cell.nn).foldl
      (fun d j =>
        max d (((cell.nodes i).x.1 - (cell.nodes j).x.1) * ((cell.nodes i).x.1 - (cell.nodes j).x.1)
          + ((cell.nodes i).x.2 - (cell.nodes j).x.2) * ((cell.nodes i).x.2 - (cell.nodes j).x.2)))
      d)
    0

/-- The local `diam` after `diam = sqrt(diam)`. -/
def diam (sqrtF : F → F) (cell : Cell F) : F := sqrtF (diam2 cell)

/-- The index `indprev = vid == 0 ? nn-1 : vid-1`. -/
def indprev {nn : Nat} (vid : Fin nn) : Fin nn :=
  if h : vid.val = 0 then ⟨nn - 1, by omega⟩ else ⟨vid.val - 1, by omega⟩

/-- The index `indnext = vid == nn-1 ? 0 : vid+1`. -/
def indnext {nn : Nat} (vid : Fin nn) : Fin nn :=
  if h : vid.val = nn - 1 then ⟨0, by omega⟩ else ⟨vid.val + 1, by omega⟩

/-- The local `nor` of node `vid`: `(xn[1] - xp[1], xp[0] - xn[0])`. -/
def nor (cell : Cell F) (vid : Fin cell.nn) : F × F :=
  ((cell.nodes (indnext vid)).x.2 - (cell.nodes (indprev vid)).x.2,
   (cell.nodes (indprev vid)).x.1 - (cell.nodes (indnext vid)).x.1)

/-- The local `polygrad` for the monomial `i = 1` or `i = 2`. -/
def polygrad (i : Fin n_polys) : F × F :=
  if i = 1 then (1, 0) else (0, 1)

/-- The local `monomgrad = polygrad / diam`. -/
def monomgrad (sqrtF : F → F) (cell : Cell F) (i : Fin n_polys) : F × F :=
  ((polygrad i : F × F).1 / diam sqrtF cell, (polygrad i : F × F).2 / diam sqrtF cell)

/-- The matrix `D`: a column of ones and the scaled monomials at the nodes. -/
def D (sqrtF : F → F) (cell : Cell F) : Matrix (Fin cell.nn) (Fin n_polys) F :=
  Matrix.of fun vid i =>
    if i = 0 then 1
    else (((cell.nodes vid).x.1 - cell.xc.1) * (polygrad i : F × F).1
        + ((cell.nodes vid).x.2 - cell.xc.2) * (polygrad i : F × F).2) / diam sqrtF cell

/-- The matrix `B`: the row `1/nn` and the rows `0.5 * (monomgrad . nor)`. -/
def B (sqrtF : F → F) (cell : Cell F) : Matrix (Fin n_polys) (Fin cell.nn) F :=
  Matrix.of fun i vid =>
    if i = 0 then 1 / (cell.nn : F)
    else (1 / 2) * ((monomgrad sqrtF cell i).1 * (nor cell vid).1
        + (monomgrad sqrtF cell i).2 * (nor cell vid).2)

/-- The projector `Proj = (B*D).Invert() * B`. -/
def Proj (sqrtF : F → F) (cell : Cell F) : Matrix (Fin n_polys) (Fin cell.nn) F :=
  Invert (B sqrtF cell * D sqrtF cell) * B sqrtF cell

/-- The matrix `Se` after `Se = Se - D*Proj`, where `Se` was the identity. -/
def Se0 (sqrtF : F → F) (cell : Cell F) : Matrix (Fin cell.nn) (Fin cell.nn) F :=
  1 - D sqrtF cell * Proj sqrtF cell

/-- The matrix `Se` after `Se = Se.Transpose() * Se`. -/
def Se (sqrtF : F → F) (cell : Cell F) : Matrix (Fin cell.nn) (Fin cell.nn) F :=
  (Se0 sqrtF cell)ᵀ * Se0 sqrtF cell

/-- The matrix `G = B*D` after its row `0` has been set to zero. -/
def G (sqrtF : F → F) (cell : Cell F) : Matrix (Fin n_polys) (Fin n_polys) F :=
  Matrix.of fun i j => if i = 0 then 0 else (B sqrtF cell * D sqrtF cell) i j

/-- The local operator `W = Proj.Transpose() * G * Proj + Se`. -/
def W (sqrtF : F → F) (cell : Cell F) : Matrix (Fin cell.nn) (Fin cell.nn) F :=
  (Proj sqrtF cell)ᵀ * G sqrtF cell * Proj sqrtF cell + Se sqrtF cell

/-- The local load `b`: every entry is `exactSolutionRHS(xc) * cell.Volume() / nn`. -/
def b (cell : Cell F) : Fin cell.nn → F :=
  fun _ => exactSolutionRHS cell.xc * cell.volume / (cell.nn : F)

/-- The method `Problem::assembleLocalSystem` of the 2D VEM driver: `none` stands for the
`exit(1)` taken when the numbers of faces and of nodes differ. -/
def assembleLocalSystem (sqrtF : F → F) (cell : Cell F) :
    Option (Matrix (Fin cell.nn) (Fin cell.nn) F × (Fin cell.nn → F)) :=
  if cell.nfaces ≠ cell.nn then none else some (W sqrtF cell, b cell)

/-- The shoelace area of the polygon whose nodes are listed consecutively; it is positive
exactly when they are listed counter-clockwise. -/
def shoelace (cell : Cell F) : F :=
  (1 / 2) * ∑ v, ((cell.nodes v).x.1 * (cell.nodes (indnext v)).x.2
    - (cell.nodes (indnext v)).x.1 * (cell.nodes v).x.2)

/-- The constant nodal vector `(1, ..., 1)`. -/
def ones (n : Nat) : Fin n → F := fun _ => 1

/-- An affine function `x ↦ c + g · x` of the plane. -/
structure Affine (F : Type) where
  c : F
  g : F × F

/-- The value of an affine function at a point. -/
def Affine.eval (p : Affine F) (x : F × F) : F := p.c + p.g.1 * x.1 + p.g.2 * x.2

/-- The form `u^T K v` of the symmetric tensor with stored components `(Dxx, Dyy, Dxy)`. -/
def tensorForm (d : Fin 3 → F) (u v : F × F) : F :=
  u.1 * (d 0 * v.1 + d 2 * v.2) + u.2 * (d 2 * v.1 + d 1 * v.2)

/-- The constant `Dxx` of the 2D VEM driver. -/
def Dxx : F := 1

/-- The constant `Dxy` of the 2D VEM driver. -/
def Dxy : F := 0

/-- The constant `Dyy` of the 2D VEM driver. -/
def Dyy : F := 1

/-- The triangle `(0,0), (3,0), (0,4)` with its nodes listed counter-clockwise, its centroid,
its area 6 and the tensor `Dxx = Dyy = 1, Dxy = 0` stored by `initProblem`. -/
def ccwTriangle : Cell ℚ where
  nn := 3
  nodes := ![⟨(0, 0), true, 0, 0⟩, ⟨(3, 0), true, 3, 1⟩, ⟨(0, 4), true, 0, 2⟩]
  nfaces := 3
  xc := (1, 4 / 3)
  volume := 6
  tagD := ![1, 1, 0]
  ghost := false

/-- The same triangle with its nodes listed clockwise: `(0,0), (0,4), (3,0)`. -/
def cwTriangle : Cell ℚ where
  nn := 3
  nodes := ![⟨(0, 0), true, 0, 0⟩, ⟨(0, 4), true, 0, 2⟩, ⟨(3, 0), true, 3, 1⟩]
  nfaces := 3
  xc := (1, 4 / 3)
  volume := 6
  tagD := ![1, 1, 0]
  ghost := false

end VEM2D

/-! ## `3d_diffusion_vem.cpp` -/

namespace VEM3D

variable {F : Type} [LinearOrderedField F]

/-- The constant `n_polys` of the 3D driver. -/
abbrev n_polys : Nat := 4

/-- A mesh node as the 3D VEM driver reads it. -/
structure Node (F : Type) where
  /-- The coordinates `Coords()` -/
  x : Fin 3 → F
  /-- The value of `GlobalID()` -/
  globalID : Nat
  /-- The value of `GetMarker(mrkDirNode)` -/
  dirichlet : Bool
  /-- The value of `Real(tagBC)` -/
  bc : F
  /-- Whether `GetStatus() == Element::Ghost` -/
  ghost : Bool
  /-- The value of `var.Index(node)` -/
  index : Nat

/-- A face of a polyhedral cell as `assembleLocalSystem` reads it. -/
structure Face (F : Type) where
  /-- The value of `Area()` -/
  area : F
  /-- The vector `OrientedUnitNormal(cell, nrm)` -/
  nrm : Fin 3 → F
  /-- The values of `GlobalID()` of the nodes `f.getNodes()` -/
  fnodes : List Nat

/-- A polyhedral cell as the 3D VEM driver reads it. -/
structure Cell (F : Type) where
  /-- The number `nodes.size()` of nodes -/
  nn : Nat
  /-- The array `getNodes()` -/
  nodes : Fin nn → Node F
  /-- The array `getFaces()` -/
  faces : List (Face F)
  /-- The point `Centroid(xc)` -/
  xc : Fin 3 → F
  /-- The value of `Volume()` -/
  volume : F
  /-- The array `RealArray(tagD)`: `Dxx, Dyy, Dzz, Dxy, Dxz, Dyz` -/
  tagD : Fin 6 → F
  /-- Whether `GetStatus() == Element::Ghost` -/
  ghost : Bool

/-- The squared distance accumulated by the double loop over the nodes. -/
def diam2 (cell : Cell F) : F :=
  (List.finRange cell.nn).foldl
    (fun d i => (List.finRange cell.nn).foldl
      (fun d j =>
        max d (((cell.nodes i).x 0 - (cell.nodes j).x 0) * ((cell.nodes i).x 0 - (cell.nodes j).x 0)
          + ((cell.nodes i).x 1 - (cell.nodes j).x 1) * ((cell.nodes i).x 1 - (cell.nodes j).x 1)
          + ((cell.nodes i).x 2 - (cell.nodes j).x 2) * ((cell.nodes i).x 2 - (cell.nodes j).x 2)))
      d)
    0

/-- The local `diam` after `diam = sqrt(diam)`. -/
def diam (sqrtF : F → F) (cell : Cell F) : F := sqrtF (diam2 cell)

/-- The map `gid_cnodes`: the last local index whose node has the given `GlobalID()`. -/
def gid_cnodes (cell : Cell F) (gid : Nat) : Option (Fin cell.nn) :=
  (List.finRange cell.nn).foldl
    (fun acc i => if (cell.nodes i).globalID = gid then some i else acc) none

/-- The assertion `gid_cnodes.find(node.GlobalID()) != gid_cnodes.end()` for every node of
every face. -/
def assertsHold (cell : Cell F) : Bool :=
  cell.faces.all fun f => f.fnodes.all fun gid => (gid_cnodes cell gid).isSome

/-- The local `knrm`: the tensor applied to the face normal. -/
def knrm (cell : Cell F) (f : Face F) : Fin 3 → F :=
  ![cell.tagD 0 * f.nrm 0 + cell.tagD 3 * f.nrm 1 + cell.tagD 4 * f.nrm 2,
    cell.tagD 3 * f.nrm 0 + cell.tagD 1 * f.nrm 1 + cell.tagD 5 * f.nrm 2,
    cell.tagD 4 * f.nrm 0 + cell.tagD 5 * f.nrm 1 + cell.tagD 2 * f.nrm 2]

/-- The matrix `D`: a column of ones and the scaled monomials at the nodes. -/
def D (sqrtF : F → F) (cell : Cell F) : Matrix (Fin cell.nn) (Fin n_polys) F :=
  Matrix.of fun vid j =>
    if j = 0 then 1
    else ![((cell.nodes vid).x 0 - cell.xc 0) / diam sqrtF cell,
           ((cell.nodes vid).x 1 - cell.xc 1) / diam sqrtF cell,
           ((cell.nodes vid).x 2 - cell.xc 2) / diam sqrtF cell] ⟨j.val - 1, by have h : j.val < 4 := j.isLt; omega⟩

/-- The matrix `B`: the row `1/nn`, and in row `j >= 1` the sum over the faces and over the
nodes of each face of `1.0/nfn * area / diam * knrm[j-1]`, added to the column of the node. -/
def B (sqrtF : F → F) (cell : Cell F) : Matrix (Fin n_polys) (Fin cell.nn) F :=
  Matrix.of fun j i =>
    if j = 0 then 1 / (cell.nn : F)
    else (cell.faces.map fun f =>
      (f.fnodes.map fun gid =>
        if gid_cnodes cell gid = some i then
          1 / (f.fnodes.length : F) * f.area / diam sqrtF cell
            * knrm cell f ⟨j.val - 1, by have h : j.val < 4 := j.isLt; omega⟩
        else 0).sum).sum

/-- The local `BDinv = (B*D).Invert(&ierr)`. -/
def BDinv (sqrtF : F → F) (cell : Cell F) : Matrix (Fin n_polys) (Fin n_polys) F :=
  Invert (B sqrtF cell * D sqrtF cell)

/-- The projector `Proj = BDinv * B`. -/
def Proj (sqrtF : F → F) (cell : Cell F) : Matrix (Fin n_polys) (Fin cell.nn) F :=
  BDinv sqrtF cell * B sqrtF cell

/-- The matrix `Se = rMatrix::Unit(nn) - D*Proj`. -/
def Se (sqrtF : F → F) (cell : Cell F) : Matrix (Fin cell.nn) (Fin cell.nn) F :=
  1 - D sqrtF cell * Proj sqrtF cell

/-- The matrix `G = B*D` after `G(0,1,0,n_polys).Zero()`. -/
def G (sqrtF : F → F) (cell : Cell F) : Matrix (Fin n_polys) (Fin n_polys) F :=
  Matrix.of fun i j => if i = 0 then 0 else (B sqrtF cell * D sqrtF cell) i j

/-- The local operator `W = Proj.Transpose() * G * Proj + Se.Transpose() * Se`. -/
def W (sqrtF : F → F) (cell : Cell F) : Matrix (Fin cell.nn) (Fin cell.nn) F :=
  (Proj sqrtF cell)ᵀ * G sqrtF cell * Proj sqrtF cell + (Se sqrtF cell)ᵀ * Se sqrtF cell

/-- The local load `b = rMatrix::Col(nn, rhs)`; the right-hand side `exactSolutionRHS`, built
from `sin` and `cos`, is the parameter `rhsF`. -/
def b (rhsF : (Fin 3 → F) → F) (cell : Cell F) : Fin cell.nn → F :=
  fun _ => rhsF cell.xc * cell.volume / (cell.nn : F)

/-- The tetrahedron `(0,0,0), (3,0,0), (0,4,0), (0,0,1)` (diameter 5, volume 2) with its four
faces, their areas and outward unit normals, and the tensor `diag(10, 2, 1)` of the driver. -/
def tetraCell : Cell ℚ where
  nn := 4
  nodes := ![⟨![0, 0, 0], 10, true, 0, false, 0⟩, ⟨![3, 0, 0], 11, true, 0, false, 1⟩,
    ⟨![0, 4, 0], 12, true, 0, false, 2⟩, ⟨![0, 0, 1], 13, true, 0, false, 3⟩]
  faces := [⟨6, ![0, 0, -1], [10, 12, 11]⟩, ⟨3 / 2, ![0, -1, 0], [10, 11, 13]⟩,
    ⟨2, ![-1, 0, 0], [10, 13, 12]⟩, ⟨13 / 2, ![4 / 13, 3 / 13, 12 / 13], [11, 12, 13]⟩]
  xc := ![3 / 4, 1, 1 / 4]
  volume := 2
  tagD := ![10, 2, 1, 0, 0, 0]
  ghost := false

end VEM3D


/-! ## `2d_poisson_fem.cpp`: the assembled system -/

namespace FEM

variable {F : Type} [LinearOrderedField F]

/-- What one cell adds to the entry `A[r][c]`: nothing for a ghost cell, and otherwise
`stiffMatrix(j,i)` for every free local node `i` with index `r` and every local node `j` with
index `c`. -/
def contribA (cell : Cell F) (r c : Nat) : F :=
  if cell.ghost then 0
  else ∑ i : Fin 3, ∑ j : Fin 3,
    if (cell.nodes i).dirichlet = false ∧ r = (cell.nodes i).localID
        ∧ c = (cell.nodes j).localID
    then computeStiffMatrix cell j i else 0

/-- What one cell adds to the entry `b[r]`: nothing for a ghost cell, and otherwise, for every
free local node `i` with index `r`, its load minus `bcVal * stiffMatrix(i,k)` for every
Dirichlet node `k` of the cell. -/
def contribb (cell : Cell F) (r : Nat) : F :=
  if cell.ghost then 0
  else ∑ i : Fin 3,
    if (cell.nodes i).dirichlet = false ∧ r = (cell.nodes i).localID
    then integrateRHS cell i
      - ∑ k : Fin 3, (if (cell.nodes k).dirichlet = true
          then (cell.nodes k).bc * computeStiffMatrix cell i k else 0)
    else 0

/-- The mesh made of the single triangle `bndCell`. -/
def bndMesh : Mesh ℚ where
  cells := [bndCell]
  nodes := [bndCell.nodes 0, bndCell.nodes 1, bndCell.nodes 2]

/-- The unit square cut into the triangles `(0,0), (1,0), (0,1)` and `(1,0), (1,1), (0,1)`;
the node `(1,0)` is a Dirichlet node, the three others are free. -/
def squareMesh : Mesh ℚ where
  cells := [bndCell,
    { nodes := ![⟨(1, 0), 1, 1, true, 1, false⟩, ⟨(1, 1), 3, 3, false, 0, false⟩,
        ⟨(0, 1), 2, 2, false, 0, false⟩],
      tagD := ![Dxx, Dyy, Dxy], ghost := false }]
  nodes := [⟨(0, 0), 0, 0, false, 0, false⟩, ⟨(1, 0), 1, 1, true, 1, false⟩,
    ⟨(0, 1), 2, 2, false, 0, false⟩, ⟨(1, 1), 3, 3, false, 0, false⟩]

/-- The mesh `squareMesh` with its two cells visited in the other order. -/
def squareMeshRev : Mesh ℚ :=
  { squareMesh with cells := squareMesh.cells.reverse }

end FEM

/-! ## The external engines: residual with Jacobian, linear solver, outcome of a run -/

section Engines

variable {F : Type} [LinearOrderedField F]

/-- The object `Residual`: the residual vector and the rows of its Jacobian, a row being the
list of its (column, coefficient) pairs as they were accumulated. -/
structure Residual (F : Type) where
  res : Nat → F
  jac : Nat → List (Nat × F)

/-- The residual after its construction `Residual(name, first, last)`: all zero. -/
def Residual.empty : Residual F := ⟨fun _ => 0, fun _ => []⟩

/-- The statement `R[i] += c` for a number `c`. -/
def Residual.addConst (R : Residual F) (i : Nat) (c : F) : Residual F :=
  { R with res := Function.update R.res i (R.res i + c) }

/-- The statement `R[i] += c * var`, where the unknown `var` has index `j` and value `v`: the
value is added to the residual and the coefficient to the Jacobian row. -/
def Residual.addVar (R : Residual F) (i : Nat) (c : F) (j : Nat) (v : F) : Residual F :=
  { res := Function.update R.res i (R.res i + c * v),
    jac := Function.update R.jac i ((j, c) :: R.jac i) }

/-- The product of a Jacobian row with a vector. -/
def rowApply (row : List (Nat × F)) (s : Nat → F) : F :=
  (row.map fun e => e.2 * s e.1).sum

/-- What `S.Solve(rhs, sol)` hands back: the success flag and the vector `sol`. -/
structure SolverResult (F : Type) where
  solved : Bool
  sol : Nat → F

/-- What a run of `main` leaves behind: its exit status and the file written by
`saveSolution`, if `saveSolution` was reached. -/
structure Outcome where
  status : Nat
  saved : Option String
  deriving DecidableEq

/-- The file name `res.vtk`. -/
def resVtk : String := "res.vtk"

/-- The residual `Ru`, assembled at the values `u`, is the affine image of `u` recorded by the
residual `R0` assembled at zero: same Jacobian, and value `J u + R0`. -/
def AffineOf (u : Nat → F) (Ru R0 : Residual F) : Prop :=
  Ru.jac = R0.jac ∧ ∀ r, Ru.res r = rowApply (R0.jac r) u + R0.res r

end Engines

/-! ## `2d_diffusion_vem.cpp`: global assembly, solve and run -/

namespace VEM2D

variable {F : Type} [LinearOrderedField F]

/-- A node of the mesh with its fields `SOLUTION` and `SOLUTION_EXACT`. -/
structure MeshNode (F : Type) where
  node : Node F
  /-- The value of `Real(tagSol)` -/
  sol : F
  /-- The value of `Real(tagSolEx)` -/
  solEx : F

/-- The mesh as the 2D VEM driver reads it. -/
structure Mesh (F : Type) where
  cells : List (Cell F)
  nodes : List (MeshNode F)

/-- The inner loop `for j` of a Dirichlet node `i` in `assembleGlobalSystem`:
`R[var.Index(nodes[j])] += bcVal * W(j,i)` for every node `j` that is not a Dirichlet node. -/
def dirichletLoop (cell : Cell F) (W : Matrix (Fin cell.nn) (Fin cell.nn) F)
    (i : Fin cell.nn) (R : Residual F) : Residual F :=
  (List.finRange cell.nn).foldl
    (fun R j =>
      if !(cell.nodes j).dirichlet then
        R.addConst (cell.nodes j).index ((cell.nodes i).bc * W j i)
      else R)
    R

/-- The inner loop `for j` of a node `i` with unknown in `assembleGlobalSystem`:
`R[var.Index(nodes[i])] += W(j,i) * var(nodes[j])` for every node `j` that is not a Dirichlet
node; the unknowns have the values `u`, by index. -/
def unknownLoop (u : Nat → F) (cell : Cell F) (W : Matrix (Fin cell.nn) (Fin cell.nn) F)
    (i : Fin cell.nn) (R : Residual F) : Residual F :=
  (List.finRange cell.nn).foldl
    (fun R j =>
      if !(cell.nodes j).dirichlet then
        R.addVar (cell.nodes i).index (W j i) (cell.nodes j).index (u (cell.nodes j).index)
      else R)
    R

/-- The loop `for i` over the nodes of one cell in `assembleGlobalSystem`. -/
def assembleCell (u : Nat → F) (cell : Cell F) (W : Matrix (Fin cell.nn) (Fin cell.nn) F)
    (rhs : Fin cell.nn → F) (R : Residual F) : Residual F :=
  (List.finRange cell.nn).foldl
    (fun R i =>
      if (cell.nodes i).dirichlet then dirichletLoop cell W i R
      else (unknownLoop u cell W i R).addConst (cell.nodes i).index (-(rhs i)))
    R

/-- One pass of the cell loop of `assembleGlobalSystem`; `none` is the `exit(1)` of
`assembleLocalSystem`, after which nothing more happens. -/
def processCell (sqrtF : F → F) (u : Nat → F) (R : Option (Residual F)) (cell : Cell F) :
    Option (Residual F) :=
  match R with
  | none => none
  | some R =>
    if cell.ghost then some R
    else
      match assembleLocalSystem sqrtF cell with
      | none => none
      | some (W, rhs) => some (assembleCell u cell W rhs R)

/-- The method `Problem::assembleGlobalSystem` of the 2D VEM driver, on the residual created by
`initProblem`; `u` holds the current values of the unknowns, by index. -/
def assembleGlobalSystem (sqrtF : F → F) (cells : List (Cell F)) (u : Nat → F) :
    Option (Residual F) :=
  cells.foldl (processCell sqrtF u) (some Residual.empty)

/-- One pass of the node loop of `solveSystem`: a Dirichlet node is skipped, any other node has
`sol[var.Index(node)]` subtracted from its `SOLUTION` and enters `Cnorm`. -/
def solveStep (sol : Nat → F) (acc : List (MeshNode F) × F) (n : MeshNode F) :
    List (MeshNode F) × F :=
  if n.node.dirichlet then (acc.1 ++ [n], acc.2)
  else
    (acc.1 ++ [{ n with sol := n.sol - sol n.node.index }],
      max acc.2 |(n.sol - sol n.node.index) - n.solEx|)

/-- The method `Problem::solveSystem` of the 2D VEM driver, given what the solver hands back:
`none` is the `exit(1)` after a failed solve, otherwise the updated nodes and the printed
`|err|_C`. -/
def solveSystem (nodes : List (MeshNode F)) (out : SolverResult F) :
    Option (List (MeshNode F) × F) :=
  if !out.solved then none else some (nodes.foldl (solveStep out.sol) ([], 0))

/-- The value of the unknown with a given index, read from the field `SOLUTION` of the node
that carries it (0 when there is none). -/
def unknownValue (nodes : List (MeshNode F)) (idx : Nat) : F :=
  match nodes.find? (fun n => !n.node.dirichlet && n.node.index == idx) with
  | some n => n.sol
  | none => 0

/-- The function `main` of the 2D VEM driver from the mesh as `initProblem` leaves it; the
linear solver is the parameter `Solve`. -/
def main (sqrtF : F → F) (Solve : Residual F → SolverResult F) (argc : Nat) (m : Mesh F) :
    Outcome :=
  if argc ≠ 2 then ⟨1, none⟩
  else
    match assembleGlobalSystem sqrtF m.cells (unknownValue m.nodes) with
    | none => ⟨1, none⟩
    | some R =>
      match solveSystem m.nodes (Solve R) with
      | none => ⟨1, none⟩
      | some _ => ⟨0, some resVtk⟩

/-- The value that enters the equation of a node of the cell for its node `j`: the boundary
value of a Dirichlet node, the unknown of any other node. -/
def nodeValue (u : Nat → F) (cell : Cell F) (j : Fin cell.nn) : F :=
  if (cell.nodes j).dirichlet then (cell.nodes j).bc else u (cell.nodes j).index

/-- What one cell adds to the residual entry `r`: for every node `k` of the cell that is not a
Dirichlet node and has index `r`, the sum of `W(k,j)` times the value of node `j`, minus the
load of `k`; a ghost cell adds nothing. -/
def cellResidual (sqrtF : F → F) (u : Nat → F) (cell : Cell F) (r : Nat) : F :=
  if cell.ghost then 0
  else ∑ k : Fin cell.nn,
    if (cell.nodes k).dirichlet = false ∧ (cell.nodes k).index = r
    then (∑ j : Fin cell.nn, W sqrtF cell k j * nodeValue u cell j) - b cell k
    else 0

/-- The node after the update of `solveSystem`: a Dirichlet node is left alone, any other node
has the solver output at its index subtracted from `SOLUTION`. -/
def updateNode (sol : Nat → F) (n : MeshNode F) : MeshNode F :=
  if n.node.dirichlet then n else { n with sol := n.sol - sol n.node.index }

/-- A mesh of one counter-clockwise triangle `(0,0), (3,0), (0,4)` whose first two nodes are
Dirichlet nodes with the boundary values `exactSolution = x`, the third node carrying the
unknown of index 0. -/
def oneFreeTriangle : Cell ℚ where
  nn := 3
  nodes := ![⟨(0, 0), true, 0, 0⟩, ⟨(3, 0), true, 3, 0⟩, ⟨(0, 4), false, 0, 0⟩]
  nfaces := 3
  xc := (1, 4 / 3)
  volume := 6
  tagD := ![1, 1, 0]
  ghost := false

/-- The nodes of `oneFreeTriangle` as `initProblem` leaves them: `SOLUTION = 10` everywhere,
`SOLUTION_EXACT = x`. -/
def oneFreeNodes : List (MeshNode ℚ) :=
  [⟨⟨(0, 0), true, 0, 0⟩, 10, 0⟩, ⟨⟨(3, 0), true, 3, 0⟩, 10, 3⟩, ⟨⟨(0, 4), false, 0, 0⟩, 10, 0⟩]

/-- The mesh made of `oneFreeTriangle`. -/
def oneFreeMesh : Mesh ℚ := ⟨[oneFreeTriangle], oneFreeNodes⟩

/-- A successful solve whose output is 10 at every index. -/
def solvedTen : SolverResult ℚ := ⟨true, fun _ => 10⟩

end VEM2D

/-! ## `2d_diffusion_mfd.cpp`: global assembly, solve and run -/

namespace MFD

variable {F : Type} [LinearOrderedField F]

/-- The function `exactSolution(x)` of the MFD driver. -/
def exactSolution (x : F × F) : F := x.1

/-- The function `exactFlux(f)`: the flux `(-1, 0)` times the unit normal of the face. -/
def exactFlux (f : Face F) : F := -1 * f.n.1 + 0 * f.n.2

/-- The indices that `EnumerateEntries` gives to the unknowns: `varP.Index(cell)` by the handle
of the cell, `varU.Index(f)` by the `LocalID` of the face. -/
structure Automatizator where
  indexP : Nat → Nat
  indexU : Nat → Nat

/-- The mesh as the MFD driver reads it. -/
structure Mesh (F : Type) where
  cells : List (Cell F)
  faces : List (Face F)

/-- The coefficient `a` of the loop of the cell equation: the sign, times
`f->Area() / cell.Volume()`. -/
def divCoef (cell : Cell F) (i : Fin cell.nf) : F :=
  sign cell i * ((cell.faces i).area / cell.volume)

/-- The loop `R[varP.Index(cell)] += a * varU(f)` over the faces of the cell; the flux
unknowns have the values `u`, by face. -/
def divLoop (aut : Automatizator) (u : Nat → F) (cell : Cell F) (R : Residual F) :
    Residual F :=
  (List.finRange cell.nf).foldl
    (fun R i =>
      R.addVar (aut.indexP cell.handle) (divCoef cell i) (aut.indexU (cell.faces i).id)
        (u (cell.faces i).id))
    R

/-- The value `lam` of face `i`: `exactSolution` at the barycenter of a boundary face, `0.0`
for any other face. -/
def lam (cell : Cell F) (i : Fin cell.nf) : F :=
  if (cell.faces i).boundary then exactSolution (cell.faces i).xf else 0

/-- The vector `res(i,0) = a * (varP(cell) - lam)` with `a = sign * Area`, for a cell pressure
`pc` and given values `lam`. -/
def resWith (cell : Cell F) (pc : F) (lamv : Fin cell.nf → F) : Fin cell.nf → F :=
  fun i => (sign cell i * (cell.faces i).area) * (pc - lamv i)

/-- The vector `res` of `assembleGlobalSystem`. -/
def res (cell : Cell F) (pc : F) : Fin cell.nf → F :=
  resWith cell pc (lam cell)

/-- The vector `uc(i,0) = varU(f)` of the flux unknowns of the faces of the cell. -/
def uc (u : Nat → F) (cell : Cell F) : Fin cell.nf → F :=
  fun i => u (cell.faces i).id

/-- The vector `uc` after `uc = MF * uc - res`. -/
def ucNew (cell : Cell F) (MF : Matrix (Fin cell.nf) (Fin cell.nf) F) (pc : F)
    (u : Nat → F) : Fin cell.nf → F :=
  MF *ᵥ uc u cell - res cell pc

/-- The statement `R[varU.Index(f)] += uc(i,0)` for face `i`: the entries of row `i` of `MF`
times the flux unknowns, minus `a` times the pressure unknown, plus the number `a * lam`. -/
def addFaceEq (aut : Automatizator) (p u : Nat → F) (cell : Cell F)
    (MF : Matrix (Fin cell.nf) (Fin cell.nf) F) (i : Fin cell.nf) (R : Residual F) :
    Residual F :=
  let R := (List.finRange cell.nf).foldl
    (fun R k =>
      R.addVar (aut.indexU (cell.faces i).id) (MF i k) (aut.indexU (cell.faces k).id)
        (u (cell.faces k).id))
    R
  let R := R.addVar (aut.indexU (cell.faces i).id) (-(sign cell i * (cell.faces i).area))
    (aut.indexP cell.handle) (p cell.handle)
  R.addConst (aut.indexU (cell.faces i).id) (sign cell i * (cell.faces i).area * lam cell i)

/-- The body of the cell loop of `assembleGlobalSystem` once `MF` is there: the cell equation,
then the face equations. -/
def assembleCell (aut : Automatizator) (p u : Nat → F) (cell : Cell F)
    (MF : Matrix (Fin cell.nf) (Fin cell.nf) F) (R : Residual F) : Residual F :=
  (List.finRange cell.nf).foldl (fun R i => addFaceEq aut p u cell MF i R)
    (divLoop aut u cell R)

/-- What the cell loop adds to residual entry `r` for one cell: the cell equation when `r` is
the index of the pressure unknown of the cell, and the entry `uc(i,0)` for every face `i` of
the cell whose flux unknown has the index `r`. -/
def cellResidual (aut : Automatizator) (p u : Nat → F) (cell : Cell F) (r : Nat) : F :=
  if cell.ghost then 0
  else
    (if r = aut.indexP cell.handle then ∑ i, divCoef cell i * uc u cell i else 0)
      + ∑ i, if r = aut.indexU (cell.faces i).id then
          ucNew cell (MP cell) (p cell.handle) u i else 0

/-- One pass of the cell loop of `assembleGlobalSystem`; `none` is the `exit(1)` of
`assembleLocalSystem`, after which nothing more happens. -/
def processCell (sqrtF : F → F) (aut : Automatizator) (p u : Nat → F)
    (R : Option (Residual F)) (cell : Cell F) : Option (Residual F) :=
  match R with
  | none => none
  | some R =>
    if cell.ghost then some R
    else
      match assembleLocalSystem sqrtF cell with
      | none => none
      | some MF => some (assembleCell aut p u cell MF R)

/-- The method `Problem::assembleGlobalSystem` of the MFD driver, on the residual created by
`initProblem`; `p` holds the values of the pressure unknowns, by cell, and `u` the values of
the flux unknowns, by face. -/
def assembleGlobalSystem (sqrtF : F → F) (aut : Automatizator) (cells : List (Cell F))
    (p u : Nat → F) : Option (Residual F) :=
  cells.foldl (processCell sqrtF aut p u) (some Residual.empty)

/-- The fields after `solveSystem`: `SOLUTION` by cell, `FLUX` by face, and the two printed
norms. -/
structure Solved (F : Type) where
  p : Nat → F
  u : Nat → F
  CnormP : F
  CnormQ : F

/-- The method `Problem::solveSystem` of the MFD driver, given what the solver hands back:
`none` is the `exit(1)` after a failed solve; `p`, `pEx` and `u` are the fields `SOLUTION`,
`SOLUTION_EXACT` (by cell) and `FLUX` (by face). -/
def solveSystem (aut : Automatizator) (m : Mesh F) (p pEx u : Nat → F)
    (out : SolverResult F) : Option (Solved F) :=
  if !out.solved then none
  else
    let pc := m.cells.foldl
      (fun (acc : (Nat → F) × F) c =>
        let v := acc.1 c.handle - out.sol (aut.indexP c.handle)
        (Function.update acc.1 c.handle v, max acc.2 |v - pEx c.handle|))
      (p, 0)
    let uf := m.faces.foldl
      (fun (acc : (Nat → F) × F) f =>
        let v := acc.1 f.id - out.sol (aut.indexU f.id)
        (Function.update acc.1 f.id v, max acc.2 |v - exactFlux f|))
      (u, 0)
    some ⟨pc.1, uf.1, pc.2, uf.2⟩

/-- The function `main` of the MFD driver from the mesh as `initProblem` leaves it, the fields
`SOLUTION`, `SOLUTION_EXACT` and `FLUX` being `p`, `pEx` and `u`; the linear solver is the
parameter `Solve`. -/
def main (sqrtF : F → F) (aut : Automatizator) (Solve : Residual F → SolverResult F)
    (argc : Nat) (m : Mesh F) (p pEx u : Nat → F) : Outcome :=
  if argc ≠ 2 then ⟨1, none⟩
  else
    match assembleGlobalSystem sqrtF aut m.cells p u with
    | none => ⟨1, none⟩
    | some R =>
      match solveSystem aut m p pEx u (Solve R) with
      | none => ⟨1, none⟩
      | some _ => ⟨0, some resVtk⟩

/-- The exact normal flux `-(n^T D g)` through face `i` of a field with gradient `g`. -/
def normalFlux (cell : Cell F) (g : F × F) (i : Fin cell.nf) : F :=
  -((cell.faces i).n.1 * (cell.tagD 0 * g.1 + cell.tagD 2 * g.2)
    + (cell.faces i).n.2 * (cell.tagD 2 * g.1 + cell.tagD 1 * g.2))

/-- The cell equation `sum_i a_i * Area_i / Volume * u_i` for the flux values `uv`. -/
def divEq (cell : Cell F) (uv : Fin cell.nf → F) : F :=
  ∑ i, divCoef cell i * uv i

/-- The cell above `squareCell`: the unit square `(0,1), (1,1), (1,2), (0,2)` with handle 8; its
bottom face is the top face of `squareCell`, of which it is the back cell. -/
def upperCell : Cell ℚ where
  handle := 8
  nf := 4
  faces := ![⟨2, (1 / 2, 1), (0, -1), 1, some 7, false⟩, ⟨4, (1, 3 / 2), (1, 0), 1, none, true⟩,
    ⟨5, (1 / 2, 2), (0, 1), 1, none, true⟩, ⟨6, (0, 3 / 2), (-1, 0), 1, none, true⟩]
  xP := (1 / 2, 3 / 2)
  volume := 1
  tagD := ![1, 10, 0]
  ghost := false

/-- The exact normal fluxes of a field with gradient `(3, 5)` through the faces 0 to 6 of
`squareCell` and `upperCell`, by face. -/
def affineFlux : Nat → ℚ := fun f => [50, -3, 50, 3, -3, -50, 3].getD f 0

/-- The data of `squareCell` with the tensor `diag(3, 4)` and the stored volume 2: the test of
`assembleLocalSystem` fails on it. -/
def badCell : Cell ℚ where
  handle := 9
  nf := 4
  faces := ![⟨0, (1 / 2, 0), (0, -1), 1, none, true⟩, ⟨1, (1, 1 / 2), (1, 0), 1, none, true⟩,
    ⟨2, (1 / 2, 1), (0, 1), 1, none, true⟩, ⟨3, (0, 1 / 2), (-1, 0), 1, none, true⟩]
  xP := (1 / 2, 1 / 2)
  volume := 2
  tagD := ![3, 4, 0]
  ghost := false

/-- The enumeration that gives cell `h` the index `2 h` and face `f` the index `2 f + 1`. -/
def evenOdd : Automatizator := ⟨fun h => 2 * h, fun f => 2 * f + 1⟩

end MFD

/-! ## `2d_poisson_fem.cpp`: solve and run -/

namespace FEM

variable {F : Type} [LinearOrderedField F]

/-- The method `Problem::solveSystem` of the FEM driver, given what the solver hands back:
`none` is the `exit(1)` after a failed solve, otherwise the field `SOLUTION` and the printed
`|err|_C`; the fields `SOLUTION` and `SOLUTION_EXACT` are `tagSol` and `tagSolEx`, by
`LocalID`. -/
def solveSystem (nodes : List (Node F)) (tagSol tagSolEx : Nat → F) (out : SolverResult F) :
    Option ((Nat → F) × F) :=
  if !out.solved then none
  else
    some (nodes.foldl
      (fun (acc : (Nat → F) × F) n =>
        if n.dirichlet then acc
        else
          (Function.update acc.1 n.localID (out.sol n.globalID),
            max acc.2 |out.sol n.globalID - tagSolEx n.localID|))
      (tagSol, 0))

/-- The function `main` of the FEM driver from the mesh as `initProblem` leaves it; the linear
solver is the parameter `Solve`. -/
def main (Solve : LinearSystem F → SolverResult F) (argc : Nat) (m : Mesh F)
    (tagSol tagSolEx : Nat → F) : Outcome :=
  if argc ≠ 2 then ⟨1, none⟩
  else
    match solveSystem m.nodes tagSol tagSolEx
        (Solve (assembleGlobalSystem m ⟨fun _ _ => 0, fun _ => 0, 0⟩)) with
    | none => ⟨1, none⟩
    | some _ => ⟨0, some resVtk⟩

end FEM

/-! ## `3d_diffusion_vem.cpp`: local system, global assembly, solve and run -/

namespace VEM3D

variable {F : Type} [LinearOrderedField F]

/-- The library routine `Invert(&ierr)` as a parameter: the matrix it returns and the error
code it leaves in `ierr`. -/
abbrev Inverter (F : Type) : Type :=
  Matrix (Fin n_polys) (Fin n_polys) F → Matrix (Fin n_polys) (Fin n_polys) F × Int

/-- The routine `Invert(&ierr)` in exact arithmetic: the inverse and the code 0, or the code 1
when the matrix is singular. -/
def invertErr : Inverter F :=
  fun A => (Invert A, if A.det = 0 then 1 else 0)

/-- What `assembleLocalSystem` hands back to its caller. -/
structure LocalSystem (F : Type) (n : Nat) where
  W : Matrix (Fin n) (Fin n) F
  b : Fin n → F
  /-- Whether the block under `if(ierr > 0)` ran, which prints `ierr`, `B`, `D` and `B*D` -/
  printed : Bool

/-- The method `Problem::assembleLocalSystem` of the 3D VEM driver, for a cell on which its two
assertions hold: after `(B*D).Invert(&ierr)` the block under `if(ierr > 0)` prints, and the
function goes on to `Proj`, `Se`, `G`, `W` and `b` whatever `ierr` is. -/
def assembleLocalSystem (sqrtF : F → F) (rhsF : (Fin 3 → F) → F) (inv : Inverter F)
    (cell : Cell F) : LocalSystem F cell.nn :=
  let BDinv := (inv (B sqrtF cell * D sqrtF cell)).1
  let ierr := (inv (B sqrtF cell * D sqrtF cell)).2
  let Proj := BDinv * B sqrtF cell
  let Se := 1 - D sqrtF cell * Proj
  ⟨Projᵀ * G sqrtF cell * Proj + Seᵀ * Se, b rhsF cell, decide (ierr > 0)⟩

/-- A node of the mesh with its fields `SOLUTION` and `SOLUTION_EXACT`. -/
structure MeshNode (F : Type) where
  node : Node F
  /-- The value of `Real(tagSol)` -/
  sol : F
  /-- The value of `Real(tagSolEx)` -/
  solEx : F

/-- The mesh as the 3D VEM driver reads it. -/
structure Mesh (F : Type) where
  cells : List (Cell F)
  nodes : List (MeshNode F)
  /-- The value of `GetProcessorsNumber()` -/
  procs : Nat

/-- The inner loop `for j` of a Dirichlet node `i` in `assembleGlobalSystem`:
`R[var.Index(nodes[j])] += bcVal * W(j,i)` for every node `j` that is neither a ghost nor a
Dirichlet node. -/
def dirichletLoop (cell : Cell F) (W : Matrix (Fin cell.nn) (Fin cell.nn) F)
    (i : Fin cell.nn) (R : Residual F) : Residual F :=
  (List.finRange cell.nn).foldl
    (fun R j =>
      if !(cell.nodes j).ghost && !(cell.nodes j).dirichlet then
        R.addConst (cell.nodes j).index ((cell.nodes i).bc * W j i)
      else R)
    R

/-- The inner loop `for j` of a node `i` with unknown in `assembleGlobalSystem`:
`R[var.Index(nodes[i])] += W(j,i) * var(nodes[j])` for every node `j` that is not a Dirichlet
node; the unknowns have the values `u`, by index. -/
def unknownLoop (u : Nat → F) (cell : Cell F) (W : Matrix (Fin cell.nn) (Fin cell.nn) F)
    (i : Fin cell.nn) (R : Residual F) : Residual F :=
  (List.finRange cell.nn).foldl
    (fun R j =>
      if !(cell.nodes j).dirichlet then
        R.addVar (cell.nodes i).index (W j i) (cell.nodes j).index (u (cell.nodes j).index)
      else R)
    R

/-- The loop `for i` over the nodes of one cell in `assembleGlobalSystem`. -/
def assembleCell (u : Nat → F) (cell : Cell F) (W : Matrix (Fin cell.nn) (Fin cell.nn) F)
    (rhs : Fin cell.nn → F) (R : Residual F) : Residual F :=
  (List.finRange cell.nn).foldl
    (fun R i =>
      if (cell.nodes i).dirichlet then dirichletLoop cell W i R
      else if !(cell.nodes i).ghost then
        (unknownLoop u cell W i R).addConst (cell.nodes i).index (-(rhs i))
      else R)
    R

/-- One pass of the cell loop of `assembleGlobalSystem`: every cell is taken, the test of the
ghost status being commented out, and whatever `assembleLocalSystem` hands back is added. -/
def processCell (sqrtF : F → F) (rhsF : (Fin 3 → F) → F) (inv : Inverter F) (u : Nat → F)
    (R : Residual F) (cell : Cell F) : Residual F :=
  let L := assembleLocalSystem sqrtF rhsF inv cell
  assembleCell u cell L.W L.b R

/-- The method `Problem::assembleGlobalSystem` of the 3D VEM driver, on the residual created by
`initProblem`; `u` holds the current values of the unknowns, by index. -/
def assembleGlobalSystem (sqrtF : F → F) (rhsF : (Fin 3 → F) → F) (inv : Inverter F)
    (cells : List (Cell F)) (u : Nat → F) : Residual F :=
  cells.foldl (processCell sqrtF rhsF inv u) Residual.empty

/-- One pass of the node loop of `solveSystem`: a ghost or Dirichlet node is skipped, any other
node has `sol[var.Index(node)]` subtracted from its `SOLUTION` and enters `Cnorm`. -/
def solveStep (sol : Nat → F) (acc : List (MeshNode F) × F) (n : MeshNode F) :
    List (MeshNode F) × F :=
  if !n.node.ghost && !n.node.dirichlet then
    (acc.1 ++ [{ n with sol := n.sol - sol n.node.index }],
      max acc.2 |(n.sol - sol n.node.index) - n.solEx|)
  else (acc.1 ++ [n], acc.2)

/-- The method `Problem::solveSystem` of the 3D VEM driver, given what the solver hands back: the
nodes when it returns, and the printed `|err|_C` if it got that far. After a failed solve it
prints the reason and returns. -/
def solveSystem (nodes : List (MeshNode F)) (out : SolverResult F) :
    List (MeshNode F) × Option F :=
  if !out.solved then (nodes, none)
  else
    let r := nodes.foldl (solveStep out.sol) ([], 0)
    (r.1, some r.2)

/-- The method `Problem::saveSolution(prefix)`: the name of the file that is written. -/
def saveSolution (procs : Nat) (pre : String) : String :=
  pre ++ (if procs > 1 then ".pvtk" else ".vtk")

/-- The value of the unknown with a given index, read from the field `SOLUTION` of the node
that carries it (0 when there is none). -/
def unknownValue (nodes : List (MeshNode F)) (idx : Nat) : F :=
  match nodes.find? (fun n => !n.node.dirichlet && n.node.index == idx) with
  | some n => n.sol
  | none => 0

/-- The function `main` of the 3D VEM driver from the mesh as `initProblem` leaves it; the
library routines `Invert` and `Solve` are parameters. What `solveSystem` returns is not looked
at before `saveSolution("res")`. -/
def main (sqrtF : F → F) (rhsF : (Fin 3 → F) → F) (inv : Inverter F)
    (Solve : Residual F → SolverResult F) (argc : Nat) (m : Mesh F) : Outcome :=
  if argc ≠ 2 then ⟨1, none⟩
  else
    let R := assembleGlobalSystem sqrtF rhsF inv m.cells (unknownValue m.nodes)
    let _after := solveSystem m.nodes (Solve R)
    ⟨0, some (saveSolution m.procs "res")⟩

/-- A flat cell: the rectangle `(0,0,0), (3,0,0), (3,4,0), (0,4,0)` taken twice as a face, once
with the unit normal `(0,0,-1)` and once with `(0,0,1)`, of volume 0, with the tensor
`diag(10, 2, 1)` of the driver; its nodes carry the unknowns 0 to 3. -/
def flatCell : Cell ℚ where
  nn := 4
  nodes := ![⟨![0, 0, 0], 10, false, 0, false, 0⟩, ⟨![3, 0, 0], 11, false, 0, false, 1⟩,
    ⟨![3, 4, 0], 12, false, 0, false, 2⟩, ⟨![0, 4, 0], 13, false, 0, false, 3⟩]
  faces := [⟨12, ![0, 0, -1], [10, 13, 12, 11]⟩, ⟨12, ![0, 0, 1], [10, 11, 12, 13]⟩]
  xc := ![3 / 2, 2, 0]
  volume := 0
  tagD := ![10, 2, 1, 0, 0, 0]
  ghost := false

/-- The nodes of `flatCell` as mesh nodes, with `SOLUTION = 7` and `SOLUTION_EXACT = 0`. -/
def flatNodes : List (MeshNode ℚ) :=
  [⟨⟨![0, 0, 0], 10, false, 0, false, 0⟩, 7, 0⟩, ⟨⟨![3, 0, 0], 11, false, 0, false, 1⟩, 7, 0⟩,
    ⟨⟨![3, 4, 0], 12, false, 0, false, 2⟩, 7, 0⟩, ⟨⟨![0, 4, 0], 13, false, 0, false, 3⟩, 7, 0⟩]

/-- The mesh made of `flatCell`, on one processor. -/
def flatMesh : Mesh ℚ := ⟨[flatCell], flatNodes, 1⟩

/-- The tetrahedron `tetraCell` with its node `(0,0,1)` carrying the unknown 0 instead of a
boundary value. -/
def freeTetra : Cell ℚ :=
  { tetraCell with
    nodes := ![⟨![0, 0, 0], 10, true, 0, false, 0⟩, ⟨![3, 0, 0], 11, true, 0, false, 1⟩,
      ⟨![0, 4, 0], 12, true, 0, false, 2⟩, ⟨![0, 0, 1], 13, false, 0, false, 0⟩] }

/-- The nodes of `freeTetra` as mesh nodes, with `SOLUTION = 7` and `SOLUTION_EXACT = 0`. -/
def freeTetraNodes : List (MeshNode ℚ) :=
  [⟨⟨![0, 0, 0], 10, true, 0, false, 0⟩, 7, 0⟩, ⟨⟨![3, 0, 0], 11, true, 0, false, 1⟩, 7, 0⟩,
    ⟨⟨![0, 4, 0], 12, true, 0, false, 2⟩, 7, 0⟩, ⟨⟨![0, 0, 1], 13, false, 0, false, 0⟩, 7, 0⟩]

/-- The mesh made of `freeTetra`, on one processor. -/
def freeTetraMesh : Mesh ℚ := ⟨[freeTetra], freeTetraNodes, 1⟩

end VEM3D

/-- A failed solve: the flag is `false`. -/
def failedSolve : SolverResult ℚ := ⟨false, fun _ => 0⟩
/-! ## Further objects of the drivers -/

namespace FEM

variable {F : Type} [LinearOrderedField F]

/-- The member `numDirNodes` after `initProblem`: the number of nodes that carry the marker
`mrkDirNode`. -/
def Mesh.numDirNodes (m : Mesh F) : Nat := (m.nodes.filter fun n => n.dirichlet).length

/-- The local `res` of `integrateRHS`, statement by statement: `res.Zero()`,
`res(0,0) += exactSolutionRHS(x0) + exactSolutionRHS(x1) + exactSolutionRHS(x2)`,
`res(1,0) = res(0,0)`, `res(2,0) = res(0,0)`, and the returned `res * fabs(detBk) / 18.`. -/
def integrateRHSSteps (cell : Cell F) : Fin 3 → F :=
  let res0 : Fin 3 → F := fun _ => 0
  let res1 := Function.update res0 0
    (res0 0 + (exactSolutionRHS (cell.nodes 0).x + exactSolutionRHS (cell.nodes 1).x
      + exactSolutionRHS (cell.nodes 2).x))
  let res2 := Function.update res1 1 (res1 0)
  let res3 := Function.update res2 2 (res2 0)
  fun i => res3 i * |detBk cell| / 18

/-- The point `x0 + s (x1 - x0) + t (x2 - x0)` of the triangle with the reference coordinates
`(s, t)`. -/
def refMap (cell : Cell F) (s t : F) : F × F :=
  ((cell.nodes 0).x.1 + s * ((cell.nodes 1).x.1 - (cell.nodes 0).x.1)
      + t * ((cell.nodes 2).x.1 - (cell.nodes 0).x.1),
    (cell.nodes 0).x.2 + s * ((cell.nodes 1).x.2 - (cell.nodes 0).x.2)
      + t * ((cell.nodes 2).x.2 - (cell.nodes 0).x.2))

/-- A triangle `(0,0), (1,0), (0,1)` in a mesh whose node storage has an empty slot: the nodes
have the `LocalID` 0, 2, 3 and the `GlobalID` 0, 1, 2; the node `(1,0)` is a Dirichlet node
with the boundary value 1. -/
def holeCell : Cell ℚ where
  nodes := ![⟨(0, 0), 0, 0, false, 0, false⟩, ⟨(1, 0), 2, 1, true, 1, false⟩,
    ⟨(0, 1), 3, 2, false, 0, false⟩]
  tagD := ![Dxx, Dyy, Dxy]
  ghost := false

/-- The mesh made of the single triangle `holeCell`. -/
def holeMesh : Mesh ℚ where
  cells := [holeCell]
  nodes := [holeCell.nodes 0, holeCell.nodes 1, holeCell.nodes 2]

/-- The triangle `bndCell` with the status `Ghost`. -/
def ghostCell : Cell ℚ := { bndCell with ghost := true }

end FEM

namespace VEM3D

variable {F : Type} [LinearOrderedField F]

/-- The cell `c` with other Dirichlet markers, indices of the unknowns and status, the geometry
and the `GlobalID` of the nodes being kept. -/
def relabel (c : Cell F) (dir : Fin c.nn → Bool) (idx : Fin c.nn → Nat) (g : Bool) : Cell F :=
  { c with
    nodes := fun i => { c.nodes i with dirichlet := dir i, index := idx i }
    ghost := g }

/-- The tetrahedron `tetraCell` as a ghost cell whose node `(0,0,1)` is not a ghost node and
carries the unknown 0; its three other nodes are Dirichlet nodes with the boundary value 0. -/
def ghostTetra : Cell ℚ :=
  relabel tetraCell (fun i => decide (i.val ≠ 3)) (fun i => if i.val = 3 then 0 else i.val) true

end VEM3D

/-! ## Theorems -/

section Dense
variable {F : Type} [LinearOrderedField F]

/-- A square matrix whose null space is the line spanned by a non-zero vector has rank one
less than its size. -/
theorem rank_of_kernel_line {n : Nat} (M : Matrix (Fin n) (Fin n) F) (w : Fin n → F)
    (hw : w ≠ 0) (hker : ∀ v : Fin n → F, M *ᵥ v = 0 ↔ ∃ a : F, v = a • w) :
    M.rank + 1 = n := by
  have hk : LinearMap.ker M.mulVecLin = Submodule.span F {w} := by
    ext v
    rw [LinearMap.mem_ker, Matrix.mulVecLin_apply, hker, Submodule.mem_span_singleton]
    constructor
    · rintro ⟨a, rfl⟩
      exact ⟨a, rfl⟩
    · rintro ⟨a, rfl⟩
      exact ⟨a, rfl⟩
  have h := LinearMap.finrank_range_add_finrank_ker M.mulVecLin
  rw [hk, finrank_span_singleton hw] at h
  simpa [Matrix.rank] using h

end Dense

namespace FEM
variable {F : Type} [LinearOrderedField F]

theorem Invert_fin_two (A : Matrix (Fin 2) (Fin 2) F) :
    Invert A = (A 0 0 * A 1 1 - A 0 1 * A 1 0)⁻¹ • !![A 1 1, -A 0 1; -A 1 0, A 0 0] := by
  simp [Invert, Matrix.det_fin_two, Matrix.adjugate_fin_two]

/-- The entries of `Ck`. -/
theorem Ck_entries (cell : Cell F) :
    Ck cell 0 0 = (Bk cell 1 1 * (cell.tagD 0 * Bk cell 1 1 - cell.tagD 2 * Bk cell 0 1)
        - Bk cell 0 1 * (cell.tagD 2 * Bk cell 1 1 - cell.tagD 1 * Bk cell 0 1)) / (detBk cell) ^ 2 ∧
    Ck cell 1 1 = (Bk cell 1 0 * (cell.tagD 0 * Bk cell 1 0 - cell.tagD 2 * Bk cell 0 0)
        - Bk cell 0 0 * (cell.tagD 2 * Bk cell 1 0 - cell.tagD 1 * Bk cell 0 0)) / (detBk cell) ^ 2 ∧
    Ck cell 0 1 = (Bk cell 1 1 * (- cell.tagD 0 * Bk cell 1 0 + cell.tagD 2 * Bk cell 0 0)
        - Bk cell 0 1 * (- cell.tagD 2 * Bk cell 1 0 + cell.tagD 1 * Bk cell 0 0)) / (detBk cell) ^ 2 := by
  simp only [Ck, Invert_fin_two, Dk, detBk]
  generalize Bk cell 0 0 = b00
  generalize Bk cell 0 1 = b01
  generalize Bk cell 1 0 = b10
  generalize Bk cell 1 1 = b11
  generalize (b00 * b11 - b01 * b10) = d
  refine ⟨?_, ?_, ?_⟩ <;>
  · simp only [Matrix.mul_apply, Fin.sum_univ_two, Matrix.transpose_apply, Matrix.smul_apply]
    simp
    ring

theorem computeStiffMatrix_entries (cell : Cell F) :
    computeStiffMatrix cell = (|detBk cell| / 2) •
      !![Ck cell 0 0 + Ck cell 1 1 + 2 * Ck cell 0 1, -(Ck cell 0 0 + Ck cell 0 1), -(Ck cell 1 1 + Ck cell 0 1);
         -(Ck cell 0 0 + Ck cell 0 1), Ck cell 0 0, Ck cell 0 1;
         -(Ck cell 1 1 + Ck cell 0 1), Ck cell 0 1, Ck cell 1 1] := by
  simp only [computeStiffMatrix, Kee, Knn, Ken]
  generalize Ck cell 0 0 = c00
  generalize Ck cell 0 1 = c01
  generalize Ck cell 1 1 = c11
  ext i j
  fin_cases i <;> fin_cases j <;>
  · simp only [Matrix.add_apply, Matrix.smul_apply, Matrix.transpose_apply]
    simp [Matrix.vecHead, Matrix.vecTail]
    ring

end FEM
namespace FEM
variable {F : Type} [LinearOrderedField F]

theorem grad_of_nodal (cell : Cell F) (hdet : detBk cell ≠ 0) (p : Affine F) :
    p.g.1 = ((p.eval (cell.nodes 1).x - p.eval (cell.nodes 0).x) * Bk cell 1 1
              - (p.eval (cell.nodes 2).x - p.eval (cell.nodes 0).x) * Bk cell 1 0) / detBk cell ∧
    p.g.2 = ((p.eval (cell.nodes 2).x - p.eval (cell.nodes 0).x) * Bk cell 0 0
              - (p.eval (cell.nodes 1).x - p.eval (cell.nodes 0).x) * Bk cell 0 1) / detBk cell := by
  constructor
  · rw [eq_div_iff hdet]
    simp [Affine.eval, detBk, Bk]
    ring
  · rw [eq_div_iff hdet]
    simp [Affine.eval, detBk, Bk]
    ring

theorem grad_eq_gradPhi (cell : Cell F) (hdet : detBk cell ≠ 0) (p : Affine F) (i : Fin 3)
    (hp : ∀ k, p.eval (cell.nodes k).x = if i = k then 1 else 0) : p.g = gradPhi cell i := by
  obtain ⟨hp1, hp2⟩ := grad_of_nodal cell hdet p
  rw [hp 0, hp 1, hp 2] at hp1 hp2
  exact Prod.ext hp1 hp2

theorem computeStiffMatrix_gradPhi (cell : Cell F) (i j : Fin 3) :
    computeStiffMatrix cell i j
      = area cell * tensorForm cell.tagD (gradPhi cell i) (gradPhi cell j) := by
  obtain ⟨c00, c11, c01⟩ := Ck_entries cell
  rw [computeStiffMatrix_entries, c00, c11, c01, area]
  simp only [tensorForm, gradPhi]
  generalize Bk cell 0 0 = b00 at *
  generalize Bk cell 0 1 = b01 at *
  generalize Bk cell 1 0 = b10 at *
  generalize Bk cell 1 1 = b11 at *
  generalize |detBk cell| = ad
  generalize detBk cell = d at *
  generalize cell.tagD 0 = d0
  generalize cell.tagD 1 = d1
  generalize cell.tagD 2 = d2
  clear c00 c11 c01
  fin_cases i <;> fin_cases j
  all_goals
    simp [Matrix.vecHead, Matrix.vecTail]
    left
    ring

theorem abs_detBk_sq (cell : Cell F) : |detBk cell| * |detBk cell| = detBk cell * detBk cell :=
  abs_mul_abs_self _

theorem gradPhi_dot_edge (cell : Cell F) (i j : Fin 3) :
    tensorForm ![1, 1, 0] (gradPhi cell i) (gradPhi cell j)
      = dot (edgeOpp cell i) (edgeOpp cell j) / (detBk cell * detBk cell) := by
  simp only [tensorForm, gradPhi, dot, edgeOpp, Bk]
  generalize detBk cell = d
  fin_cases i <;> fin_cases j <;>
  · simp [Matrix.vecHead, Matrix.vecTail]
    ring

/-- C1: for a non-degenerate triangle, entry `(i,j)` of `computeStiffMatrix` is
`Area * grad(phi_i)^T D grad(phi_j)` for the affine nodal basis functions `phi_i`
(`phi_i` is 1 at vertex `i` and 0 at the two others), `Area = |det B| / 2`, and `D` the symmetric
tensor of the stored components; for `D = Identity` the entry is `(e_i . e_j) / (4 Area)` with
`e_i` the edge vector opposite vertex `i`. -/
theorem computeStiffMatrix_eq_reference (cell : Cell F) (hdet : detBk cell ≠ 0)
    (phi : Fin 3 → Affine F)
    (hphi : ∀ i k, (phi i).eval (cell.nodes k).x = if i = k then 1 else 0) :
    (∀ i j, computeStiffMatrix cell i j
        = area cell * tensorForm cell.tagD (phi i).g (phi j).g) ∧
    (cell.tagD = ![1, 1, 0] → ∀ i j, computeStiffMatrix cell i j
        = dot (edgeOpp cell i) (edgeOpp cell j) / (4 * area cell)) := by
  have key : ∀ i j, computeStiffMatrix cell i j
      = area cell * tensorForm cell.tagD (phi i).g (phi j).g := by
    intro i j
    rw [grad_eq_gradPhi cell hdet (phi i) i (hphi i), grad_eq_gradPhi cell hdet (phi j) j (hphi j)]
    exact computeStiffMatrix_gradPhi cell i j
  refine ⟨key, ?_⟩
  intro hD i j
  rw [computeStiffMatrix_gradPhi, hD, gradPhi_dot_edge, area]
  have h2 := abs_detBk_sq cell
  have ha : |detBk cell| ≠ 0 := abs_ne_zero.mpr hdet
  field_simp
  linear_combination (4 * dot (edgeOpp cell i) (edgeOpp cell j)) * h2

end FEM

namespace FEM
variable {F : Type} [LinearOrderedField F]

theorem computeStiffMatrix_symm (cell : Cell F) :
    (computeStiffMatrix cell)ᵀ = computeStiffMatrix cell := by
  rw [computeStiffMatrix_entries]
  ext i j
  fin_cases i <;> fin_cases j <;> simp [Matrix.transpose_apply]

theorem computeStiffMatrix_mulVec_one (cell : Cell F) :
    computeStiffMatrix cell *ᵥ (fun _ => 1) = 0 := by
  rw [computeStiffMatrix_entries]
  ext i
  fin_cases i <;>
  · simp [Matrix.mulVec, Matrix.dotProduct, Fin.sum_univ_three, Matrix.vecHead, Matrix.vecTail]
    try ring_nf
    try simp

theorem computeStiffMatrix_quadForm (cell : Cell F) (v : Fin 3 → F) :
    v ⬝ᵥ computeStiffMatrix cell *ᵥ v
      = area cell * tensorForm cell.tagD (gradOf cell v) (gradOf cell v) := by
  simp only [Matrix.mulVec, Matrix.dotProduct, Fin.sum_univ_three, computeStiffMatrix_gradPhi]
  simp only [tensorForm, gradPhi, gradOf]
  simp
  ring


theorem gradOf_eq_zero (cell : Cell F) (hdet : detBk cell ≠ 0) (v : Fin 3 → F)
    (h : gradOf cell v = 0) : v 1 = v 0 ∧ v 2 = v 0 := by
  have h1 : ((v 1 - v 0) * Bk cell 1 1 - (v 2 - v 0) * Bk cell 1 0) / detBk cell = 0 :=
    congrArg Prod.fst h
  have h2 : ((v 2 - v 0) * Bk cell 0 0 - (v 1 - v 0) * Bk cell 0 1) / detBk cell = 0 :=
    congrArg Prod.snd h
  rw [div_eq_zero_iff] at h1 h2
  have h1 := h1.resolve_right hdet
  have h2 := h2.resolve_right hdet
  have e1 : (v 1 - v 0) * detBk cell = 0 := by
    simp only [detBk]
    linear_combination Bk cell 0 0 * h1 + Bk cell 1 0 * h2
  have e2 : (v 2 - v 0) * detBk cell = 0 := by
    simp only [detBk]
    linear_combination Bk cell 0 1 * h1 + Bk cell 1 1 * h2
  constructor
  · exact sub_eq_zero.mp ((mul_eq_zero.mp e1).resolve_right hdet)
  · exact sub_eq_zero.mp ((mul_eq_zero.mp e2).resolve_right hdet)

/-- C2: for a non-degenerate triangle and a symmetric positive-definite tensor, the matrix of
`computeStiffMatrix` is symmetric, positive semidefinite, sends the constant vector `(1,1,1)` to
zero, and its null space is exactly the span of `(1,1,1)` (rank 2). -/
theorem computeStiffMatrix_symm_psd_kernel (cell : Cell F) (hdet : detBk cell ≠ 0)
    (hspd : ∀ w : F × F, w ≠ 0 → 0 < tensorForm cell.tagD w w) :
    (computeStiffMatrix cell)ᵀ = computeStiffMatrix cell ∧
    (∀ v : Fin 3 → F, 0 ≤ v ⬝ᵥ computeStiffMatrix cell *ᵥ v) ∧
    computeStiffMatrix cell *ᵥ (fun _ => 1) = 0 ∧
    (∀ v : Fin 3 → F, computeStiffMatrix cell *ᵥ v = 0 ↔ ∃ c : F, v = fun _ => c) ∧
    (computeStiffMatrix cell).rank = 2 := by
  have harea : 0 < area cell := by
    have := abs_pos.mpr hdet
    simp only [area]
    positivity
  have hker : ∀ v : Fin 3 → F, computeStiffMatrix cell *ᵥ v = 0 ↔ ∃ c : F, v = fun _ => c := ?_
  · refine ⟨computeStiffMatrix_symm cell, ?_, computeStiffMatrix_mulVec_one cell, hker, ?_⟩
    · intro v
      rw [computeStiffMatrix_quadForm]
      by_cases hw : gradOf cell v = 0
      · rw [hw]
        simp [tensorForm]
      · exact le_of_lt (mul_pos harea (hspd _ hw))
    · have hone : (fun _ : Fin 3 => (1 : F)) ≠ 0 := by
        intro h
        have := congrFun h 0
        simp at this
      have hk : ∀ v : Fin 3 → F, computeStiffMatrix cell *ᵥ v = 0
          ↔ ∃ a : F, v = a • (fun _ : Fin 3 => (1 : F)) := by
        intro v
        rw [hker v]
        constructor
        · rintro ⟨c, rfl⟩
          exact ⟨c, by ext i; simp⟩
        · rintro ⟨a, rfl⟩
          exact ⟨a, by ext i; simp⟩
      have := rank_of_kernel_line (computeStiffMatrix cell) _ hone hk
      omega
  · intro v
    constructor
    · intro hv
      have hq : v ⬝ᵥ computeStiffMatrix cell *ᵥ v = 0 := by
        rw [hv]
        simp
      rw [computeStiffMatrix_quadForm] at hq
      have hw : gradOf cell v = 0 := by
        by_contra hne
        exact absurd hq (ne_of_gt (mul_pos harea (hspd _ hne)))
      obtain ⟨h1, h2⟩ := gradOf_eq_zero cell hdet v hw
      refine ⟨v 0, ?_⟩
      ext i
      fin_cases i
      · rfl
      · exact h1
      · exact h2
    · rintro ⟨c, rfl⟩
      have : (fun _ : Fin 3 => c) = c • (fun _ => (1 : F)) := by
        ext i
        simp
      rw [this, Matrix.mulVec_smul, computeStiffMatrix_mulVec_one, smul_zero]

end FEM

namespace FEM

theorem refCell_detBk : detBk refCell = 1 := by
  simp [detBk, Bk, refCell]

theorem refCell_spd (w : ℚ × ℚ) (hw : w ≠ 0) : 0 < tensorForm refCell.tagD w w := by
  have h : w.1 ≠ 0 ∨ w.2 ≠ 0 := by
    by_contra hcon
    push_neg at hcon
    exact hw (Prod.ext hcon.1 hcon.2)
  simp [tensorForm, refCell, Dxx, Dyy, Dxy]
  rcases h with h | h
  · have := mul_self_pos.mpr h
    nlinarith [mul_self_nonneg w.2]
  · have := mul_self_pos.mpr h
    nlinarith [mul_self_nonneg w.1]

/-- Witness of C1 on the reference triangle with its hat functions `1 - x - y`, `x`, `y`. -/
theorem computeStiffMatrix_eq_reference_witness :
    detBk refCell ≠ 0 ∧
    (∀ i k, (refPhi i).eval (refCell.nodes k).x = if i = k then 1 else 0) ∧
    ∀ i j, computeStiffMatrix refCell i j
        = area refCell * tensorForm refCell.tagD (refPhi i).g (refPhi j).g :=
  have hdet : detBk refCell ≠ 0 := by rw [refCell_detBk]; exact one_ne_zero
  have hphi : ∀ i k, (refPhi i).eval (refCell.nodes k).x = if i = k then 1 else 0 := by
    intro i k
    fin_cases i <;> fin_cases k <;> simp [refPhi, refCell, Affine.eval]
  ⟨hdet, hphi, (computeStiffMatrix_eq_reference refCell hdet refPhi hphi).1⟩

/-- Witness of C2 on the reference triangle with the tensor `diag(100, 1)` of the driver. -/
theorem computeStiffMatrix_symm_psd_kernel_witness :
    detBk refCell ≠ 0 ∧ (∀ w : ℚ × ℚ, w ≠ 0 → 0 < tensorForm refCell.tagD w w) ∧
    (∀ v : Fin 3 → ℚ, computeStiffMatrix refCell *ᵥ v = 0 ↔ ∃ c : ℚ, v = fun _ => c) :=
  have hdet : detBk refCell ≠ 0 := by rw [refCell_detBk]; exact one_ne_zero
  ⟨hdet, refCell_spd, (computeStiffMatrix_symm_psd_kernel refCell hdet refCell_spd).2.2.2.1⟩

end FEM

namespace MFD
variable {F : Type} [LinearOrderedField F]

/-- A face whose unit normal is orthogonal to it, whose `Area` is its length and whose signed
normal looks outward has `sign * Area * n` equal to the turned edge vector. -/
theorem scaled_normal (ex ey nx ny a A : F) (ha : a = 1 ∨ a = -1) (hA : 0 ≤ A)
    (hlen : A * A = ex * ex + ey * ey) (hunit : nx * nx + ny * ny = 1)
    (horth : nx * ex + ny * ey = 0) (hout : 0 ≤ a * (nx * ey - ny * ex)) :
    a * A * nx = ey ∧ a * A * ny = -ex := by
  have ha2 : a * a = 1 := by rcases ha with h | h <;> rw [h] <;> norm_num
  have hc2 : (a * (nx * ey - ny * ex)) * (a * (nx * ey - ny * ex)) = A * A := by
    rw [hlen]
    linear_combination (nx * ey - ny * ex) ^ 2 * ha2 + (ex * ex + ey * ey) * hunit
      - (nx * ex + ny * ey) * horth
  have hc : a * (nx * ey - ny * ex) = A := by
    have h1 : |a * (nx * ey - ny * ex)| = |A| := by
      rw [← abs_mul_abs_self, ← abs_mul_abs_self A] at hc2
      exact (mul_self_inj (abs_nonneg _) (abs_nonneg _)).mp hc2
    rwa [abs_of_nonneg hout, abs_of_nonneg hA] at h1
  constructor
  · rw [← hc]
    linear_combination (nx * (nx * ey - ny * ex)) * ha2 + ey * hunit - ny * horth
  · rw [← hc]
    linear_combination (ny * (nx * ey - ny * ex)) * ha2 - ex * hunit + nx * horth

theorem sum_closed {n : Nat} {α : Type} (s t : Fin n → α) (σ : Equiv.Perm (Fin n))
    (h : ∀ i, t i = s (σ i)) (f : α → F) : ∑ i, f (t i) = ∑ i, f (s i) := by
  simp only [h]
  exact Equiv.sum_comp σ (fun i => f (s i))


theorem sum_telescope {n : Nat} (s t : Fin n → F × F) (σ : Equiv.Perm (Fin n))
    (h : ∀ i, t i = s (σ i)) (g : F × F → F) (alg f : Fin n → F)
    (hf : ∀ i, f i = alg i + (g (t i) - g (s i))) : ∑ i, f i = ∑ i, alg i := by
  rw [Finset.sum_congr rfl (fun i _ => hf i), Finset.sum_add_distrib, Finset.sum_sub_distrib,
    sum_closed s t σ h g, sub_self, add_zero]

/-- The first moments of the outward normals of a closed polygon about any point `xP`. -/
theorem moment_sums {n : Nat} (s t : Fin n → F × F) (σ : Equiv.Perm (Fin n))
    (h : ∀ i, t i = s (σ i)) (xP : F × F) :
    ∑ i, (((s i).1 + (t i).1) / 2 - xP.1) * (rot (s i) (t i)).1 = shoelace s t ∧
    ∑ i, (((s i).1 + (t i).1) / 2 - xP.1) * (rot (s i) (t i)).2 = 0 ∧
    ∑ i, (((s i).2 + (t i).2) / 2 - xP.2) * (rot (s i) (t i)).1 = 0 ∧
    ∑ i, (((s i).2 + (t i).2) / 2 - xP.2) * (rot (s i) (t i)).2 = shoelace s t := by
  refine ⟨?_, ?_, ?_, ?_⟩
  · rw [shoelace, Finset.mul_sum]
    refine sum_telescope s t σ h (fun p => 1 / 2 * (p.1 * p.2) - xP.1 * p.2) _ _ ?_
    intro i
    simp only [rot]
    ring
  · rw [sum_telescope s t σ h (fun p => -(1 / 2) * (p.1 * p.1) + xP.1 * p.1) (fun _ => 0) _ ?_]
    · exact Finset.sum_const_zero
    intro i
    simp only [rot]
    ring
  · rw [sum_telescope s t σ h (fun p => 1 / 2 * (p.2 * p.2) - xP.2 * p.2) (fun _ => 0) _ ?_]
    · exact Finset.sum_const_zero
    intro i
    simp only [rot]
    ring
  · rw [shoelace, Finset.mul_sum]
    refine sum_telescope s t σ h (fun p => -(1 / 2) * (p.1 * p.2) + xP.2 * p.1) _ _ ?_
    intro i
    simp only [rot]
    ring

theorem sign_cases (cell : Cell F) (i : Fin cell.nf) : sign cell i = 1 ∨ sign cell i = -1 := by
  unfold sign
  split_ifs
  · exact Or.inr rfl
  · exact Or.inl rfl

/-- C3: for a polygonal cell whose faces form its closed boundary (face `i` runs from `s i` to
`t i`, counter-clockwise, and the end points chain up), each face barycenter being the midpoint,
`Area` the length, the unit normal orthogonal to the face, `a_i * n_i` looking outward and
`Volume` the area of the polygon, `assembleLocalSystem` has `RP^T * NP = Volume * D` exactly,
for every tensor and every reference point `xP`; the tested matrix is zero and so is its
Frobenius norm. -/
theorem RP_transpose_mul_NP (cell : Cell F) (s t : Fin cell.nf → F × F)
    (σ : Equiv.Perm (Fin cell.nf)) (hclosed : ∀ i, t i = s (σ i))
    (hmid : ∀ i, (cell.faces i).xf = (((s i).1 + (t i).1) / 2, ((s i).2 + (t i).2) / 2))
    (hpos : ∀ i, 0 ≤ (cell.faces i).area)
    (hlen : ∀ i, (cell.faces i).area * (cell.faces i).area
      = ((t i).1 - (s i).1) * ((t i).1 - (s i).1) + ((t i).2 - (s i).2) * ((t i).2 - (s i).2))
    (hunit : ∀ i, (cell.faces i).n.1 * (cell.faces i).n.1
      + (cell.faces i).n.2 * (cell.faces i).n.2 = 1)
    (horth : ∀ i, (cell.faces i).n.1 * ((t i).1 - (s i).1)
      + (cell.faces i).n.2 * ((t i).2 - (s i).2) = 0)
    (hout : ∀ i, 0 ≤ sign cell i * ((cell.faces i).n.1 * (rot (s i) (t i)).1
      + (cell.faces i).n.2 * (rot (s i) (t i)).2))
    (hvol : cell.volume = shoelace s t) :
    (RP cell)ᵀ * NP cell = cell.volume • D cell ∧ test cell = 0 ∧
    ∀ sqrtF : F → F, sqrtF 0 = 0 → FrobeniusNorm sqrtF (test cell) = 0 := by
  have hn : ∀ i, sign cell i * (cell.faces i).area * (cell.faces i).n.1 = (rot (s i) (t i)).1 ∧
      sign cell i * (cell.faces i).area * (cell.faces i).n.2 = (rot (s i) (t i)).2 := by
    intro i
    have ho := hout i
    simp only [rot] at ho ⊢
    have := scaled_normal ((t i).1 - (s i).1) ((t i).2 - (s i).2) (cell.faces i).n.1
      (cell.faces i).n.2 (sign cell i) (cell.faces i).area (sign_cases cell i) (hpos i)
      (hlen i) (hunit i) (horth i) (by linarith)
    exact this
  obtain ⟨m11, m12, m21, m22⟩ := moment_sums s t σ hclosed cell.xP
  have hmain : (RP cell)ᵀ * NP cell = cell.volume • D cell := by
    ext j k
    have hentry : ∀ i, (RP cell)ᵀ j i * NP cell i k
        = D cell 0 k * ((![((s i).1 + (t i).1) / 2 - cell.xP.1,
              ((s i).2 + (t i).2) / 2 - cell.xP.2] j) * (rot (s i) (t i)).1)
          + D cell 1 k * ((![((s i).1 + (t i).1) / 2 - cell.xP.1,
              ((s i).2 + (t i).2) / 2 - cell.xP.2] j) * (rot (s i) (t i)).2) := by
      intro i
      rw [← (hn i).1, ← (hn i).2]
      simp only [Matrix.transpose_apply, RP, NP, NP0, Matrix.mul_apply, Fin.sum_univ_two,
        Matrix.of_apply, hmid i]
      simp
      ring
    rw [Matrix.mul_apply, Finset.sum_congr rfl (fun i _ => hentry i), Finset.sum_add_distrib,
      ← Finset.mul_sum, ← Finset.mul_sum, Matrix.smul_apply, smul_eq_mul, hvol]
    fin_cases j
    · simp only [Fin.zero_eta, Matrix.cons_val_zero]
      rw [m11, m12]
      ring
    · simp only [Fin.mk_one, Matrix.cons_val_one, Matrix.head_cons]
      rw [m21, m22]
      ring
  have htest : test cell = 0 := by
    rw [test, hmain, sub_self]
  refine ⟨hmain, htest, ?_⟩
  intro sqrtF h0
  rw [FrobeniusNorm, htest]
  simpa using h0

end MFD

section Dense
variable {F : Type} [LinearOrderedField F]

theorem Invert_mul_self {n : Nat} (A : Matrix (Fin n) (Fin n) F) (h : A.det ≠ 0) :
    Invert A * A = 1 := by
  rw [Invert, Matrix.smul_mul, Matrix.adjugate_mul, smul_smul, inv_mul_cancel₀ h, one_smul]

theorem self_mul_Invert {n : Nat} (A : Matrix (Fin n) (Fin n) F) (h : A.det ≠ 0) :
    A * Invert A = 1 := by
  rw [Invert, Matrix.mul_smul, Matrix.mul_adjugate, smul_smul, inv_mul_cancel₀ h, one_smul]

theorem Invert_transpose {n : Nat} (A : Matrix (Fin n) (Fin n) F) :
    (Invert A)ᵀ = Invert Aᵀ := by
  rw [Invert, Invert, Matrix.transpose_smul, Matrix.adjugate_transpose, Matrix.det_transpose]

end Dense

namespace MFD
variable {F : Type} [LinearOrderedField F]

theorem MP0_mul_NP (cell : Cell F) (h : ((RP cell)ᵀ * NP cell).det ≠ 0) :
    MP0 cell * NP cell = RP cell := by
  rw [MP0, Matrix.mul_assoc, Matrix.mul_assoc, Invert_mul_self _ h, Matrix.mul_one]

theorem MP1_mul_NP (cell : Cell F) (h : ((NP cell)ᵀ * NP cell).det ≠ 0) :
    MP1 cell * NP cell = 0 := by
  rw [MP1, Matrix.smul_mul, Matrix.sub_mul, Matrix.one_mul, Matrix.mul_assoc, Matrix.mul_assoc,
    Invert_mul_self _ h, Matrix.mul_one, sub_self, smul_zero]

/-- C4: when `RP^T * NP` and `NP^T * NP` are invertible, the matrix `MF = MP0 + MP1` returned by
`assembleLocalSystem` satisfies `MF * NP = RP`: the consistency term reproduces `RP` on the
columns of `NP` and the stability term annihilates them. -/
theorem MF_mul_NP (sqrtF : F → F) (cell : Cell F)
    (hRN : ((RP cell)ᵀ * NP cell).det ≠ 0) (hNN : ((NP cell)ᵀ * NP cell).det ≠ 0) :
    MP0 cell * NP cell = RP cell ∧ MP1 cell * NP cell = 0 ∧
    ∀ MF, assembleLocalSystem sqrtF cell = some MF →
      MF = MP0 cell + MP1 cell ∧ MF * NP cell = RP cell := by
  refine ⟨MP0_mul_NP cell hRN, MP1_mul_NP cell hNN, ?_⟩
  intro MF hMF
  unfold assembleLocalSystem at hMF
  split_ifs at hMF
  have hMF : MP cell = MF := Option.some.inj hMF
  subst hMF
  refine ⟨rfl, ?_⟩
  rw [MP, Matrix.add_mul, MP0_mul_NP cell hRN, MP1_mul_NP cell hNN, add_zero]

end MFD

section Dense
variable {F : Type} [LinearOrderedField F]

/-- A positive-definite matrix has a non-zero determinant. -/
theorem det_ne_zero_of_posDef {n : Nat} (G : Matrix (Fin n) (Fin n) F)
    (hpd : ∀ w : Fin n → F, w ≠ 0 → 0 < w ⬝ᵥ G *ᵥ w) : G.det ≠ 0 := by
  intro h0
  obtain ⟨v, hv, hGv⟩ := Matrix.exists_mulVec_eq_zero_iff.mpr h0
  have := hpd v hv
  rw [hGv] at this
  simp at this

/-- The quadratic form of the inverse of a symmetric positive-definite matrix. -/
theorem Invert_posDef {n : Nat} (G : Matrix (Fin n) (Fin n) F)
    (hpd : ∀ w : Fin n → F, w ≠ 0 → 0 < w ⬝ᵥ G *ᵥ w) (y : Fin n → F) :
    0 ≤ y ⬝ᵥ Invert G *ᵥ y ∧ (y ⬝ᵥ Invert G *ᵥ y = 0 → y = 0) := by
  have hdet := det_ne_zero_of_posDef G hpd
  have hy : G *ᵥ (Invert G *ᵥ y) = y := by
    rw [Matrix.mulVec_mulVec, self_mul_Invert G hdet, Matrix.one_mulVec]
  have hq : y ⬝ᵥ Invert G *ᵥ y = (Invert G *ᵥ y) ⬝ᵥ G *ᵥ (Invert G *ᵥ y) := by
    rw [hy, Matrix.dotProduct_comm]
  by_cases hz : Invert G *ᵥ y = 0
  · have hy0 : y = 0 := by rw [← hy, hz, Matrix.mulVec_zero]
    exact ⟨by rw [hz]; simp, fun _ => hy0⟩
  · have hpos := hpd _ hz
    rw [← hq] at hpos
    exact ⟨le_of_lt hpos, fun h => absurd h (ne_of_gt hpos)⟩

theorem quadForm_sandwich {m n : Nat} (R : Matrix (Fin m) (Fin n) F)
    (K : Matrix (Fin n) (Fin n) F) (x : Fin m → F) :
    x ⬝ᵥ (R * K * Rᵀ) *ᵥ x = (Rᵀ *ᵥ x) ⬝ᵥ K *ᵥ (Rᵀ *ᵥ x) := by
  rw [← Matrix.mulVec_mulVec, ← Matrix.mulVec_mulVec, Matrix.dotProduct_mulVec,
    ← Matrix.mulVec_transpose]

theorem single_quadForm {m : Nat} (M : Matrix (Fin m) (Fin m) F) (i : Fin m) :
    (Pi.single i 1 : Fin m → F) ⬝ᵥ M *ᵥ (Pi.single i 1) = M i i := by
  simp [Matrix.mulVec, Matrix.dotProduct, Pi.single_apply]


/-- The quadratic form of `I - N (N^T N)^-1 N^T` is the squared distance to the range of `N`. -/
theorem quadForm_complement {m n : Nat} (N : Matrix (Fin m) (Fin n) F)
    (hdet : (Nᵀ * N).det ≠ 0) (x : Fin m → F) :
    x ⬝ᵥ (1 - N * Invert (Nᵀ * N) * Nᵀ) *ᵥ x
      = (x - N *ᵥ (Invert (Nᵀ * N) *ᵥ (Nᵀ *ᵥ x))) ⬝ᵥ (x - N *ᵥ (Invert (Nᵀ * N) *ᵥ (Nᵀ *ᵥ x))) := by
  set c := Invert (Nᵀ * N) *ᵥ (Nᵀ *ᵥ x) with hc
  have hp : (1 - N * Invert (Nᵀ * N) * Nᵀ) *ᵥ x = x - N *ᵥ c := by
    rw [Matrix.sub_mulVec, Matrix.one_mulVec, ← Matrix.mulVec_mulVec, ← Matrix.mulVec_mulVec]
  have hH : (Nᵀ * N) *ᵥ c = Nᵀ *ᵥ x := by
    rw [hc, Matrix.mulVec_mulVec, self_mul_Invert _ hdet, Matrix.one_mulVec]
  have horth : (N *ᵥ c) ⬝ᵥ (x - N *ᵥ c) = 0 := by
    rw [Matrix.dotProduct_sub, Matrix.dotProduct_comm (N *ᵥ c) x, Matrix.dotProduct_mulVec x,
      ← Matrix.mulVec_transpose, Matrix.dotProduct_comm (N *ᵥ c) (N *ᵥ c),
      Matrix.dotProduct_mulVec (N *ᵥ c), ← Matrix.mulVec_transpose, Matrix.mulVec_mulVec, hH,
      sub_self]
  rw [hp, Matrix.sub_dotProduct x (N *ᵥ c), horth, sub_zero]

theorem det_gram_ne_zero {m n : Nat} (N : Matrix (Fin m) (Fin n) F)
    (hrank : ∀ c : Fin n → F, N *ᵥ c = 0 → c = 0) : (Nᵀ * N).det ≠ 0 := by
  intro h0
  obtain ⟨v, hv, hGv⟩ := Matrix.exists_mulVec_eq_zero_iff.mpr h0
  apply hv
  apply hrank
  rw [← Matrix.dotProduct_self_eq_zero]
  have : v ⬝ᵥ (Nᵀ * N) *ᵥ v = 0 := by rw [hGv]; simp
  rwa [← Matrix.mulVec_mulVec, Matrix.dotProduct_mulVec, ← Matrix.mulVec_transpose,
    Matrix.transpose_transpose] at this

end Dense

namespace MFD
variable {F : Type} [LinearOrderedField F]

theorem D_symm {K : Type} (cell : Cell K) : (D cell)ᵀ = D cell := by
  ext i j
  fin_cases i <;> fin_cases j <;> simp [D, Matrix.transpose_apply]

theorem MP0_symm (cell : Cell F) (hRN : (RP cell)ᵀ * NP cell = cell.volume • D cell) :
    (MP0 cell)ᵀ = MP0 cell := by
  rw [MP0, hRN, Matrix.transpose_mul, Matrix.transpose_mul, Matrix.transpose_transpose,
    Invert_transpose, Matrix.transpose_smul, D_symm, Matrix.mul_assoc]

theorem MP1_symm (cell : Cell F) : (MP1 cell)ᵀ = MP1 cell := by
  rw [MP1, Matrix.transpose_smul, Matrix.transpose_sub, Matrix.transpose_one,
    Matrix.transpose_mul, Matrix.transpose_mul, Matrix.transpose_transpose,
    Invert_transpose, Matrix.transpose_mul, Matrix.transpose_transpose, Matrix.mul_assoc]

theorem assembleLocalSystem_of_test_zero (sqrtF : F → F) (hsqrt : sqrtF 0 = 0) (cell : Cell F)
    (hRN : (RP cell)ᵀ * NP cell = cell.volume • D cell) :
    assembleLocalSystem sqrtF cell = some (MP cell) := by
  have htest : test cell = 0 := by rw [test, hRN, sub_self]
  have hnorm : FrobeniusNorm sqrtF (test cell) = 0 := by
    rw [FrobeniusNorm, htest]
    simpa using hsqrt
  rw [assembleLocalSystem, hnorm, if_neg]
  norm_num

/-- C5: for `Volume > 0`, a symmetric positive-definite tensor, `RP^T * NP = Volume * D` and
`NP` of full column rank, `assembleLocalSystem` returns `MF = MP0 + MP1`, and `MF` is symmetric
and positive definite: `x^T MF x > 0` for every non-zero `x`. -/
theorem MF_symm_posDef (sqrtF : F → F) (hsqrt : sqrtF 0 = 0) (cell : Cell F)
    (hV : 0 < cell.volume)
    (hD : ∀ w : Fin 2 → F, w ≠ 0 → 0 < w ⬝ᵥ D cell *ᵥ w)
    (hRN : (RP cell)ᵀ * NP cell = cell.volume • D cell)
    (hrank : ∀ c : Fin 2 → F, NP cell *ᵥ c = 0 → c = 0) :
    assembleLocalSystem sqrtF cell = some (MP cell) ∧ (MP cell)ᵀ = MP cell ∧
    ∀ x : Fin cell.nf → F, x ≠ 0 → 0 < x ⬝ᵥ MP cell *ᵥ x := by
  refine ⟨assembleLocalSystem_of_test_zero sqrtF hsqrt cell hRN, ?_, ?_⟩
  · rw [MP, Matrix.transpose_add, MP0_symm cell hRN, MP1_symm]
  -- the matrix `G = RP^T NP = Volume * D` is positive definite
  have hG : ∀ w : Fin 2 → F, w ≠ 0 → 0 < w ⬝ᵥ ((RP cell)ᵀ * NP cell) *ᵥ w := by
    intro w hw
    rw [hRN, Matrix.smul_mulVec_assoc, Matrix.dotProduct_smul, smul_eq_mul]
    exact mul_pos hV (hD w hw)
  have hGdet := det_ne_zero_of_posDef _ hG
  have hNdet := det_gram_ne_zero (NP cell) hrank
  -- the diagonal of `MP0` is non-negative
  have hdiag : ∀ i, 0 ≤ MP0 cell i i := by
    intro i
    rw [← single_quadForm (MP0 cell) i, MP0, quadForm_sandwich]
    exact (Invert_posDef _ hG _).1
  have htr : 0 ≤ (MP0 cell).trace := Finset.sum_nonneg (fun i _ => hdiag i)
  have htr0 : (MP0 cell).trace ≠ 0 := by
    intro h0
    have hall : ∀ i, MP0 cell i i = 0 := by
      intro i
      exact (Finset.sum_eq_zero_iff_of_nonneg (fun i _ => hdiag i)).mp h0 i (Finset.mem_univ i)
    have hR : (RP cell)ᵀ = 0 := by
      ext j i
      have h1 := hall i
      rw [← single_quadForm (MP0 cell) i, MP0, quadForm_sandwich] at h1
      have h2 := (Invert_posDef _ hG _).2 h1
      have h3 := congrFun h2 j
      simpa [Matrix.mulVec, Matrix.dotProduct, Pi.single_apply] using h3
    rw [hR, Matrix.zero_mul] at hGdet
    have : (0 : Matrix (Fin 2) (Fin 2) F).det = 0 := Matrix.det_zero ⟨0⟩
    exact hGdet this
  have htrpos : 0 < (MP0 cell).trace := lt_of_le_of_ne htr (Ne.symm htr0)
  have hnf : (0 : F) < (cell.nf : F) := by
    rcases Nat.eq_zero_or_pos cell.nf with h | h
    · exfalso
      apply htr0
      rw [Matrix.trace]
      have : IsEmpty (Fin cell.nf) := by rw [h]; infer_instance
      exact Finset.sum_of_isEmpty _
    · exact_mod_cast h
  have hgamma : 0 < gammaP cell := div_pos htrpos hnf
  intro x hx
  have hsplit : x ⬝ᵥ MP cell *ᵥ x
      = ((RP cell)ᵀ *ᵥ x) ⬝ᵥ Invert ((RP cell)ᵀ * NP cell) *ᵥ ((RP cell)ᵀ *ᵥ x)
        + gammaP cell * ((x - NP cell *ᵥ (Invert ((NP cell)ᵀ * NP cell) *ᵥ ((NP cell)ᵀ *ᵥ x)))
            ⬝ᵥ (x - NP cell *ᵥ (Invert ((NP cell)ᵀ * NP cell) *ᵥ ((NP cell)ᵀ *ᵥ x)))) := by
    rw [MP, Matrix.add_mulVec, Matrix.dotProduct_add, MP0, quadForm_sandwich, MP1,
      Matrix.smul_mulVec_assoc, Matrix.dotProduct_smul, smul_eq_mul,
      quadForm_complement _ hNdet]
  rw [hsplit]
  obtain ⟨h0, h0z⟩ := Invert_posDef _ hG ((RP cell)ᵀ *ᵥ x)
  set p := NP cell *ᵥ (Invert ((NP cell)ᵀ * NP cell) *ᵥ ((NP cell)ᵀ *ᵥ x)) with hp
  have h1 : 0 ≤ (x - p) ⬝ᵥ (x - p) := Finset.sum_nonneg (fun i _ => mul_self_nonneg _)
  by_cases hxp : x - p = 0
  · -- `x` lies in the range of `NP`
    have hxN : x = NP cell *ᵥ (Invert ((NP cell)ᵀ * NP cell) *ᵥ ((NP cell)ᵀ *ᵥ x)) :=
      sub_eq_zero.mp hxp
    have hy : (RP cell)ᵀ *ᵥ x ≠ 0 := by
      intro hy0
      rw [hxN, Matrix.mulVec_mulVec] at hy0
      set c := Invert ((NP cell)ᵀ * NP cell) *ᵥ ((NP cell)ᵀ *ᵥ x) with hc
      have hc0 : c = 0 := by
        by_contra hne
        have := hG c hne
        rw [hy0] at this
        simp at this
      apply hx
      rw [hxN, hc0, Matrix.mulVec_zero]
    have hpos : 0 < ((RP cell)ᵀ *ᵥ x) ⬝ᵥ Invert ((RP cell)ᵀ * NP cell) *ᵥ ((RP cell)ᵀ *ᵥ x) :=
      lt_of_le_of_ne h0 (fun h => hy (h0z h.symm))
    rw [hxp]
    simpa using hpos
  · have hpos : 0 < (x - p) ⬝ᵥ (x - p) :=
      lt_of_le_of_ne h1 (fun h => hxp (Matrix.dotProduct_self_eq_zero.mp h.symm))
    have := mul_pos hgamma hpos
    linarith

end MFD

theorem Rat_sqrt_zero : Rat.sqrt 0 = 0 := by
  simp

namespace MFD

theorem squareCell_RN : (RP squareCell)ᵀ * NP squareCell = squareCell.volume • D squareCell := by
  ext j k
  fin_cases j <;> fin_cases k <;>
  · simp [RP, NP, NP0, D, sign, squareCell, Matrix.mul_apply, Fin.sum_univ_four,
      Fin.sum_univ_two]
    try norm_num

theorem squareCell_NN : (NP squareCell)ᵀ * NP squareCell = !![2, 0; 0, 200] := by
  ext j k
  fin_cases j <;> fin_cases k <;>
  · simp only [Matrix.mul_apply, Matrix.transpose_apply, NP]
    simp [NP0, D, squareCell, Fin.sum_univ_four, Fin.sum_univ_two]
    try norm_num

theorem squareCell_posDef (w : Fin 2 → ℚ) (hw : w ≠ 0) : 0 < w ⬝ᵥ D squareCell *ᵥ w := by
  have h : w 0 ≠ 0 ∨ w 1 ≠ 0 := by
    by_contra hcon
    push_neg at hcon
    apply hw
    ext i
    fin_cases i
    · exact hcon.1
    · exact hcon.2
  simp [D, squareCell, Matrix.mulVec, Matrix.dotProduct, Fin.sum_univ_two]
  rcases h with h | h
  · have := mul_self_pos.mpr h
    nlinarith [mul_self_nonneg (w 1)]
  · have := mul_self_pos.mpr h
    nlinarith [mul_self_nonneg (w 0)]

theorem squareCell_rank (c : Fin 2 → ℚ) (h : NP squareCell *ᵥ c = 0) : c = 0 := by
  have h0 := congrFun h (0 : Fin 4)
  have h1 := congrFun h (1 : Fin 4)
  simp [NP, NP0, D, squareCell, Matrix.mulVec, Matrix.dotProduct, Matrix.mul_apply,
    Fin.sum_univ_two] at h0 h1
  ext i
  fin_cases i
  · exact h1
  · exact h0

/-- Witness of C3 on the unit square. -/
theorem RP_transpose_mul_NP_witness :
    (∀ i, squareEnd i = squareStart (finRotate 4 i)) ∧ squareCell.volume = shoelace squareStart squareEnd ∧
    (RP squareCell)ᵀ * NP squareCell = squareCell.volume • D squareCell ∧ test squareCell = 0 ∧
    ∀ sqrtF : ℚ → ℚ, sqrtF 0 = 0 → FrobeniusNorm sqrtF (test squareCell) = 0 :=
  have hclosed : ∀ i, squareEnd i = squareStart (finRotate 4 i) := by decide
  have hvol : squareCell.volume = shoelace squareStart squareEnd := by
    simp [shoelace, squareCell, squareStart, squareEnd, Fin.sum_univ_four]
    norm_num
  ⟨hclosed, hvol, RP_transpose_mul_NP squareCell squareStart squareEnd (finRotate 4) hclosed
    (by intro i; fin_cases i <;> simp [squareCell, squareStart, squareEnd])
    (by intro i; fin_cases i <;> simp [squareCell])
    (by intro i; fin_cases i <;> simp [squareCell, squareStart, squareEnd])
    (by intro i; fin_cases i <;> simp [squareCell])
    (by intro i; fin_cases i <;> simp [squareCell, squareStart, squareEnd])
    (by intro i; fin_cases i <;> simp [squareCell, squareStart, squareEnd, sign, rot])
    hvol⟩

/-- Witness of C4 on the unit square, where `assembleLocalSystem` returns `MP`. -/
theorem MF_mul_NP_witness :
    ((RP squareCell)ᵀ * NP squareCell).det ≠ 0 ∧ ((NP squareCell)ᵀ * NP squareCell).det ≠ 0 ∧
    assembleLocalSystem Rat.sqrt squareCell = some (MP squareCell) ∧
    MP squareCell * NP squareCell = RP squareCell :=
  have hRN : ((RP squareCell)ᵀ * NP squareCell).det ≠ 0 := by
    rw [squareCell_RN]
    simp [D, squareCell, Matrix.det_fin_two]
  have hNN : ((NP squareCell)ᵀ * NP squareCell).det ≠ 0 := by
    rw [squareCell_NN]
    simp [Matrix.det_fin_two]
  have hret := assembleLocalSystem_of_test_zero Rat.sqrt Rat_sqrt_zero squareCell squareCell_RN
  ⟨hRN, hNN, hret, ((MF_mul_NP Rat.sqrt squareCell hRN hNN).2.2 (MP squareCell) hret).2⟩

/-- Witness of C5 on the unit square with the tensor `diag(1, 10)`. -/
theorem MF_symm_posDef_witness :
    Rat.sqrt 0 = 0 ∧ 0 < squareCell.volume ∧
    assembleLocalSystem Rat.sqrt squareCell = some (MP squareCell) ∧
    (MP squareCell)ᵀ = MP squareCell ∧
    ∀ x : Fin squareCell.nf → ℚ, x ≠ 0 → 0 < x ⬝ᵥ MP squareCell *ᵥ x :=
  have hV : 0 < squareCell.volume := by simp [squareCell]
  ⟨Rat_sqrt_zero, hV, MF_symm_posDef Rat.sqrt Rat_sqrt_zero squareCell hV squareCell_posDef
    squareCell_RN squareCell_rank⟩

end MFD

namespace VEM2D
variable {F : Type} [LinearOrderedField F]

theorem indprev_indnext {nn : Nat} (v : Fin nn) : indprev (indnext v) = v := by
  have hv := v.isLt
  apply Fin.ext
  by_cases h1 : v.val = nn - 1
  · have e : indnext v = ⟨0, by omega⟩ := by rw [indnext, dif_pos h1]
    rw [e, indprev, dif_pos rfl]
    show nn - 1 = v.val
    omega
  · have e : indnext v = ⟨v.val + 1, by omega⟩ := by rw [indnext, dif_neg h1]
    rw [e, indprev, dif_neg (Nat.succ_ne_zero _)]
    show v.val + 1 - 1 = v.val
    omega

theorem indnext_indprev {nn : Nat} (v : Fin nn) : indnext (indprev v) = v := by
  have hv := v.isLt
  apply Fin.ext
  by_cases h1 : v.val = 0
  · have e : indprev v = ⟨nn - 1, by omega⟩ := by rw [indprev, dif_pos h1]
    rw [e, indnext, dif_pos rfl]
    show 0 = v.val
    omega
  · have e : indprev v = ⟨v.val - 1, by omega⟩ := by rw [indprev, dif_neg h1]
    have h2 : ¬ (v.val - 1 = nn - 1) := by omega
    rw [e, indnext, dif_neg h2]
    show v.val - 1 + 1 = v.val
    omega

theorem indnext_bijective (nn : Nat) : Function.Bijective (indnext : Fin nn → Fin nn) :=
  Function.bijective_iff_has_inverse.mpr ⟨indprev, indprev_indnext, indnext_indprev⟩

theorem sum_indnext {nn : Nat} (f : Fin nn → F) : ∑ v, f (indnext v) = ∑ v, f v :=
  (indnext_bijective nn).sum_comp f

/-- Summation by parts around the polygon. -/
theorem sum_cyclic {nn : Nat} (a c : Fin nn → F) :
    ∑ v, (a (indnext v) - a (indprev v)) * c v
      = ∑ v, (c v * a (indnext v) - c (indnext v) * a v) := by
  have h : ∑ v, a (indprev v) * c v = ∑ v, a v * c (indnext v) := by
    rw [← sum_indnext (fun v => a (indprev v) * c v)]
    simp only [indprev_indnext]
  simp only [sub_mul, Finset.sum_sub_distrib, h]
  congr 1
  · exact Finset.sum_congr rfl (fun v _ => mul_comm _ _)
  · exact Finset.sum_congr rfl (fun v _ => mul_comm _ _)

theorem sum_cyclic_shifted {nn : Nat} (a c : Fin nn → F) (p : F) :
    ∑ v, (a (indnext v) - a (indprev v)) * (c v - p)
      = ∑ v, (c v * a (indnext v) - c (indnext v) * a v) := by
  rw [sum_cyclic a (fun v => c v - p)]
  have e : ∀ v, (c v - p) * a (indnext v) - (c (indnext v) - p) * a v
      = (c v * a (indnext v) - c (indnext v) * a v) + p * (a v - a (indnext v)) := by
    intro v
    ring
  simp only [e, Finset.sum_add_distrib, ← Finset.mul_sum, Finset.sum_sub_distrib (f := a),
    sum_indnext a, sub_self, mul_zero, add_zero]

/-- The first moments of the vectors `nor` about any point `(p, q)`. -/
theorem nor_moments (cell : Cell F) (p q : F) :
    ∑ v, (nor cell v).1 * ((cell.nodes v).x.1 - p) = 2 * shoelace cell ∧
    ∑ v, (nor cell v).1 * ((cell.nodes v).x.2 - q) = 0 ∧
    ∑ v, (nor cell v).2 * ((cell.nodes v).x.1 - p) = 0 ∧
    ∑ v, (nor cell v).2 * ((cell.nodes v).x.2 - q) = 2 * shoelace cell := by
  have c1 := sum_cyclic_shifted (fun v => (cell.nodes v).x.2) (fun v => (cell.nodes v).x.1) p
  have c2 := sum_cyclic_shifted (fun v => (cell.nodes v).x.2) (fun v => (cell.nodes v).x.2) q
  have c3 := sum_cyclic_shifted (fun v => (cell.nodes v).x.1) (fun v => (cell.nodes v).x.1) p
  have c4 := sum_cyclic_shifted (fun v => (cell.nodes v).x.1) (fun v => (cell.nodes v).x.2) q
  have z2 : ∑ v : Fin cell.nn, ((cell.nodes v).x.2 * (cell.nodes (indnext v)).x.2
      - (cell.nodes (indnext v)).x.2 * (cell.nodes v).x.2) = 0 :=
    Finset.sum_eq_zero (fun v _ => by ring)
  have z3 : ∑ v : Fin cell.nn, ((cell.nodes v).x.1 * (cell.nodes (indnext v)).x.1
      - (cell.nodes (indnext v)).x.1 * (cell.nodes v).x.1) = 0 :=
    Finset.sum_eq_zero (fun v _ => by ring)
  have e3 : ∀ v, (nor cell v).2 * ((cell.nodes v).x.1 - p)
      = -(((cell.nodes (indnext v)).x.1 - (cell.nodes (indprev v)).x.1)
          * ((cell.nodes v).x.1 - p)) := by
    intro v
    simp only [nor]
    ring
  have e4 : ∀ v, (nor cell v).2 * ((cell.nodes v).x.2 - q)
      = -(((cell.nodes (indnext v)).x.1 - (cell.nodes (indprev v)).x.1)
          * ((cell.nodes v).x.2 - q)) := by
    intro v
    simp only [nor]
    ring
  have s4 : ∑ v : Fin cell.nn, ((cell.nodes v).x.2 * (cell.nodes (indnext v)).x.1
      - (cell.nodes (indnext v)).x.2 * (cell.nodes v).x.1)
      = -∑ v : Fin cell.nn, ((cell.nodes v).x.1 * (cell.nodes (indnext v)).x.2
      - (cell.nodes (indnext v)).x.1 * (cell.nodes v).x.2) := by
    rw [← Finset.sum_neg_distrib]
    exact Finset.sum_congr rfl (fun v _ => by ring)
  refine ⟨?_, ?_, ?_, ?_⟩
  · show ∑ v, ((cell.nodes (indnext v)).x.2 - (cell.nodes (indprev v)).x.2)
      * ((cell.nodes v).x.1 - p) = 2 * shoelace cell
    rw [c1, shoelace]
    ring
  · show ∑ v, ((cell.nodes (indnext v)).x.2 - (cell.nodes (indprev v)).x.2)
      * ((cell.nodes v).x.2 - q) = 0
    rw [c2, z2]
  · rw [Finset.sum_congr rfl (fun v _ => e3 v), Finset.sum_neg_distrib, c3, z3, neg_zero]
  · rw [Finset.sum_congr rfl (fun v _ => e4 v), Finset.sum_neg_distrib, c4, s4, shoelace]
    ring

theorem sum_indprev {nn : Nat} (f : Fin nn → F) : ∑ v, f (indprev v) = ∑ v, f v :=
  (Function.bijective_iff_has_inverse.mpr
    ⟨indnext, indnext_indprev, indprev_indnext⟩ : Function.Bijective indprev).sum_comp f

theorem nor_sums (cell : Cell F) :
    ∑ v, (nor cell v).1 = 0 ∧ ∑ v, (nor cell v).2 = 0 := by
  simp only [nor]
  constructor
  · rw [Finset.sum_sub_distrib, sum_indnext (fun v => (cell.nodes v).x.2),
      sum_indprev (fun v => (cell.nodes v).x.2), sub_self]
  · rw [Finset.sum_sub_distrib, sum_indnext (fun v => (cell.nodes v).x.1),
      sum_indprev (fun v => (cell.nodes v).x.1), sub_self]

end VEM2D

namespace VEM2D
variable {F : Type} [LinearOrderedField F]

theorem BD_zero_zero (sqrtF : F → F) (cell : Cell F) (hnn : cell.nn ≠ 0) :
    (B sqrtF cell * D sqrtF cell) 0 0 = 1 := by
  have h : (cell.nn : F) ≠ 0 := Nat.cast_ne_zero.mpr hnn
  simp [Matrix.mul_apply, B, D]
  field_simp

theorem BD_row_zero (sqrtF : F → F) (cell : Cell F) :
    (B sqrtF cell * D sqrtF cell) 1 0 = 0 ∧ (B sqrtF cell * D sqrtF cell) 2 0 = 0 := by
  obtain ⟨h1, h2⟩ := nor_sums cell
  constructor
  · simp [Matrix.mul_apply, B, D, monomgrad, polygrad, ← Finset.mul_sum, h1]
  · simp [Matrix.mul_apply, B, D, monomgrad, polygrad, ← Finset.mul_sum, h2]

theorem BD_block (sqrtF : F → F) (cell : Cell F) :
    (B sqrtF cell * D sqrtF cell) 1 1 = shoelace cell / (diam sqrtF cell * diam sqrtF cell) ∧
    (B sqrtF cell * D sqrtF cell) 1 2 = 0 ∧
    (B sqrtF cell * D sqrtF cell) 2 1 = 0 ∧
    (B sqrtF cell * D sqrtF cell) 2 2 = shoelace cell / (diam sqrtF cell * diam sqrtF cell) := by
  obtain ⟨m11, m12, m21, m22⟩ := nor_moments cell cell.xc.1 cell.xc.2
  have e : ∀ g h : Fin cell.nn → F,
      ∑ v, 2⁻¹ * ((diam sqrtF cell)⁻¹ * g v) * (h v / diam sqrtF cell)
        = (2⁻¹ * (diam sqrtF cell)⁻¹ * (diam sqrtF cell)⁻¹) * ∑ v, g v * h v := by
    intro g h
    rw [Finset.mul_sum]
    exact Finset.sum_congr rfl (fun v _ => by ring)
  refine ⟨?_, ?_, ?_, ?_⟩
  · simp [Matrix.mul_apply, B, D, monomgrad, polygrad]
    rw [e (fun v => (nor cell v).1) (fun v => (cell.nodes v).x.1 - cell.xc.1), m11]
    ring
  · simp [Matrix.mul_apply, B, D, monomgrad, polygrad]
    rw [e (fun v => (nor cell v).1) (fun v => (cell.nodes v).x.2 - cell.xc.2), m12, mul_zero]
  · simp [Matrix.mul_apply, B, D, monomgrad, polygrad]
    rw [e (fun v => (nor cell v).2) (fun v => (cell.nodes v).x.1 - cell.xc.1), m21, mul_zero]
  · simp [Matrix.mul_apply, B, D, monomgrad, polygrad]
    rw [e (fun v => (nor cell v).2) (fun v => (cell.nodes v).x.2 - cell.xc.2), m22]
    ring

theorem BD_det (sqrtF : F → F) (cell : Cell F) (hnn : cell.nn ≠ 0) :
    (B sqrtF cell * D sqrtF cell).det
      = (shoelace cell / (diam sqrtF cell * diam sqrtF cell))
        * (shoelace cell / (diam sqrtF cell * diam sqrtF cell)) := by
  obtain ⟨b11, b12, b21, b22⟩ := BD_block sqrtF cell
  obtain ⟨b10, b20⟩ := BD_row_zero sqrtF cell
  rw [Matrix.det_fin_three, BD_zero_zero sqrtF cell hnn, b11, b12, b21, b22, b10, b20]
  ring

theorem nn_ne_zero_of_shoelace (cell : Cell F) (hA : shoelace cell ≠ 0) : cell.nn ≠ 0 := by
  intro h
  apply hA
  have : IsEmpty (Fin cell.nn) := by rw [h]; infer_instance
  rw [shoelace, Finset.sum_of_isEmpty, mul_zero]

theorem BD_det_ne_zero (sqrtF : F → F) (cell : Cell F) (hd : 0 < diam sqrtF cell)
    (hA : shoelace cell ≠ 0) : (B sqrtF cell * D sqrtF cell).det ≠ 0 := by
  rw [BD_det sqrtF cell (nn_ne_zero_of_shoelace cell hA)]
  have : shoelace cell / (diam sqrtF cell * diam sqrtF cell) ≠ 0 :=
    div_ne_zero hA (mul_ne_zero (ne_of_gt hd) (ne_of_gt hd))
  exact mul_ne_zero this this

/-- C7: for a polygonal cell whose nodes are listed consecutively around its boundary, with
positive diameter and non-zero shoelace area, the 3x3 matrix `B*D` of `assembleLocalSystem` is
invertible, wherever the reference point `xc` lies: its determinant is not zero and
`(B*D).Invert()` is its two-sided inverse. -/
theorem BD_invertible (sqrtF : F → F) (cell : Cell F) (hd : 0 < diam sqrtF cell)
    (hA : shoelace cell ≠ 0) :
    (B sqrtF cell * D sqrtF cell).det ≠ 0 ∧
    Invert (B sqrtF cell * D sqrtF cell) * (B sqrtF cell * D sqrtF cell) = 1 ∧
    (B sqrtF cell * D sqrtF cell) * Invert (B sqrtF cell * D sqrtF cell) = 1 :=
  ⟨BD_det_ne_zero sqrtF cell hd hA, Invert_mul_self _ (BD_det_ne_zero sqrtF cell hd hA),
    self_mul_Invert _ (BD_det_ne_zero sqrtF cell hd hA)⟩

end VEM2D

section Dense
variable {F : Type} [LinearOrderedField F]

/-- The projector `(B D)^-1 B` is a left inverse of `D`. -/
theorem projector_mul {k n : Nat} (Bm : Matrix (Fin k) (Fin n) F) (Dm : Matrix (Fin n) (Fin k) F)
    (h : (Bm * Dm).det ≠ 0) : Invert (Bm * Dm) * Bm * Dm = 1 := by
  rw [Matrix.mul_assoc, Invert_mul_self _ h]

theorem projector_idem {k n : Nat} (Bm : Matrix (Fin k) (Fin n) F) (Dm : Matrix (Fin n) (Fin k) F)
    (h : (Bm * Dm).det ≠ 0) :
    (Dm * (Invert (Bm * Dm) * Bm)) * (Dm * (Invert (Bm * Dm) * Bm))
      = Dm * (Invert (Bm * Dm) * Bm) := by
  rw [Matrix.mul_assoc, ← Matrix.mul_assoc (Invert (Bm * Dm) * Bm) Dm, projector_mul Bm Dm h,
    Matrix.one_mul]

theorem complement_mul {k n : Nat} (Bm : Matrix (Fin k) (Fin n) F) (Dm : Matrix (Fin n) (Fin k) F)
    (h : (Bm * Dm).det ≠ 0) : (1 - Dm * (Invert (Bm * Dm) * Bm)) * Dm = 0 := by
  rw [Matrix.sub_mul, Matrix.one_mul, Matrix.mul_assoc, projector_mul Bm Dm h, Matrix.mul_one,
    sub_self]

end Dense

/-- C9: in the 2D and in the 3D VEM local builder, when `B*D` is invertible the projector
`Proj = (B*D)^-1 * B` is a left inverse of `D`, `D*Proj` is idempotent, and the stabilization
term `(I - D*Proj)^T * (I - D*Proj)` sends every column of `D`, that is the nodal values of every
polynomial of degree at most 1, to zero. -/
theorem VEM_projector_left_inverse {F : Type} [LinearOrderedField F] (sqrtF : F → F)
    (c2 : VEM2D.Cell F) (c3 : VEM3D.Cell F)
    (h2 : (VEM2D.B sqrtF c2 * VEM2D.D sqrtF c2).det ≠ 0)
    (h3 : (VEM3D.B sqrtF c3 * VEM3D.D sqrtF c3).det ≠ 0) :
    (VEM2D.Proj sqrtF c2 * VEM2D.D sqrtF c2 = 1 ∧
      (VEM2D.D sqrtF c2 * VEM2D.Proj sqrtF c2) * (VEM2D.D sqrtF c2 * VEM2D.Proj sqrtF c2)
        = VEM2D.D sqrtF c2 * VEM2D.Proj sqrtF c2 ∧
      VEM2D.Se sqrtF c2 * VEM2D.D sqrtF c2 = 0 ∧
      ∀ c : Fin VEM2D.n_polys → F, VEM2D.Se sqrtF c2 *ᵥ (VEM2D.D sqrtF c2 *ᵥ c) = 0) ∧
    (VEM3D.Proj sqrtF c3 * VEM3D.D sqrtF c3 = 1 ∧
      (VEM3D.D sqrtF c3 * VEM3D.Proj sqrtF c3) * (VEM3D.D sqrtF c3 * VEM3D.Proj sqrtF c3)
        = VEM3D.D sqrtF c3 * VEM3D.Proj sqrtF c3 ∧
      (VEM3D.Se sqrtF c3)ᵀ * VEM3D.Se sqrtF c3 * VEM3D.D sqrtF c3 = 0 ∧
      ∀ c : Fin VEM3D.n_polys → F,
        ((VEM3D.Se sqrtF c3)ᵀ * VEM3D.Se sqrtF c3) *ᵥ (VEM3D.D sqrtF c3 *ᵥ c) = 0) := by
  have k2 : VEM2D.Se sqrtF c2 * VEM2D.D sqrtF c2 = 0 := by
    rw [VEM2D.Se, VEM2D.Se0, VEM2D.Proj, Matrix.mul_assoc, complement_mul _ _ h2,
      Matrix.mul_zero]
  have k3 : (VEM3D.Se sqrtF c3)ᵀ * VEM3D.Se sqrtF c3 * VEM3D.D sqrtF c3 = 0 := by
    rw [VEM3D.Se, VEM3D.Proj, VEM3D.BDinv, Matrix.mul_assoc, complement_mul _ _ h3,
      Matrix.mul_zero]
  refine ⟨⟨projector_mul _ _ h2, projector_idem _ _ h2, k2, ?_⟩,
    ⟨projector_mul _ _ h3, projector_idem _ _ h3, k3, ?_⟩⟩
  · intro c
    rw [Matrix.mulVec_mulVec, k2, Matrix.zero_mulVec]
  · intro c
    rw [Matrix.mulVec_mulVec, k3, Matrix.zero_mulVec]

namespace VEM2D
variable {F : Type} [LinearOrderedField F]

theorem G_eq (sqrtF : F → F) (cell : Cell F) :
    G sqrtF cell = !![0, 0, 0;
      0, shoelace cell / (diam sqrtF cell * diam sqrtF cell), 0;
      0, 0, shoelace cell / (diam sqrtF cell * diam sqrtF cell)] := by
  obtain ⟨b11, b12, b21, b22⟩ := BD_block sqrtF cell
  obtain ⟨b10, b20⟩ := BD_row_zero sqrtF cell
  ext i j
  match i, j with
  | 0, 0 => simp [G, Matrix.vecHead, Matrix.vecTail]
  | 0, 1 => simp [G, Matrix.vecHead, Matrix.vecTail]
  | 0, 2 => simp [G, Matrix.vecHead, Matrix.vecTail]
  | 1, 0 => simp [G, b10]
  | 1, 1 => simp [G, b11]
  | 1, 2 => simp [G, b12]
  | 2, 0 => simp [G, b20, Matrix.vecHead, Matrix.vecTail]
  | 2, 1 => simp [G, b21]
  | 2, 2 => simp [G, b22]

theorem G_quadForm (sqrtF : F → F) (cell : Cell F) (c e : Fin n_polys → F) :
    c ⬝ᵥ G sqrtF cell *ᵥ e
      = shoelace cell / (diam sqrtF cell * diam sqrtF cell) * (c 1 * e 1 + c 2 * e 2) := by
  rw [G_eq]
  simp [Matrix.mulVec, Matrix.dotProduct, Fin.sum_univ_three]
  ring

theorem G_symm (sqrtF : F → F) (cell : Cell F) : (G sqrtF cell)ᵀ = G sqrtF cell := by
  rw [G_eq]
  ext i j
  fin_cases i <;> fin_cases j <;> simp [Matrix.transpose_apply]

theorem W_symm (sqrtF : F → F) (cell : Cell F) : (W sqrtF cell)ᵀ = W sqrtF cell := by
  rw [W, Se, Matrix.transpose_add, Matrix.transpose_mul, Matrix.transpose_mul,
    Matrix.transpose_transpose, G_symm, Matrix.transpose_mul, Matrix.transpose_transpose,
    Matrix.mul_assoc]

/-- The energy of `W` splits into the consistency and the stability part. -/
theorem W_bilin (sqrtF : F → F) (cell : Cell F) (u v : Fin cell.nn → F) :
    u ⬝ᵥ W sqrtF cell *ᵥ v
      = shoelace cell / (diam sqrtF cell * diam sqrtF cell)
          * ((Proj sqrtF cell *ᵥ u) 1 * (Proj sqrtF cell *ᵥ v) 1
            + (Proj sqrtF cell *ᵥ u) 2 * (Proj sqrtF cell *ᵥ v) 2)
        + (Se0 sqrtF cell *ᵥ u) ⬝ᵥ (Se0 sqrtF cell *ᵥ v) := by
  rw [W, Se, Matrix.add_mulVec, Matrix.dotProduct_add, ← G_quadForm]
  congr 1
  · rw [← Matrix.mulVec_mulVec, ← Matrix.mulVec_mulVec, Matrix.dotProduct_mulVec,
      ← Matrix.mulVec_transpose, Matrix.transpose_transpose]
  · rw [← Matrix.mulVec_mulVec, Matrix.dotProduct_mulVec, ← Matrix.mulVec_transpose,
      Matrix.transpose_transpose]

theorem D_mulVec (sqrtF : F → F) (cell : Cell F) (c : Fin n_polys → F) (v : Fin cell.nn) :
    (D sqrtF cell *ᵥ c) v
      = c 0 + c 1 * (((cell.nodes v).x.1 - cell.xc.1) / diam sqrtF cell)
          + c 2 * (((cell.nodes v).x.2 - cell.xc.2) / diam sqrtF cell) := by
  simp [Matrix.mulVec, Matrix.dotProduct, Fin.sum_univ_three, D, polygrad]
  ring

theorem Se0_mulVec (sqrtF : F → F) (cell : Cell F) (v : Fin cell.nn → F) :
    Se0 sqrtF cell *ᵥ v = v - D sqrtF cell *ᵥ (Proj sqrtF cell *ᵥ v) := by
  rw [Se0, Matrix.sub_mulVec, Matrix.one_mulVec, Matrix.mulVec_mulVec]

theorem Proj_mul_D (sqrtF : F → F) (cell : Cell F)
    (h : (B sqrtF cell * D sqrtF cell).det ≠ 0) : Proj sqrtF cell * D sqrtF cell = 1 :=
  projector_mul _ _ h

/-- On the nodal values `D c` of a polynomial the projector returns `c` and the stabilization
residual vanishes. -/
theorem Proj_Se0_poly (sqrtF : F → F) (cell : Cell F)
    (h : (B sqrtF cell * D sqrtF cell).det ≠ 0) (c : Fin n_polys → F) :
    Proj sqrtF cell *ᵥ (D sqrtF cell *ᵥ c) = c ∧ Se0 sqrtF cell *ᵥ (D sqrtF cell *ᵥ c) = 0 := by
  have h1 : Proj sqrtF cell *ᵥ (D sqrtF cell *ᵥ c) = c := by
    rw [Matrix.mulVec_mulVec, Proj_mul_D sqrtF cell h, Matrix.one_mulVec]
  refine ⟨h1, ?_⟩
  rw [Se0_mulVec, h1, sub_self]

/-- The energy of the nodal values of two polynomials. -/
theorem W_bilin_poly (sqrtF : F → F) (cell : Cell F)
    (h : (B sqrtF cell * D sqrtF cell).det ≠ 0) (c e : Fin n_polys → F) :
    (D sqrtF cell *ᵥ c) ⬝ᵥ W sqrtF cell *ᵥ (D sqrtF cell *ᵥ e)
      = shoelace cell / (diam sqrtF cell * diam sqrtF cell) * (c 1 * e 1 + c 2 * e 2) := by
  rw [W_bilin, (Proj_Se0_poly sqrtF cell h c).1, (Proj_Se0_poly sqrtF cell h e).1,
    (Proj_Se0_poly sqrtF cell h c).2, Matrix.zero_dotProduct, add_zero]

theorem D_mulVec_single (sqrtF : F → F) (cell : Cell F) (a : F) :
    D sqrtF cell *ᵥ ![a, 0, 0] = a • ones cell.nn := by
  ext v
  rw [D_mulVec]
  simp [ones]

theorem W_mulVec_ones (sqrtF : F → F) (cell : Cell F)
    (h : (B sqrtF cell * D sqrtF cell).det ≠ 0) (a : F) :
    W sqrtF cell *ᵥ (a • ones cell.nn) = 0 := by
  rw [← D_mulVec_single sqrtF cell a]
  obtain ⟨h1, h2⟩ := Proj_Se0_poly sqrtF cell h ![a, 0, 0]
  have hG : G sqrtF cell *ᵥ ![a, 0, 0] = 0 := by
    rw [G_eq]
    ext i
    fin_cases i <;> simp [Matrix.mulVec, Matrix.dotProduct, Fin.sum_univ_three]
  rw [W, Se, Matrix.add_mulVec, ← Matrix.mulVec_mulVec, ← Matrix.mulVec_mulVec, h1, hG,
    Matrix.mulVec_zero, ← Matrix.mulVec_mulVec, h2, Matrix.mulVec_zero, add_zero]

/-- C6 (amended): for a cell with as many faces as nodes, whose nodes are listed
counter-clockwise (positive shoelace area) and whose diameter is positive,
`assembleLocalSystem` returns `W`, and `W` is symmetric, positive semidefinite, with null space
exactly the span of the constant nodal vector `(1, ..., 1)`. -/
theorem W_symm_psd_kernel (sqrtF : F → F) (cell : Cell F) (hf : cell.nfaces = cell.nn)
    (hd : 0 < diam sqrtF cell) (hA : 0 < shoelace cell) :
    assembleLocalSystem sqrtF cell = some (W sqrtF cell, b cell) ∧
    (W sqrtF cell)ᵀ = W sqrtF cell ∧
    (∀ v : Fin cell.nn → F, 0 ≤ v ⬝ᵥ W sqrtF cell *ᵥ v) ∧
    (∀ v : Fin cell.nn → F, W sqrtF cell *ᵥ v = 0 ↔ ∃ a : F, v = a • ones cell.nn) ∧
    (W sqrtF cell).rank + 1 = cell.nn := by
  have hdet := BD_det_ne_zero sqrtF cell hd (ne_of_gt hA)
  have hg : 0 < shoelace cell / (diam sqrtF cell * diam sqrtF cell) :=
    div_pos hA (mul_pos hd hd)
  have hS : ∀ v : Fin cell.nn → F, 0 ≤ (Se0 sqrtF cell *ᵥ v) ⬝ᵥ (Se0 sqrtF cell *ᵥ v) :=
    fun v => Finset.sum_nonneg (fun i _ => mul_self_nonneg _)
  have hP : ∀ v : Fin cell.nn → F,
      0 ≤ (Proj sqrtF cell *ᵥ v) 1 * (Proj sqrtF cell *ᵥ v) 1
        + (Proj sqrtF cell *ᵥ v) 2 * (Proj sqrtF cell *ᵥ v) 2 :=
    fun v => add_nonneg (mul_self_nonneg _) (mul_self_nonneg _)
  have hker : ∀ v : Fin cell.nn → F,
      W sqrtF cell *ᵥ v = 0 ↔ ∃ a : F, v = a • ones cell.nn := ?_
  · refine ⟨?_, W_symm sqrtF cell, ?_, hker, ?_⟩
    · rw [assembleLocalSystem, if_neg (not_not.mpr hf)]
    · intro v
      rw [W_bilin]
      exact add_nonneg (mul_nonneg (le_of_lt hg) (hP v)) (hS v)
    · have hnn : cell.nn ≠ 0 := nn_ne_zero_of_shoelace cell (ne_of_gt hA)
      have hone : ones cell.nn ≠ (0 : Fin cell.nn → F) := by
        intro h
        have := congrFun h ⟨0, Nat.pos_of_ne_zero hnn⟩
        simp [ones] at this
      exact rank_of_kernel_line (W sqrtF cell) _ hone hker
  · intro v
    constructor
    · intro hv
      have hq : v ⬝ᵥ W sqrtF cell *ᵥ v = 0 := by rw [hv, Matrix.dotProduct_zero]
      rw [W_bilin] at hq
      have hq1 := mul_nonneg (le_of_lt hg) (hP v)
      have hS0 : (Se0 sqrtF cell *ᵥ v) ⬝ᵥ (Se0 sqrtF cell *ᵥ v) = 0 := by
        linarith [hS v]
      have hP0 : (Proj sqrtF cell *ᵥ v) 1 * (Proj sqrtF cell *ᵥ v) 1
          + (Proj sqrtF cell *ᵥ v) 2 * (Proj sqrtF cell *ᵥ v) 2 = 0 := by
        have : shoelace cell / (diam sqrtF cell * diam sqrtF cell)
            * ((Proj sqrtF cell *ᵥ v) 1 * (Proj sqrtF cell *ᵥ v) 1
              + (Proj sqrtF cell *ᵥ v) 2 * (Proj sqrtF cell *ᵥ v) 2) = 0 := by
          linarith [hS v]
        exact (mul_eq_zero.mp this).resolve_left (ne_of_gt hg)
      have hc1 : (Proj sqrtF cell *ᵥ v) 1 = 0 := by
        have := mul_self_nonneg ((Proj sqrtF cell *ᵥ v) 2)
        have h1 : (Proj sqrtF cell *ᵥ v) 1 * (Proj sqrtF cell *ᵥ v) 1 = 0 := by
          linarith [mul_self_nonneg ((Proj sqrtF cell *ᵥ v) 1)]
        exact mul_self_eq_zero.mp h1
      have hc2 : (Proj sqrtF cell *ᵥ v) 2 = 0 := by
        have h2 : (Proj sqrtF cell *ᵥ v) 2 * (Proj sqrtF cell *ᵥ v) 2 = 0 := by
          linarith [mul_self_nonneg ((Proj sqrtF cell *ᵥ v) 1),
            mul_self_nonneg ((Proj sqrtF cell *ᵥ v) 2)]
        exact mul_self_eq_zero.mp h2
      have hv0 : v = D sqrtF cell *ᵥ (Proj sqrtF cell *ᵥ v) := by
        have := Matrix.dotProduct_self_eq_zero.mp hS0
        rw [Se0_mulVec] at this
        exact sub_eq_zero.mp this
      refine ⟨(Proj sqrtF cell *ᵥ v) 0, ?_⟩
      ext i
      rw [hv0, D_mulVec, hc1, hc2]
      simp [ones, ← hv0]
    · rintro ⟨a, rfl⟩
      exact W_mulVec_ones sqrtF cell hdet a

end VEM2D

theorem Rat_sqrt_25 : Rat.sqrt 25 = 5 := by
  rw [show (25 : ℚ) = 5 * 5 by norm_num, Rat.sqrt_eq]
  exact abs_of_pos (by norm_num)

namespace VEM2D
variable {F : Type} [LinearOrderedField F]

theorem ccwTriangle_diam : diam Rat.sqrt ccwTriangle = 5 := by
  have : diam2 ccwTriangle = 25 := by
    simp [diam2, ccwTriangle, List.finRange, List.pmap, List.range, List.range.loop]
    norm_num
  rw [diam, this, Rat_sqrt_25]

theorem cwTriangle_diam : diam Rat.sqrt cwTriangle = 5 := by
  have : diam2 cwTriangle = 25 := by
    simp [diam2, cwTriangle, List.finRange, List.pmap, List.range, List.range.loop]
    norm_num
  rw [diam, this, Rat_sqrt_25]

theorem ccwTriangle_shoelace : shoelace ccwTriangle = 6 := by
  simp [shoelace, ccwTriangle, Fin.sum_univ_three, indnext]
  norm_num

theorem cwTriangle_shoelace : shoelace cwTriangle = -6 := by
  simp [shoelace, cwTriangle, Fin.sum_univ_three, indnext]
  norm_num

end VEM2D

namespace VEM2D

/-- C6, counterexample: the triangle `(0,0), (0,4), (3,0)`, listed clockwise, has as many faces
as nodes, diameter 5 and shoelace area -6 (not zero), yet the energy of the nodal values
`(-1/5, -1/5, 2/5)` of the monomial `(x - xc) / diam` is `-6/25`: `W` is not positive
semidefinite. -/
theorem W_not_psd_clockwise :
    cwTriangle.nfaces = cwTriangle.nn ∧ 0 < diam Rat.sqrt cwTriangle ∧
    shoelace cwTriangle ≠ 0 ∧
    (![-1 / 5, -1 / 5, 2 / 5] : Fin 3 → ℚ) ⬝ᵥ W Rat.sqrt cwTriangle *ᵥ ![-1 / 5, -1 / 5, 2 / 5]
      = -6 / 25 ∧
    ¬ ∀ v : Fin cwTriangle.nn → ℚ, 0 ≤ v ⬝ᵥ W Rat.sqrt cwTriangle *ᵥ v := by
  have hd : 0 < diam Rat.sqrt cwTriangle := by rw [cwTriangle_diam]; norm_num
  have hA : shoelace cwTriangle ≠ 0 := by rw [cwTriangle_shoelace]; norm_num
  have hv : (![-1 / 5, -1 / 5, 2 / 5] : Fin 3 → ℚ)
      = D Rat.sqrt cwTriangle *ᵥ ![0, 1, 0] := by
    ext i
    rw [D_mulVec, cwTriangle_diam]
    fin_cases i
    · simp [cwTriangle]
    · simp [cwTriangle]
    · simp [cwTriangle]
      norm_num
  have hval : (![-1 / 5, -1 / 5, 2 / 5] : Fin 3 → ℚ) ⬝ᵥ
      W Rat.sqrt cwTriangle *ᵥ ![-1 / 5, -1 / 5, 2 / 5] = -6 / 25 := by
    rw [hv, W_bilin_poly Rat.sqrt cwTriangle (BD_det_ne_zero Rat.sqrt cwTriangle hd hA),
      cwTriangle_shoelace, cwTriangle_diam]
    simp
    norm_num
  refine ⟨rfl, hd, hA, hval, ?_⟩
  intro h
  have := h ![-1 / 5, -1 / 5, 2 / 5]
  rw [hval] at this
  norm_num at this

/-- Witness of C6 (amended) on the counter-clockwise triangle `(0,0), (3,0), (0,4)`. -/
theorem W_symm_psd_kernel_witness :
    ccwTriangle.nfaces = ccwTriangle.nn ∧ 0 < diam Rat.sqrt ccwTriangle ∧
    0 < shoelace ccwTriangle ∧
    assembleLocalSystem Rat.sqrt ccwTriangle = some (W Rat.sqrt ccwTriangle, b ccwTriangle) ∧
    (W Rat.sqrt ccwTriangle)ᵀ = W Rat.sqrt ccwTriangle ∧
    (∀ v : Fin ccwTriangle.nn → ℚ, 0 ≤ v ⬝ᵥ W Rat.sqrt ccwTriangle *ᵥ v) ∧
    (∀ v : Fin ccwTriangle.nn → ℚ,
      W Rat.sqrt ccwTriangle *ᵥ v = 0 ↔ ∃ a : ℚ, v = a • ones ccwTriangle.nn) ∧
    (W Rat.sqrt ccwTriangle).rank + 1 = ccwTriangle.nn :=
  have hd : 0 < diam Rat.sqrt ccwTriangle := by rw [ccwTriangle_diam]; norm_num
  have hA : 0 < shoelace ccwTriangle := by rw [ccwTriangle_shoelace]; norm_num
  ⟨rfl, hd, hA, W_symm_psd_kernel Rat.sqrt ccwTriangle rfl hd hA⟩

/-- Witness of C7 on the clockwise triangle `(0,0), (0,4), (3,0)`. -/
theorem BD_invertible_witness :
    0 < diam Rat.sqrt cwTriangle ∧ shoelace cwTriangle ≠ 0 ∧
    (B Rat.sqrt cwTriangle * D Rat.sqrt cwTriangle : Matrix (Fin 3) (Fin 3) ℚ).det ≠ 0 ∧
    Invert (B Rat.sqrt cwTriangle * D Rat.sqrt cwTriangle : Matrix (Fin 3) (Fin 3) ℚ)
      * (B Rat.sqrt cwTriangle * D Rat.sqrt cwTriangle : Matrix (Fin 3) (Fin 3) ℚ) = 1 :=
  have hd : 0 < diam Rat.sqrt cwTriangle := by rw [cwTriangle_diam]; norm_num
  have hA : shoelace cwTriangle ≠ 0 := by rw [cwTriangle_shoelace]; norm_num
  ⟨hd, hA, (BD_invertible Rat.sqrt cwTriangle hd hA).1,
    (BD_invertible Rat.sqrt cwTriangle hd hA).2.1⟩

end VEM2D

namespace VEM3D

set_option maxHeartbeats 4000000 in
theorem tetraCell_diam2 : diam2 tetraCell = 25 := by
  simp only [diam2, List.finRange, List.pmap, List.range, List.range.loop, List.foldl]
  simp [tetraCell]
  norm_num

theorem tetraCell_diam : diam Rat.sqrt tetraCell = 5 := by
  rw [diam, tetraCell_diam2, Rat_sqrt_25]

theorem tetraCell_gid :
    gid_cnodes tetraCell 10 = some (0 : Fin 4) ∧ gid_cnodes tetraCell 11 = some (1 : Fin 4) ∧
    gid_cnodes tetraCell 12 = some (2 : Fin 4) ∧ gid_cnodes tetraCell 13 = some (3 : Fin 4) := by
  refine ⟨?_, ?_, ?_, ?_⟩ <;> rfl

set_option maxHeartbeats 4000000 in
theorem tetraCell_B : B Rat.sqrt tetraCell
    = (!![1 / 4, 1 / 4, 1 / 4, 1 / 4; -4 / 3, 4 / 3, 0, 0; -1 / 5, 0, 1 / 5, 0;
      -2 / 5, 0, 0, 2 / 5] : Matrix (Fin 4) (Fin 4) ℚ) := by
  obtain ⟨g0, g1, g2, g3⟩ := tetraCell_gid
  have hf : tetraCell.faces = [⟨6, ![0, 0, -1], [10, 12, 11]⟩, ⟨3 / 2, ![0, -1, 0], [10, 11, 13]⟩,
    ⟨2, ![-1, 0, 0], [10, 13, 12]⟩, ⟨13 / 2, ![4 / 13, 3 / 13, 12 / 13], [11, 12, 13]⟩] := rfl
  have t0 : tetraCell.tagD 0 = 10 := rfl
  have t1 : tetraCell.tagD 1 = 2 := rfl
  have t2 : tetraCell.tagD 2 = 1 := rfl
  have t3 : tetraCell.tagD 3 = 0 := rfl
  have t4 : tetraCell.tagD 4 = 0 := rfl
  have t5 : tetraCell.tagD 5 = 0 := rfl
  have hn : ((tetraCell.nn : Nat) : ℚ) = 4 := by simp [tetraCell]
  have e2 : ∀ h, (⟨2, h⟩ : Fin 4) = 2 := fun _ => rfl
  have e3 : ∀ h, (⟨3, h⟩ : Fin 4) = 3 := fun _ => rfl
  ext j i
  simp only [B, Matrix.of_apply, tetraCell_diam, hf, List.map, List.sum_cons, List.sum_nil,
    g0, g1, g2, g3, List.length, knrm, t0, t1, t2, t3, t4, t5, hn]
  fin_cases j <;> fin_cases i <;>
  · simp [e2, e3, Matrix.vecHead, Matrix.vecTail]
    try norm_num

set_option maxHeartbeats 4000000 in
theorem tetraCell_D : D Rat.sqrt tetraCell
    = (!![1, -3 / 20, -1 / 5, -1 / 20; 1, 9 / 20, -1 / 5, -1 / 20; 1, -3 / 20, 3 / 5, -1 / 20;
      1, -3 / 20, -1 / 5, 3 / 20] : Matrix (Fin 4) (Fin 4) ℚ) := by
  have e2 : ∀ h, (⟨2, h⟩ : Fin 4) = 2 := fun _ => rfl
  have e3 : ∀ h, (⟨3, h⟩ : Fin 4) = 3 := fun _ => rfl
  ext v j
  simp only [D, Matrix.of_apply, tetraCell_diam]
  fin_cases v <;> fin_cases j <;>
  · simp [tetraCell, e2, e3, Matrix.vecHead, Matrix.vecTail]
    try norm_num

set_option maxHeartbeats 4000000 in
theorem tetraCell_BD : (B Rat.sqrt tetraCell * D Rat.sqrt tetraCell : Matrix (Fin 4) (Fin 4) ℚ)
    = Matrix.diagonal ![1, 4 / 5, 4 / 25, 2 / 25] := by
  have e2 : ∀ h, (⟨2, h⟩ : Fin 4) = 2 := fun _ => rfl
  have e3 : ∀ h, (⟨3, h⟩ : Fin 4) = 3 := fun _ => rfl
  rw [tetraCell_B, tetraCell_D]
  ext i j
  fin_cases i <;> fin_cases j <;>
  · simp [Matrix.mul_apply, Fin.sum_univ_four, Matrix.diagonal, e2, e3, Matrix.vecHead,
      Matrix.vecTail]
    try norm_num

theorem tetraCell_BD_det :
    (B Rat.sqrt tetraCell * D Rat.sqrt tetraCell : Matrix (Fin 4) (Fin 4) ℚ).det ≠ 0 := by
  rw [tetraCell_BD, Matrix.det_diagonal]
  simp [Fin.prod_univ_four]

end VEM3D

/-- Witness of C9 on the triangle `(0,0), (3,0), (0,4)` and the tetrahedron
`(0,0,0), (3,0,0), (0,4,0), (0,0,1)`. -/
theorem VEM_projector_left_inverse_witness :
    (VEM2D.B Rat.sqrt VEM2D.ccwTriangle * VEM2D.D Rat.sqrt VEM2D.ccwTriangle :
      Matrix (Fin 3) (Fin 3) ℚ).det ≠ 0 ∧
    (VEM3D.B Rat.sqrt VEM3D.tetraCell * VEM3D.D Rat.sqrt VEM3D.tetraCell :
      Matrix (Fin 4) (Fin 4) ℚ).det ≠ 0 ∧
    (VEM2D.Proj Rat.sqrt VEM2D.ccwTriangle * VEM2D.D Rat.sqrt VEM2D.ccwTriangle :
      Matrix (Fin 3) (Fin 3) ℚ) = 1 ∧
    (VEM3D.Proj Rat.sqrt VEM3D.tetraCell * VEM3D.D Rat.sqrt VEM3D.tetraCell :
      Matrix (Fin 4) (Fin 4) ℚ) = 1 :=
  have h2 : (VEM2D.B Rat.sqrt VEM2D.ccwTriangle * VEM2D.D Rat.sqrt VEM2D.ccwTriangle :
      Matrix (Fin 3) (Fin 3) ℚ).det ≠ 0 :=
    VEM2D.BD_det_ne_zero Rat.sqrt VEM2D.ccwTriangle
      (by rw [VEM2D.ccwTriangle_diam]; norm_num) (by rw [VEM2D.ccwTriangle_shoelace]; norm_num)
  ⟨h2, VEM3D.tetraCell_BD_det,
    (VEM_projector_left_inverse Rat.sqrt VEM2D.ccwTriangle VEM3D.tetraCell h2
      VEM3D.tetraCell_BD_det).1.1,
    (VEM_projector_left_inverse Rat.sqrt VEM2D.ccwTriangle VEM3D.tetraCell h2
      VEM3D.tetraCell_BD_det).2.1⟩

namespace FEM
variable {F : Type} [LinearOrderedField F]

theorem addA_A (s : LinearSystem F) (i j : Nat) (v : F) (r c : Nat) :
    (addA s i j v).A r c = s.A r c + if r = i ∧ c = j then v else 0 := by
  unfold addA
  by_cases hr : r = i
  · subst hr
    by_cases hc : c = j
    · subst hc
      simp
    · simp [hc]
  · simp [hr]

theorem addA_b (s : LinearSystem F) (i j : Nat) (v : F) : (addA s i j v).b = s.b := rfl

theorem addb_A (s : LinearSystem F) (i : Nat) (v : F) : (addb s i v).A = s.A := rfl

theorem subb_A (s : LinearSystem F) (i : Nat) (v : F) : (subb s i v).A = s.A := rfl

theorem addb_b (s : LinearSystem F) (i : Nat) (v : F) (r : Nat) :
    (addb s i v).b r = s.b r + if r = i then v else 0 := by
  unfold addb
  by_cases hr : r = i
  · subst hr
    simp
  · simp [hr]

theorem subb_b (s : LinearSystem F) (i : Nat) (v : F) (r : Nat) :
    (subb s i v).b r = s.b r - if r = i then v else 0 := by
  unfold subb
  by_cases hr : r = i
  · subst hr
    simp
  · simp [hr]

/-- The matrix after one cell: every free row node `i` adds `stiffMatrix(j,i)` at
`(ind_i, ind_j)`. -/
theorem assembleCell_A (s : LinearSystem F) (cell : Cell F) (r c : Nat) :
    (assembleCell s cell).A r c = s.A r c
      + ∑ i : Fin 3, ∑ j : Fin 3,
          if (cell.nodes i).dirichlet = false ∧ r = (cell.nodes i).localID
              ∧ c = (cell.nodes j).localID
          then computeStiffMatrix cell j i else 0 := by
  unfold assembleCell
  cases h0 : (cell.nodes 0).dirichlet <;> cases h1 : (cell.nodes 1).dirichlet <;>
    cases h2 : (cell.nodes 2).dirichlet <;>
  · simp [addA_A, addA_b, addb_A, subb_A, Fin.sum_univ_three, h0, h1, h2]
    try ring

/-- The right-hand side after one cell: every free node `i` receives its load, and loses
`bcVal_k * stiffMatrix(i,k)` for every Dirichlet node `k`. -/
theorem assembleCell_b (s : LinearSystem F) (cell : Cell F) (r : Nat) :
    (assembleCell s cell).b r = s.b r
      + ∑ i : Fin 3,
          if (cell.nodes i).dirichlet = false ∧ r = (cell.nodes i).localID
          then integrateRHS cell i
            - ∑ k : Fin 3, (if (cell.nodes k).dirichlet = true
                then (cell.nodes k).bc * computeStiffMatrix cell i k else 0)
          else 0 := by
  unfold assembleCell
  cases h0 : (cell.nodes 0).dirichlet <;> cases h1 : (cell.nodes 1).dirichlet <;>
    cases h2 : (cell.nodes 2).dirichlet <;>
  · simp [addA_b, addb_b, subb_b, Fin.sum_univ_three, h0, h1, h2]
    try split_ifs <;> ring

theorem computeStiffMatrix_apply_symm (cell : Cell F) (i j : Fin 3) :
    computeStiffMatrix cell j i = computeStiffMatrix cell i j := by
  have h := congrFun (congrFun (computeStiffMatrix_symm cell) i) j
  rwa [Matrix.transpose_apply] at h

/-- C10: processing one non-ghost triangle whose three nodes have distinct indices changes the
system as follows. A free node `i` adds `K(i,j)` to `A[g(i)][g(j)]` for every `j`, and its
entry `b[g(i)]` gains `bRHS(i)` and loses `v_k * K(k,i)` for every Dirichlet node `k` of the
cell; a Dirichlet node `i` leaves row `g(i)` of `A` and `b[g(i)]` untouched; no other entry of
`A` or `b` changes. -/
theorem processCell_rule (s : LinearSystem F) (cell : Cell F) (hghost : cell.ghost = false)
    (hinj : ∀ a b : Fin 3, (cell.nodes a).localID = (cell.nodes b).localID ↔ a = b) :
    (∀ i, (cell.nodes i).dirichlet = false →
      (∀ j, (processCell s cell).A (cell.nodes i).localID (cell.nodes j).localID
          = s.A (cell.nodes i).localID (cell.nodes j).localID + computeStiffMatrix cell i j) ∧
      (processCell s cell).b (cell.nodes i).localID
        = s.b (cell.nodes i).localID + integrateRHS cell i
          - ∑ k : Fin 3, (if (cell.nodes k).dirichlet = true
              then (cell.nodes k).bc * computeStiffMatrix cell k i else 0)) ∧
    (∀ i, (cell.nodes i).dirichlet = true →
      (∀ c, (processCell s cell).A (cell.nodes i).localID c = s.A (cell.nodes i).localID c) ∧
      (processCell s cell).b (cell.nodes i).localID = s.b (cell.nodes i).localID) ∧
    (∀ r c, (∀ i j, (cell.nodes i).dirichlet = false →
        ¬ (r = (cell.nodes i).localID ∧ c = (cell.nodes j).localID)) →
      (processCell s cell).A r c = s.A r c) ∧
    (∀ r, (∀ i, (cell.nodes i).dirichlet = false → r ≠ (cell.nodes i).localID) →
      (processCell s cell).b r = s.b r) := by
  have hp : processCell s cell = assembleCell s cell := by
    rw [processCell, hghost]
    rfl
  rw [hp]
  refine ⟨?_, ?_, ?_, ?_⟩
  · intro i hi
    constructor
    · intro j
      rw [assembleCell_A]
      congr 1
      rw [Finset.sum_eq_single i, Finset.sum_eq_single j]
      · rw [if_pos ⟨hi, rfl, rfl⟩, computeStiffMatrix_apply_symm]
      · intro j' _ hj'
        rw [if_neg]
        rintro ⟨_, _, h⟩
        exact hj' ((hinj j j').mp h).symm
      · intro h
        exact absurd (Finset.mem_univ j) h
      · intro i' _ hi'
        apply Finset.sum_eq_zero
        intro j' _
        rw [if_neg]
        rintro ⟨_, h, _⟩
        exact hi' ((hinj i i').mp h).symm
      · intro h
        exact absurd (Finset.mem_univ i) h
    · rw [assembleCell_b, Finset.sum_eq_single i]
      · rw [if_pos ⟨hi, rfl⟩]
        have : ∀ k : Fin 3, (if (cell.nodes k).dirichlet = true
            then (cell.nodes k).bc * computeStiffMatrix cell i k else 0)
            = (if (cell.nodes k).dirichlet = true
            then (cell.nodes k).bc * computeStiffMatrix cell k i else 0) := by
          intro k
          rw [computeStiffMatrix_apply_symm cell k i]
        rw [Finset.sum_congr rfl (fun k _ => this k)]
        ring
      · intro i' _ hi'
        rw [if_neg]
        rintro ⟨_, h⟩
        exact hi' ((hinj i i').mp h).symm
      · intro h
        exact absurd (Finset.mem_univ i) h
  · intro i hi
    constructor
    · intro c
      rw [assembleCell_A]
      rw [Finset.sum_eq_zero, add_zero]
      intro i' _
      apply Finset.sum_eq_zero
      intro j' _
      rw [if_neg]
      rintro ⟨hf, h, _⟩
      rw [(hinj i i').mp h] at hi
      rw [hi] at hf
      exact Bool.noConfusion hf
    · rw [assembleCell_b, Finset.sum_eq_zero, add_zero]
      intro i' _
      rw [if_neg]
      rintro ⟨hf, h⟩
      rw [(hinj i i').mp h] at hi
      rw [hi] at hf
      exact Bool.noConfusion hf
  · intro r c h
    rw [assembleCell_A, Finset.sum_eq_zero, add_zero]
    intro i' _
    apply Finset.sum_eq_zero
    intro j' _
    rw [if_neg]
    rintro ⟨hf, hr, hc⟩
    exact h i' j' hf ⟨hr, hc⟩
  · intro r h
    rw [assembleCell_b, Finset.sum_eq_zero, add_zero]
    intro i' _
    rw [if_neg]
    rintro ⟨hf, hr⟩
    exact h i' hf hr

end FEM

namespace FEM

theorem bndCell_inj (a b : Fin 3) :
    (bndCell.nodes a).localID = (bndCell.nodes b).localID ↔ a = b := by
  fin_cases a <;> fin_cases b <;> simp [bndCell]

/-- Witness of C10 on a triangle with one Dirichlet node, started from the empty system. -/
theorem processCell_rule_witness :
    bndCell.ghost = false ∧
    (∀ a b : Fin 3, (bndCell.nodes a).localID = (bndCell.nodes b).localID ↔ a = b) ∧
    (processCell zeroSys bndCell).A 0 1 = zeroSys.A 0 1 + computeStiffMatrix bndCell 0 1 ∧
    (processCell zeroSys bndCell).b 1 = zeroSys.b 1 :=
  ⟨rfl, bndCell_inj,
    ((processCell_rule zeroSys bndCell rfl bndCell_inj).1 0 rfl).1 1,
    ((processCell_rule zeroSys bndCell rfl bndCell_inj).2.1 1 rfl).2⟩

end FEM
namespace FEM
variable {F : Type} [LinearOrderedField F]

theorem processCell_A (s : LinearSystem F) (cell : Cell F) (r c : Nat) :
    (processCell s cell).A r c = s.A r c + contribA cell r c := by
  unfold processCell contribA
  cases h : cell.ghost
  · simp [assembleCell_A]
  · simp

theorem processCell_b (s : LinearSystem F) (cell : Cell F) (r : Nat) :
    (processCell s cell).b r = s.b r + contribb cell r := by
  unfold processCell contribb
  cases h : cell.ghost
  · simp [assembleCell_b]
  · simp

theorem assembleCell_size (s : LinearSystem F) (cell : Cell F) :
    (assembleCell s cell).size = s.size := by
  unfold assembleCell
  cases h0 : (cell.nodes 0).dirichlet <;> cases h1 : (cell.nodes 1).dirichlet <;>
    cases h2 : (cell.nodes 2).dirichlet <;> simp [addA, addb, subb, h0, h1, h2]

theorem processCell_size (s : LinearSystem F) (cell : Cell F) :
    (processCell s cell).size = s.size := by
  unfold processCell
  split_ifs
  · rfl
  · exact assembleCell_size s cell

/-- The cell loop sums the contributions of the cells it visits. -/
theorem foldl_processCell (cells : List (Cell F)) (s : LinearSystem F) :
    (∀ r c, (cells.foldl processCell s).A r c
        = s.A r c + (cells.map fun cell => contribA cell r c).sum) ∧
    (∀ r, (cells.foldl processCell s).b r
        = s.b r + (cells.map fun cell => contribb cell r).sum) ∧
    (cells.foldl processCell s).size = s.size := by
  induction cells generalizing s with
  | nil => simp
  | cons cell rest ih =>
    obtain ⟨hA, hb, hs⟩ := ih (processCell s cell)
    refine ⟨?_, ?_, ?_⟩
    · intro r c
      rw [List.foldl_cons, hA, processCell_A, List.map_cons, List.sum_cons, add_assoc]
    · intro r
      rw [List.foldl_cons, hb, processCell_b, List.map_cons, List.sum_cons, add_assoc]
    · rw [List.foldl_cons, hs, processCell_size]

/-- C11: for two meshes with the same nodes whose cell lists are orderings of the same cells,
`assembleGlobalSystem` produces the same matrix `A` and the same vector `b`; every entry is the
starting entry plus the sum of the contributions of all cells (a ghost cell contributes
nothing), so contributions add up and none overwrites another. -/
theorem assembleGlobalSystem_perm (m1 m2 : Mesh F) (s : LinearSystem F)
    (hn : m1.nodes = m2.nodes) (hp : m1.cells.Perm m2.cells) :
    (assembleGlobalSystem m1 s).A = (assembleGlobalSystem m2 s).A ∧
    (assembleGlobalSystem m1 s).b = (assembleGlobalSystem m2 s).b ∧
    (assembleGlobalSystem m1 s).size = (assembleGlobalSystem m2 s).size ∧
    (∀ r c, (assembleGlobalSystem m1 s).A r c
        = s.A r c + (m1.cells.map fun cell => contribA cell r c).sum) ∧
    (∀ r, (assembleGlobalSystem m1 s).b r
        = s.b r + (m1.cells.map fun cell => contribb cell r).sum) := by
  obtain ⟨hA1, hb1, hs1⟩ := foldl_processCell m1.cells { s with size := m1.NumberOfNodes + 1 }
  obtain ⟨hA2, hb2, hs2⟩ := foldl_processCell m2.cells { s with size := m2.NumberOfNodes + 1 }
  refine ⟨?_, ?_, ?_, hA1, hb1⟩
  · funext r c
    rw [assembleGlobalSystem, assembleGlobalSystem, hA1, hA2]
    congr 1
    exact (hp.map _).sum_eq
  · funext r
    rw [assembleGlobalSystem, assembleGlobalSystem, hb1, hb2]
    congr 1
    exact (hp.map _).sum_eq
  · rw [assembleGlobalSystem, assembleGlobalSystem, hs1, hs2]
    simp [Mesh.NumberOfNodes, hn]

/-- Witness of C11 on the unit square cut into two triangles, visited in both orders. -/
theorem assembleGlobalSystem_perm_witness :
    squareMesh.nodes = squareMeshRev.nodes ∧ squareMesh.cells.Perm squareMeshRev.cells ∧
    (assembleGlobalSystem squareMesh zeroSys).A = (assembleGlobalSystem squareMeshRev zeroSys).A ∧
    (assembleGlobalSystem squareMesh zeroSys).b = (assembleGlobalSystem squareMeshRev zeroSys).b :=
  have hp : squareMesh.cells.Perm squareMeshRev.cells := (List.reverse_perm _).symm
  ⟨rfl, hp, (assembleGlobalSystem_perm squareMesh squareMeshRev zeroSys rfl hp).1,
    (assembleGlobalSystem_perm squareMesh squareMeshRev zeroSys rfl hp).2.1⟩

end FEM
namespace FEM
variable {F : Type} [LinearOrderedField F]

/-- A row index that belongs to no free node of a cell that is not a ghost is never written. -/
theorem assembleGlobalSystem_row_untouched (m : Mesh F) (s : LinearSystem F) (r : Nat)
    (h : ∀ cell ∈ m.cells, cell.ghost = false →
      ∀ i, (cell.nodes i).dirichlet = false → r ≠ (cell.nodes i).localID) (c : Nat) :
    (assembleGlobalSystem m s).A r c = s.A r c := by
  rw [assembleGlobalSystem, (foldl_processCell m.cells _).1]
  have hz : ∀ x ∈ m.cells.map (fun cell => contribA cell r c), x = 0 := by
    intro x hx
    obtain ⟨cell, hcell, rfl⟩ := List.mem_map.mp hx
    unfold contribA
    cases hg : cell.ghost
    · simp only [Bool.false_eq_true, if_false]
      apply Finset.sum_eq_zero
      intro i _
      apply Finset.sum_eq_zero
      intro j _
      rw [if_neg]
      rintro ⟨hf, hr, _⟩
      exact h cell hcell hg i hf hr
    · simp
  rw [List.sum_eq_zero hz, add_zero]

theorem bndCell_stiff : computeStiffMatrix bndCell 1 0 = -50 ∧
    computeStiffMatrix bndCell 0 1 = -50 := by
  have hd : detBk bndCell = 1 := by simp [detBk, Bk, bndCell]
  constructor
  · rw [computeStiffMatrix_gradPhi, area]
    simp only [tensorForm, gradPhi, hd]
    simp [Bk, bndCell, Dxx, Dyy, Dxy]
    norm_num
  · rw [computeStiffMatrix_gradPhi, area]
    simp only [tensorForm, gradPhi, hd]
    simp [Bk, bndCell, Dxx, Dyy, Dxy]
    norm_num

/-- C12, at the failing input: on the mesh made of the triangle `(0,0), (1,0), (0,1)` whose node
`(1,0)`, of index 1, is a Dirichlet node with value 1, `assembleGlobalSystem` started from the
empty system leaves `A[0][1] = -50`, an entry in the column of the Dirichlet node, although the
same contribution has been folded into the right-hand side, `b[0] = -100/3 + 50`; row 1 of `A`
stays zero. -/
theorem dirichlet_column_kept :
    (bndCell.nodes 1).dirichlet = true ∧ (bndCell.nodes 1).localID = 1 ∧
    (bndCell.nodes 0).dirichlet = false ∧ (bndCell.nodes 0).localID = 0 ∧
    (assembleGlobalSystem bndMesh zeroSys).A 0 1 = -50 ∧
    (assembleGlobalSystem bndMesh zeroSys).b 0 = -100 / 3 + 50 ∧
    ∀ c, (assembleGlobalSystem bndMesh zeroSys).A 1 c = 0 := by
  obtain ⟨k10, k01⟩ := bndCell_stiff
  have hd : detBk bndCell = 1 := by simp [detBk, Bk, bndCell]
  refine ⟨rfl, rfl, rfl, rfl, ?_, ?_, ?_⟩
  · rw [assembleGlobalSystem, (foldl_processCell bndMesh.cells _).1]
    have hc : contribA bndCell 0 1 = computeStiffMatrix bndCell 1 0 := by
      simp [contribA, Fin.sum_univ_three, bndCell]
    simp [bndMesh, hc, k10, zeroSys]
  · rw [assembleGlobalSystem, (foldl_processCell bndMesh.cells _).2.1]
    have hc : contribb bndCell 0
        = integrateRHS bndCell 0 - (bndCell.nodes 1).bc * computeStiffMatrix bndCell 0 1 := by
      simp [contribb, Fin.sum_univ_three, bndCell]
    have hi : integrateRHS bndCell 0 = -100 / 3 := by
      simp only [integrateRHS, hd, exactSolutionRHS, Dxx]
      norm_num
    have hbc : (bndCell.nodes 1).bc = 1 := rfl
    simp [bndMesh, hc, k01, hi, hbc, zeroSys]
  · intro c
    rw [assembleGlobalSystem_row_untouched]
    · rfl
    · intro cell hcell _ i hf
      have : cell = bndCell := by simpa [bndMesh] using hcell
      subst this
      fin_cases i
      · simp [bndCell]
      · simp [bndCell] at hf
      · simp [bndCell]

end FEM
section Engines
variable {F : Type} [LinearOrderedField F]

theorem addConst_res (R : Residual F) (i : Nat) (c : F) (r : Nat) :
    (R.addConst i c).res r = R.res r + if r = i then c else 0 := by
  unfold Residual.addConst
  by_cases h : r = i
  · subst h
    simp
  · simp [h]

theorem addVar_res (R : Residual F) (i : Nat) (c : F) (j : Nat) (v : F) (r : Nat) :
    (R.addVar i c j v).res r = R.res r + if r = i then c * v else 0 := by
  unfold Residual.addVar
  by_cases h : r = i
  · subst h
    simp
  · simp [h]

/-- A loop whose passes each add a quantity to the residual adds their sum. -/
theorem foldl_res {α : Type} (l : List α) (step : Residual F → α → Residual F)
    (δ : α → Nat → F) (h : ∀ R a r, (step R a).res r = R.res r + δ a r)
    (R : Residual F) (r : Nat) :
    (l.foldl step R).res r = R.res r + (l.map fun a => δ a r).sum := by
  induction l generalizing R with
  | nil => simp
  | cons a rest ih =>
    rw [List.foldl_cons, ih, h, List.map_cons, List.sum_cons, add_assoc]

theorem sum_finRange {n : Nat} (f : Fin n → F) :
    ((List.finRange n).map f).sum = ∑ i, f i :=
  (Fin.sum_univ_def f).symm

end Engines

namespace VEM2D
variable {F : Type} [LinearOrderedField F]

theorem dirichletLoop_res (cell : Cell F) (W : Matrix (Fin cell.nn) (Fin cell.nn) F)
    (i : Fin cell.nn) (R : Residual F) (r : Nat) :
    (dirichletLoop cell W i R).res r = R.res r
      + ∑ j : Fin cell.nn, if (cell.nodes j).dirichlet = false ∧ (cell.nodes j).index = r
          then (cell.nodes i).bc * W j i else 0 := by
  unfold dirichletLoop
  rw [foldl_res _ _ (fun j r => if (cell.nodes j).dirichlet = false ∧ (cell.nodes j).index = r
      then (cell.nodes i).bc * W j i else 0), sum_finRange]
  intro R j r
  cases h : (cell.nodes j).dirichlet
  · simp [addConst_res, eq_comm]
  · simp

theorem unknownLoop_res (u : Nat → F) (cell : Cell F)
    (W : Matrix (Fin cell.nn) (Fin cell.nn) F) (i : Fin cell.nn) (R : Residual F) (r : Nat) :
    (unknownLoop u cell W i R).res r = R.res r
      + if (cell.nodes i).index = r then
          ∑ j : Fin cell.nn, (if (cell.nodes j).dirichlet = false
            then W j i * u (cell.nodes j).index else 0)
        else 0 := by
  unfold unknownLoop
  rw [foldl_res _ _ (fun j r => if (cell.nodes i).index = r then
      (if (cell.nodes j).dirichlet = false then W j i * u (cell.nodes j).index else 0) else 0),
    sum_finRange]
  · congr 1
    split_ifs with h
    · rfl
    · simp
  · intro R j r
    cases h : (cell.nodes j).dirichlet
    · simp [addVar_res, eq_comm]
    · simp

/-- The residual after one cell, as the code accumulates it. -/
theorem assembleCell_res (u : Nat → F) (cell : Cell F)
    (W : Matrix (Fin cell.nn) (Fin cell.nn) F) (rhs : Fin cell.nn → F) (R : Residual F)
    (r : Nat) :
    (assembleCell u cell W rhs R).res r = R.res r
      + ∑ i : Fin cell.nn,
          if (cell.nodes i).dirichlet = true then
            ∑ j : Fin cell.nn, if (cell.nodes j).dirichlet = false ∧ (cell.nodes j).index = r
              then (cell.nodes i).bc * W j i else 0
          else
            if (cell.nodes i).index = r then
              (∑ j : Fin cell.nn, (if (cell.nodes j).dirichlet = false
                then W j i * u (cell.nodes j).index else 0)) - rhs i
            else 0 := by
  unfold assembleCell
  rw [foldl_res _ _ (fun i r =>
      if (cell.nodes i).dirichlet = true then
        ∑ j : Fin cell.nn, if (cell.nodes j).dirichlet = false ∧ (cell.nodes j).index = r
          then (cell.nodes i).bc * W j i else 0
      else
        if (cell.nodes i).index = r then
          (∑ j : Fin cell.nn, (if (cell.nodes j).dirichlet = false
            then W j i * u (cell.nodes j).index else 0)) - rhs i
        else 0), sum_finRange]
  intro R i r
  cases h : (cell.nodes i).dirichlet
  · simp only [Bool.false_eq_true, if_false, addConst_res, unknownLoop_res]
    by_cases hr : (cell.nodes i).index = r
    · simp [hr]
      ring
    · simp [hr, Ne.symm hr]
  · simp only [if_true, dirichletLoop_res]

theorem W_apply_symm (sqrtF : F → F) (cell : Cell F) (i j : Fin cell.nn) :
    W sqrtF cell j i = W sqrtF cell i j := by
  have h := congrFun (congrFun (W_symm sqrtF cell) i) j
  rwa [Matrix.transpose_apply] at h

/-- The residual after one cell, in terms of the rows of `W`. -/
theorem assembleCell_cellResidual (sqrtF : F → F) (u : Nat → F) (cell : Cell F)
    (hg : cell.ghost = false) (R : Residual F) (r : Nat) :
    (assembleCell u cell (W sqrtF cell) (b cell) R).res r
      = R.res r + cellResidual sqrtF u cell r := by
  rw [assembleCell_res, cellResidual, hg]
  simp only [Bool.false_eq_true, if_false]
  congr 1
  -- split the accumulated sum into its Dirichlet part and its unknown part
  have hsplit : ∀ i : Fin cell.nn,
      (if (cell.nodes i).dirichlet = true then
          ∑ j : Fin cell.nn, if (cell.nodes j).dirichlet = false ∧ (cell.nodes j).index = r
            then (cell.nodes i).bc * W sqrtF cell j i else 0
        else
          if (cell.nodes i).index = r then
            (∑ j : Fin cell.nn, (if (cell.nodes j).dirichlet = false
              then W sqrtF cell j i * u (cell.nodes j).index else 0)) - b cell i
          else 0)
      = (∑ j : Fin cell.nn, if (cell.nodes j).dirichlet = false ∧ (cell.nodes j).index = r
            then (if (cell.nodes i).dirichlet = true
              then (cell.nodes i).bc * W sqrtF cell j i else 0) else 0)
        + (if (cell.nodes i).dirichlet = false ∧ (cell.nodes i).index = r then
            (∑ j : Fin cell.nn, (if (cell.nodes j).dirichlet = false
              then W sqrtF cell j i * u (cell.nodes j).index else 0)) - b cell i
          else 0) := by
    intro i
    cases h : (cell.nodes i).dirichlet
    · simp
    · simp
  have htarget : ∀ k : Fin cell.nn,
      (if (cell.nodes k).dirichlet = false ∧ (cell.nodes k).index = r
        then (∑ j : Fin cell.nn, W sqrtF cell k j * nodeValue u cell j) - b cell k else 0)
      = (∑ i : Fin cell.nn, if (cell.nodes k).dirichlet = false ∧ (cell.nodes k).index = r
            then (if (cell.nodes i).dirichlet = true
              then (cell.nodes i).bc * W sqrtF cell k i else 0) else 0)
        + (if (cell.nodes k).dirichlet = false ∧ (cell.nodes k).index = r then
            (∑ j : Fin cell.nn, (if (cell.nodes j).dirichlet = false
              then W sqrtF cell j k * u (cell.nodes j).index else 0)) - b cell k
          else 0) := by
    intro k
    by_cases hk : (cell.nodes k).dirichlet = false ∧ (cell.nodes k).index = r
    · simp only [hk, and_self, if_true]
      rw [← add_sub_assoc, ← Finset.sum_add_distrib]
      congr 1
      apply Finset.sum_congr rfl
      intro j _
      unfold nodeValue
      cases hj : (cell.nodes j).dirichlet
      · simp [W_apply_symm sqrtF cell k j]
      · simp [mul_comm]
    · simp only [hk, if_false, Finset.sum_const_zero, add_zero]
  rw [Finset.sum_congr rfl (fun i _ => hsplit i), Finset.sum_congr rfl (fun k _ => htarget k),
    Finset.sum_add_distrib, Finset.sum_add_distrib, Finset.sum_comm]

theorem processCell_some (sqrtF : F → F) (u : Nat → F) (R : Residual F) (cell : Cell F)
    (h : cell.ghost = false → cell.nfaces = cell.nn) :
    ∃ R1, processCell sqrtF u (some R) cell = some R1 ∧
      ∀ r, R1.res r = R.res r + cellResidual sqrtF u cell r := by
  unfold processCell
  cases hg : cell.ghost
  · have hl : assembleLocalSystem sqrtF cell = some (W sqrtF cell, b cell) := by
      rw [assembleLocalSystem, if_neg (not_not.mpr (h hg))]
    simp only [Bool.false_eq_true, if_false, hl]
    exact ⟨_, rfl, fun r => assembleCell_cellResidual sqrtF u cell hg R r⟩
  · refine ⟨R, by simp, ?_⟩
    intro r
    simp [cellResidual, hg]

/-- The cell loop sums the contributions of the cells. -/
theorem foldl_processCell_some (sqrtF : F → F) (u : Nat → F) (cells : List (Cell F))
    (h : ∀ cell ∈ cells, cell.ghost = false → cell.nfaces = cell.nn) (R : Residual F) :
    ∃ R1, cells.foldl (processCell sqrtF u) (some R) = some R1 ∧
      ∀ r, R1.res r = R.res r + (cells.map fun cell => cellResidual sqrtF u cell r).sum := by
  induction cells generalizing R with
  | nil => exact ⟨R, rfl, by simp⟩
  | cons cell rest ih =>
    obtain ⟨R1, h1, hr1⟩ := processCell_some sqrtF u R cell (h cell (List.mem_cons_self _ _))
    obtain ⟨R2, h2, hr2⟩ := ih (fun c hc => h c (List.mem_cons_of_mem _ hc)) R1
    refine ⟨R2, ?_, ?_⟩
    · rw [List.foldl_cons, h1, h2]
    · intro r
      rw [hr2, hr1, List.map_cons, List.sum_cons, add_assoc]

/-- C13: on a mesh without ghost cells whose cells have as many faces as nodes, the 2D VEM
`assembleGlobalSystem` completes, and its residual entry `r` is the sum over all cells, and
over the nodes `k` of the cell that are not Dirichlet nodes and carry the index `r`, of
`sum_j W(k,j) * u~_j - b(k)`, where `u~_j` is the unknown of node `j`, or its boundary value
when `j` is a Dirichlet node. -/
theorem assembleGlobalSystem_residual (sqrtF : F → F) (cells : List (Cell F)) (u : Nat → F)
    (hg : ∀ cell ∈ cells, cell.ghost = false)
    (hf : ∀ cell ∈ cells, cell.nfaces = cell.nn) :
    ∃ R, assembleGlobalSystem sqrtF cells u = some R ∧
      ∀ r, R.res r = (cells.map fun cell => ∑ k : Fin cell.nn,
        if (cell.nodes k).dirichlet = false ∧ (cell.nodes k).index = r
        then (∑ j : Fin cell.nn, W sqrtF cell k j
            * (if (cell.nodes j).dirichlet then (cell.nodes j).bc else u (cell.nodes j).index))
          - b cell k
        else 0).sum := by
  obtain ⟨R, hR, hres⟩ := foldl_processCell_some sqrtF u cells (fun c hc _ => hf c hc)
    Residual.empty
  refine ⟨R, hR, ?_⟩
  intro r
  rw [hres]
  have h0 : (Residual.empty : Residual F).res r = 0 := rfl
  rw [h0, zero_add]
  congr 1
  apply List.map_congr_left
  intro cell hc
  simp only [cellResidual, hg cell hc, Bool.false_eq_true, if_false, nodeValue]

/-- C13, witness: the mesh made of `oneFreeTriangle`, with the unknown equal to 10. -/
theorem assembleGlobalSystem_residual_witness :
    (∀ cell ∈ oneFreeMesh.cells, cell.ghost = false)
    ∧ (∀ cell ∈ oneFreeMesh.cells, cell.nfaces = cell.nn)
    ∧ ∃ R, assembleGlobalSystem Rat.sqrt oneFreeMesh.cells (fun _ => (10 : ℚ)) = some R ∧
      ∀ r, R.res r = (oneFreeMesh.cells.map fun cell => ∑ k : Fin cell.nn,
        if (cell.nodes k).dirichlet = false ∧ (cell.nodes k).index = r
        then (∑ j : Fin cell.nn, W Rat.sqrt cell k j
            * (if (cell.nodes j).dirichlet then (cell.nodes j).bc
                else (fun _ => (10 : ℚ)) (cell.nodes j).index))
          - b cell k
        else 0).sum :=
  have hg : ∀ cell ∈ oneFreeMesh.cells, cell.ghost = false := by
    intro cell hc
    simp only [oneFreeMesh, List.mem_singleton] at hc
    subst hc
    rfl
  have hf : ∀ cell ∈ oneFreeMesh.cells, cell.nfaces = cell.nn := by
    intro cell hc
    simp only [oneFreeMesh, List.mem_singleton] at hc
    subst hc
    rfl
  ⟨hg, hf, assembleGlobalSystem_residual Rat.sqrt oneFreeMesh.cells (fun _ => 10) hg hf⟩

end VEM2D
namespace VEM2D
variable {F : Type} [LinearOrderedField F]

theorem solveStep_eq (sol : Nat → F) (acc : List (MeshNode F) × F) (n : MeshNode F) :
    solveStep sol acc n
      = (acc.1 ++ [updateNode sol n],
          if n.node.dirichlet then acc.2
          else max acc.2 |(updateNode sol n).sol - (updateNode sol n).solEx|) := by
  unfold solveStep updateNode
  cases h : n.node.dirichlet <;> simp

/-- The node loop of `solveSystem`: the nodes are updated in place and `Cnorm` is the running
maximum of the errors of the nodes that are not Dirichlet nodes. -/
theorem foldl_solveStep (sol : Nat → F) (nodes : List (MeshNode F))
    (acc : List (MeshNode F)) (c : F) :
    (nodes.foldl (solveStep sol) (acc, c)).1 = acc ++ nodes.map (updateNode sol) ∧
    c ≤ (nodes.foldl (solveStep sol) (acc, c)).2 ∧
    (∀ n ∈ nodes.map (updateNode sol), n.node.dirichlet = false →
      |n.sol - n.solEx| ≤ (nodes.foldl (solveStep sol) (acc, c)).2) ∧
    ((nodes.foldl (solveStep sol) (acc, c)).2 = c ∨
      ∃ n ∈ nodes.map (updateNode sol), n.node.dirichlet = false ∧
        (nodes.foldl (solveStep sol) (acc, c)).2 = |n.sol - n.solEx|) := by
  induction nodes generalizing acc c with
  | nil => simp
  | cons n rest ih =>
    have hdir : (updateNode sol n).node.dirichlet = n.node.dirichlet := by
      unfold updateNode
      split_ifs <;> rfl
    have hstep : solveStep sol (acc, c) n
        = (acc ++ [updateNode sol n],
            if n.node.dirichlet then c
            else max c |(updateNode sol n).sol - (updateNode sol n).solEx|) :=
      solveStep_eq sol (acc, c) n
    rw [List.foldl_cons, hstep]
    cases hd : n.node.dirichlet
    · simp only [Bool.false_eq_true, if_false]
      obtain ⟨h1, h2, h3, h4⟩ := ih (acc ++ [updateNode sol n])
        (max c |(updateNode sol n).sol - (updateNode sol n).solEx|)
      refine ⟨?_, le_trans (le_max_left _ _) h2, ?_, ?_⟩
      · rw [h1]
        simp
      · intro m hm hfree
        rw [List.map_cons, List.mem_cons] at hm
        rcases hm with rfl | hm
        · exact le_trans (le_max_right _ _) h2
        · exact h3 m hm hfree
      · rcases h4 with h4 | ⟨m, hm, hfree, h4⟩
        · rcases max_choice c |(updateNode sol n).sol - (updateNode sol n).solEx| with hc | hc
          · left
            rw [h4, hc]
          · right
            refine ⟨updateNode sol n, by simp, by rw [hdir, hd], ?_⟩
            rw [h4, hc]
        · right
          exact ⟨m, by simp [hm], hfree, h4⟩
    · simp only [if_true]
      obtain ⟨h1, h2, h3, h4⟩ := ih (acc ++ [updateNode sol n]) c
      refine ⟨?_, h2, ?_, ?_⟩
      · rw [h1]
        simp
      · intro m hm hfree
        rw [List.map_cons, List.mem_cons] at hm
        rcases hm with rfl | hm
        · rw [hdir, hd] at hfree
          exact absurd hfree (by simp)
        · exact h3 m hm hfree
      · rcases h4 with h4 | ⟨m, hm, hfree, h4⟩
        · left
          exact h4
        · right
          exact ⟨m, by simp [hm], hfree, h4⟩

/-- C16 (amended): after a successful solve, `solveSystem` of the 2D VEM driver returns the
nodes with the solver output subtracted at every node that is not a Dirichlet node, and the
reported `|err|_C` is the maximum of `|SOLUTION - SOLUTION_EXACT|` over the nodes that are not
Dirichlet nodes (0 when there are none): it bounds the error of each of them and is attained
by one of them or is 0. -/
theorem solveSystem_Cnorm (nodes : List (MeshNode F)) (out : SolverResult F)
    (h : out.solved = true) :
    ∃ Cnorm, solveSystem nodes out = some (nodes.map (updateNode out.sol), Cnorm) ∧
      (∀ n ∈ nodes.map (updateNode out.sol), n.node.dirichlet = false →
        |n.sol - n.solEx| ≤ Cnorm) ∧
      (Cnorm = 0 ∨ ∃ n ∈ nodes.map (updateNode out.sol), n.node.dirichlet = false ∧
        Cnorm = |n.sol - n.solEx|) := by
  obtain ⟨h1, _, h3, h4⟩ := foldl_solveStep out.sol nodes [] 0
  refine ⟨(nodes.foldl (solveStep out.sol) ([], 0)).2, ?_, h3, h4⟩
  rw [solveSystem, h]
  simp only [Bool.not_true, Bool.false_eq_true, if_false]
  rw [← List.nil_append (nodes.map (updateNode out.sol)), ← h1]

/-- Witness of C16 (amended) on the triangle with one unknown. -/
theorem solveSystem_Cnorm_witness :
    solvedTen.solved = true ∧
    ∃ Cnorm, solveSystem oneFreeNodes solvedTen
        = some (oneFreeNodes.map (updateNode solvedTen.sol), Cnorm) ∧
      (∀ n ∈ oneFreeNodes.map (updateNode solvedTen.sol), n.node.dirichlet = false →
        |n.sol - n.solEx| ≤ Cnorm) ∧
      (Cnorm = 0 ∨ ∃ n ∈ oneFreeNodes.map (updateNode solvedTen.sol),
        n.node.dirichlet = false ∧ Cnorm = |n.sol - n.solEx|) :=
  ⟨rfl, solveSystem_Cnorm oneFreeNodes solvedTen rfl⟩

/-- C16, counterexample: on the triangle whose two Dirichlet nodes keep the value
`SOLUTION = 10` stored by `initProblem`, a successful solve with output 10 brings the only
unknown to its exact value 0; `solveSystem` reports `|err|_C = 0`, while the stored fields
differ by 10 at the node `(0,0)` and by 7 at the node `(3,0)`. -/
theorem Cnorm_skips_dirichlet :
    ∃ nodes Cnorm, solveSystem oneFreeNodes solvedTen = some (nodes, Cnorm) ∧ Cnorm = 0 ∧
      nodes = [⟨⟨(0, 0), true, 0, 0⟩, 10, 0⟩, ⟨⟨(3, 0), true, 3, 0⟩, 10, 3⟩,
          ⟨⟨(0, 4), false, 0, 0⟩, 0, 0⟩] ∧
      (∃ n ∈ nodes, |n.sol - n.solEx| = 10) ∧
      ¬ ∀ n ∈ nodes, |n.sol - n.solEx| ≤ Cnorm := by
  refine ⟨[⟨⟨(0, 0), true, 0, 0⟩, 10, 0⟩, ⟨⟨(3, 0), true, 3, 0⟩, 10, 3⟩,
    ⟨⟨(0, 4), false, 0, 0⟩, 0, 0⟩], 0, ?_, rfl, rfl, ?_, ?_⟩
  · simp [solveSystem, solvedTen, oneFreeNodes, solveStep]
  · exact ⟨⟨⟨(0, 0), true, 0, 0⟩, 10, 0⟩, by simp, by norm_num⟩
  · intro h
    have := h ⟨⟨(0, 0), true, 0, 0⟩, 10, 0⟩ (by simp)
    norm_num at this

end VEM2D
section Engines
variable {F : Type} [LinearOrderedField F]

theorem rowApply_cons (j : Nat) (c : F) (row : List (Nat × F)) (s : Nat → F) :
    rowApply ((j, c) :: row) s = c * s j + rowApply row s := by
  simp [rowApply]

theorem rowApply_sub (row : List (Nat × F)) (x s : Nat → F) :
    rowApply row (fun i => x i - s i) = rowApply row x - rowApply row s := by
  induction row with
  | nil => simp [rowApply]
  | cons e rest ih =>
    obtain ⟨j, c⟩ := e
    rw [rowApply_cons, rowApply_cons, rowApply_cons, ih]
    ring

theorem foldl_rel {α β : Type} (P : β → β → Prop) (f g : β → α → β)
    (h : ∀ a x y, P x y → P (f x a) (g y a)) (l : List α) (x y : β) (hxy : P x y) :
    P (l.foldl f x) (l.foldl g y) := by
  induction l generalizing x y with
  | nil => exact hxy
  | cons a rest ih => exact ih _ _ (h a x y hxy)

theorem AffineOf_addConst (u : Nat → F) (Ru R0 : Residual F) (h : AffineOf u Ru R0)
    (i : Nat) (c : F) : AffineOf u (Ru.addConst i c) (R0.addConst i c) := by
  obtain ⟨hj, hr⟩ := h
  refine ⟨hj, ?_⟩
  intro r
  rw [addConst_res, addConst_res, hr]
  show _ = rowApply (R0.jac r) u + _
  ring

theorem AffineOf_addVar (u : Nat → F) (Ru R0 : Residual F) (h : AffineOf u Ru R0)
    (i : Nat) (c : F) (j : Nat) : AffineOf u (Ru.addVar i c j (u j)) (R0.addVar i c j 0) := by
  obtain ⟨hj, hr⟩ := h
  refine ⟨?_, ?_⟩
  · show Function.update Ru.jac i ((j, c) :: Ru.jac i) = Function.update R0.jac i ((j, c) :: R0.jac i)
    rw [hj]
  · intro r
    rw [addVar_res, addVar_res, hr]
    show _ = rowApply (Function.update R0.jac i ((j, c) :: R0.jac i) r) u + _
    by_cases hri : r = i
    · subst hri
      simp [rowApply_cons]
      ring
    · simp [hri]

end Engines

namespace VEM2D
variable {F : Type} [LinearOrderedField F]

theorem AffineOf_dirichletLoop (u : Nat → F) (cell : Cell F)
    (W : Matrix (Fin cell.nn) (Fin cell.nn) F) (i : Fin cell.nn) (Ru R0 : Residual F)
    (h : AffineOf u Ru R0) :
    AffineOf u (dirichletLoop cell W i Ru) (dirichletLoop cell W i R0) := by
  unfold dirichletLoop
  apply foldl_rel (AffineOf u) _ _ _ _ _ _ h
  intro j x y hxy
  split_ifs
  · exact AffineOf_addConst u x y hxy _ _
  · exact hxy

theorem AffineOf_unknownLoop (u : Nat → F) (cell : Cell F)
    (W : Matrix (Fin cell.nn) (Fin cell.nn) F) (i : Fin cell.nn) (Ru R0 : Residual F)
    (h : AffineOf u Ru R0) :
    AffineOf u (unknownLoop u cell W i Ru) (unknownLoop (fun _ => 0) cell W i R0) := by
  unfold unknownLoop
  apply foldl_rel (AffineOf u) _ _ _ _ _ _ h
  intro j x y hxy
  split_ifs
  · exact AffineOf_addVar u x y hxy _ _ _
  · exact hxy

theorem AffineOf_assembleCell (u : Nat → F) (cell : Cell F)
    (W : Matrix (Fin cell.nn) (Fin cell.nn) F) (rhs : Fin cell.nn → F) (Ru R0 : Residual F)
    (h : AffineOf u Ru R0) :
    AffineOf u (assembleCell u cell W rhs Ru) (assembleCell (fun _ => 0) cell W rhs R0) := by
  unfold assembleCell
  apply foldl_rel (AffineOf u) _ _ _ _ _ _ h
  intro i x y hxy
  split_ifs
  · exact AffineOf_dirichletLoop u cell W i x y hxy
  · exact AffineOf_addConst u _ _ (AffineOf_unknownLoop u cell W i x y hxy) _ _

/-- The assembly at the values `u` and the assembly at zero stop together, and otherwise the
first is the affine image of `u` recorded by the second. -/
theorem assembleGlobalSystem_affine (sqrtF : F → F) (cells : List (Cell F)) (u : Nat → F) :
    (assembleGlobalSystem sqrtF cells u = none ∧
      assembleGlobalSystem sqrtF cells (fun _ => 0) = none) ∨
    ∃ Ru R0, assembleGlobalSystem sqrtF cells u = some Ru ∧
      assembleGlobalSystem sqrtF cells (fun _ => 0) = some R0 ∧ AffineOf u Ru R0 := by
  unfold assembleGlobalSystem
  apply foldl_rel (fun (a b : Option (Residual F)) => (a = none ∧ b = none) ∨
    ∃ Ru R0, a = some Ru ∧ b = some R0 ∧ AffineOf u Ru R0)
  · intro cell x y hxy
    rcases hxy with ⟨rfl, rfl⟩ | ⟨Ru, R0, rfl, rfl, h⟩
    · left
      exact ⟨rfl, rfl⟩
    · unfold processCell
      cases hg : cell.ghost
      · cases hl : assembleLocalSystem sqrtF cell with
        | none =>
          left
          simp
        | some p =>
          right
          exact ⟨_, _, by simp, by simp, AffineOf_assembleCell u cell p.1 p.2 Ru R0 h⟩
      · right
        exact ⟨Ru, R0, by simp, by simp, h⟩
  · right
    exact ⟨Residual.empty, Residual.empty, rfl, rfl, rfl, fun r => by simp [Residual.empty, rowApply]⟩

/-- C17: when the assembly completes (every cell that is not a ghost has as many faces as
nodes), the residual assembled by the 2D VEM driver is an affine function `R(x) = J x - c` of
the vector `x` of the unknowns, `J` being its Jacobian; so if the solver output `s` satisfies
`J s = R(x0)`, the residual at `x0 - s` is zero, and `x0 - s` is what `solveSystem` writes back
at every node that is not a Dirichlet node, whatever `x0` is. -/
theorem residual_newton_update (sqrtF : F → F) (cells : List (Cell F))
    (hf : ∀ cell ∈ cells, cell.ghost = false → cell.nfaces = cell.nn) :
    ∃ (J : Nat → List (Nat × F)) (c : Nat → F),
      (∀ x, ∃ R, assembleGlobalSystem sqrtF cells x = some R ∧ R.jac = J ∧
        ∀ r, R.res r = rowApply (J r) x - c r) ∧
      (∀ x0 s R0, assembleGlobalSystem sqrtF cells x0 = some R0 →
        (∀ r, rowApply (J r) s = R0.res r) →
        ∃ R1, assembleGlobalSystem sqrtF cells (fun i => x0 i - s i) = some R1 ∧
          ∀ r, R1.res r = 0) ∧
      (∀ (x0 s : Nat → F) (nodes : List (MeshNode F)),
        (∀ n ∈ nodes, n.node.dirichlet = false → n.sol = x0 n.node.index) →
        ∃ Cnorm, solveSystem nodes ⟨true, s⟩ = some (nodes.map (updateNode s), Cnorm) ∧
          ∀ n ∈ nodes.map (updateNode s), n.node.dirichlet = false →
            n.sol = x0 n.node.index - s n.node.index) := by
  obtain ⟨Z, hZ, _⟩ := foldl_processCell_some sqrtF (fun _ => 0) cells hf Residual.empty
  have hZ0 : assembleGlobalSystem sqrtF cells (fun _ => 0) = some Z := hZ
  have key : ∀ x, ∃ R, assembleGlobalSystem sqrtF cells x = some R ∧ R.jac = Z.jac ∧
      ∀ r, R.res r = rowApply (Z.jac r) x - (-Z.res r) := by
    intro x
    rcases assembleGlobalSystem_affine sqrtF cells x with ⟨_, h0⟩ | ⟨Ru, R0, hu, h0, hj, hr⟩
    · rw [hZ0] at h0
      exact absurd h0 (by simp)
    · rw [hZ0] at h0
      have : Z = R0 := Option.some.inj h0
      subst this
      exact ⟨Ru, hu, hj, fun r => by rw [hr r]; ring⟩
  refine ⟨Z.jac, fun r => -Z.res r, key, ?_, ?_⟩
  · intro x0 s R0 h0 hs
    obtain ⟨Ra, ha, _, hra⟩ := key x0
    obtain ⟨R1, h1, _, hr1⟩ := key (fun i => x0 i - s i)
    rw [h0] at ha
    have : R0 = Ra := Option.some.inj ha
    subst this
    refine ⟨R1, h1, ?_⟩
    intro r
    rw [hr1, rowApply_sub, hs r, hra r]
    ring
  · intro x0 s nodes hx
    obtain ⟨_, _, _, _⟩ := foldl_solveStep s nodes [] 0
    refine ⟨(nodes.foldl (solveStep s) ([], 0)).2, ?_, ?_⟩
    · have h1 := (foldl_solveStep s nodes [] 0).1
      rw [solveSystem]
      simp only [Bool.not_true, Bool.false_eq_true, if_false]
      rw [← List.nil_append (nodes.map (updateNode s)), ← h1]
    · intro n hn hfree
      obtain ⟨m, hm, rfl⟩ := List.mem_map.mp hn
      unfold updateNode at hfree ⊢
      cases hd : m.node.dirichlet
      · simp only [hd, Bool.false_eq_true, if_false]
        rw [hx m hm hd]
      · rw [hd] at hfree
        simp only [if_true] at hfree
        rw [hd] at hfree
        exact absurd hfree (by simp)

/-- Witness of C17 on the mesh of the triangle with one unknown. -/
theorem residual_newton_update_witness :
    (∀ cell ∈ oneFreeMesh.cells, cell.ghost = false → cell.nfaces = cell.nn) ∧
    ∃ (J : Nat → List (Nat × ℚ)) (c : Nat → ℚ),
      ∀ x, ∃ R, assembleGlobalSystem Rat.sqrt oneFreeMesh.cells x = some R ∧ R.jac = J ∧
        ∀ r, R.res r = rowApply (J r) x - c r :=
  have hf : ∀ cell ∈ oneFreeMesh.cells, cell.ghost = false → cell.nfaces = cell.nn := by
    intro cell hc _
    have : cell = oneFreeTriangle := by simpa [oneFreeMesh] using hc
    rw [this]
    rfl
  ⟨hf, (residual_newton_update Rat.sqrt oneFreeMesh.cells hf).imp
    (fun _ hJ => hJ.imp (fun _ hc => hc.1))⟩

end VEM2D

namespace MFD
variable {F : Type} [LinearOrderedField F]

theorem sum_ite_const {n : Nat} (P : Prop) [Decidable P] (f : Fin n → F) :
    (∑ i, if P then f i else 0) = if P then ∑ i, f i else 0 := by
  by_cases h : P
  · simp [h]
  · simp [h]

theorem divLoop_res (aut : Automatizator) (u : Nat → F) (cell : Cell F) (R : Residual F)
    (r : Nat) :
    (divLoop aut u cell R).res r = R.res r
      + if r = aut.indexP cell.handle then ∑ i, divCoef cell i * uc u cell i else 0 := by
  unfold divLoop
  rw [foldl_res _ _ (fun i r => if r = aut.indexP cell.handle
      then divCoef cell i * uc u cell i else 0), sum_finRange, sum_ite_const]
  intro R i r
  rw [addVar_res]
  rfl

theorem addFaceEq_res (aut : Automatizator) (p u : Nat → F) (cell : Cell F)
    (MF : Matrix (Fin cell.nf) (Fin cell.nf) F) (i : Fin cell.nf) (R : Residual F) (r : Nat) :
    (addFaceEq aut p u cell MF i R).res r = R.res r
      + if r = aut.indexU (cell.faces i).id then ucNew cell MF (p cell.handle) u i else 0 := by
  unfold addFaceEq
  simp only
  rw [addConst_res, addVar_res,
    foldl_res _ _ (fun k r => if r = aut.indexU (cell.faces i).id
      then MF i k * u (cell.faces k).id else 0), sum_finRange, sum_ite_const]
  · by_cases h : r = aut.indexU (cell.faces i).id
    · simp only [h, if_true, ucNew, res, resWith, Pi.sub_apply, Matrix.mulVec, Matrix.dotProduct,
        uc]
      ring
    · simp [h]
  · intro R k r
    rw [addVar_res]

theorem assembleCell_res_mfd (aut : Automatizator) (p u : Nat → F) (cell : Cell F)
    (MF : Matrix (Fin cell.nf) (Fin cell.nf) F) (R : Residual F) (r : Nat) :
    (assembleCell aut p u cell MF R).res r = R.res r
      + ((if r = aut.indexP cell.handle then ∑ i, divCoef cell i * uc u cell i else 0)
        + ∑ i, if r = aut.indexU (cell.faces i).id
            then ucNew cell MF (p cell.handle) u i else 0) := by
  unfold assembleCell
  rw [foldl_res _ _ (fun i r => if r = aut.indexU (cell.faces i).id
      then ucNew cell MF (p cell.handle) u i else 0), sum_finRange, divLoop_res, add_assoc]
  intro R i r
  exact addFaceEq_res aut p u cell MF i R r

theorem processCell_some_mfd (sqrtF : F → F) (aut : Automatizator) (p u : Nat → F)
    (R : Residual F) (cell : Cell F)
    (h : cell.ghost = false → ¬ FrobeniusNorm sqrtF (test cell) > 1 / 1000) :
    ∃ R1, processCell sqrtF aut p u (some R) cell = some R1 ∧
      ∀ r, R1.res r = R.res r + cellResidual aut p u cell r := by
  unfold processCell cellResidual
  cases hg : cell.ghost
  · simp only [Bool.false_eq_true, if_false, assembleLocalSystem, if_neg (h hg)]
    exact ⟨_, rfl, fun r => assembleCell_res_mfd aut p u cell (MP cell) R r⟩
  · exact ⟨R, by simp, by simp⟩

theorem foldl_processCell_some_mfd (sqrtF : F → F) (aut : Automatizator) (p u : Nat → F)
    (cells : List (Cell F))
    (h : ∀ cell ∈ cells, cell.ghost = false → ¬ FrobeniusNorm sqrtF (test cell) > 1 / 1000)
    (R : Residual F) :
    ∃ R1, cells.foldl (processCell sqrtF aut p u) (some R) = some R1 ∧
      ∀ r, R1.res r = R.res r + (cells.map fun cell => cellResidual aut p u cell r).sum := by
  induction cells generalizing R with
  | nil => exact ⟨R, rfl, by simp⟩
  | cons cell rest ih =>
    obtain ⟨R1, h1, hr1⟩ := processCell_some_mfd sqrtF aut p u R cell
      (h cell (List.mem_cons_self _ _))
    obtain ⟨R2, h2, hr2⟩ := ih (fun c hc => h c (List.mem_cons_of_mem _ hc)) R1
    refine ⟨R2, ?_, ?_⟩
    · rw [List.foldl_cons, h1, h2]
    · intro r
      rw [hr2, hr1, List.map_cons, List.sum_cons, add_assoc]

/-- The residual of the MFD `assembleGlobalSystem` is the sum of the cell contributions. -/
theorem assembleGlobalSystem_sum (sqrtF : F → F) (aut : Automatizator) (p u : Nat → F)
    (cells : List (Cell F))
    (h : ∀ cell ∈ cells, cell.ghost = false → ¬ FrobeniusNorm sqrtF (test cell) > 1 / 1000) :
    ∃ R, assembleGlobalSystem sqrtF aut cells p u = some R ∧
      ∀ r, R.res r = (cells.map fun cell => cellResidual aut p u cell r).sum := by
  obtain ⟨R, hR, hres⟩ := foldl_processCell_some_mfd sqrtF aut p u cells h Residual.empty
  refine ⟨R, hR, fun r => ?_⟩
  rw [hres]
  have h0 : (Residual.empty : Residual F).res r = 0 := rfl
  rw [h0, zero_add]

/-- A cell none of whose faces is the face `fid` adds nothing to the residual entry of the flux
unknown of `fid`. -/
theorem cellResidual_other (aut : Automatizator) (p u : Nat → F) (cell : Cell F) (fid : Nat)
    (hinj : Function.Injective aut.indexU) (hdisj : ∀ h f, aut.indexP h ≠ aut.indexU f)
    (hno : ∀ i, (cell.faces i).id ≠ fid) :
    cellResidual aut p u cell (aut.indexU fid) = 0 := by
  unfold cellResidual
  split
  · rfl
  · rw [if_neg (fun h => hdisj _ _ h.symm), zero_add]
    apply Finset.sum_eq_zero
    intro i _
    rw [if_neg]
    intro h
    exact hno i (hinj h).symm

/-- A cell without ghost status that has the face `fid` exactly once, as its face `i`, adds the
entry `uc(i,0)` to the residual entry of the flux unknown of `fid`. -/
theorem cellResidual_face (aut : Automatizator) (p u : Nat → F) (cell : Cell F)
    (i : Fin cell.nf)
    (hinj : Function.Injective aut.indexU) (hdisj : ∀ h f, aut.indexP h ≠ aut.indexU f)
    (hg : cell.ghost = false)
    (huniq : ∀ k, (cell.faces k).id = (cell.faces i).id → k = i) :
    cellResidual aut p u cell (aut.indexU (cell.faces i).id)
      = (MP cell *ᵥ uc u cell) i
        - sign cell i * (cell.faces i).area * (p cell.handle - lam cell i) := by
  unfold cellResidual
  rw [hg]
  simp only [Bool.false_eq_true, if_false]
  rw [if_neg (fun h => hdisj _ _ h.symm), zero_add, Finset.sum_eq_single i]
  · simp [ucNew, res, resWith]
  · intro k _ hk
    rw [if_neg]
    intro h
    exact hk (huniq k (hinj h).symm)
  · intro h
    exact absurd (Finset.mem_univ i) h

theorem sum_cellResidual_rest (aut : Automatizator) (p u : Nat → F) (rest : List (Cell F))
    (fid : Nat)
    (hinj : Function.Injective aut.indexU) (hdisj : ∀ h f, aut.indexP h ≠ aut.indexU f)
    (hno : ∀ c ∈ rest, ∀ i, (c.faces i).id ≠ fid) :
    (rest.map fun cell => cellResidual aut p u cell (aut.indexU fid)).sum = 0 := by
  apply List.sum_eq_zero
  intro x hx
  obtain ⟨c, hc, rfl⟩ := List.mem_map.1 hx
  exact cellResidual_other aut p u c fid hinj hdisj (hno c hc)

/-- C14: on a mesh without ghost cells whose cells pass the test of `assembleLocalSystem`, the
MFD `assembleGlobalSystem` completes, and, the flux unknowns having indices of their own:
for an interior face that is face `i1` of its back cell `c1` and face `i2` of its front cell
`c2`, and a face of no other cell, the residual entry of its flux unknown is
`(M_c1 u_c1)_i1 + (M_c2 u_c2)_i2 - Area * (p_c1 - p_c2)`; for a boundary face that is face `i`
of the cell `c` only, it is `(M_c u_c)_i - Area * (p_c - exactSolution(x_f))`. -/
theorem face_equations (sqrtF : F → F) (aut : Automatizator) (cells : List (Cell F))
    (p u : Nat → F)
    (hinj : Function.Injective aut.indexU) (hdisj : ∀ h f, aut.indexP h ≠ aut.indexU f)
    (hg : ∀ cell ∈ cells, cell.ghost = false)
    (hok : ∀ cell ∈ cells, ¬ FrobeniusNorm sqrtF (test cell) > 1 / 1000) :
    ∃ R, assembleGlobalSystem sqrtF aut cells p u = some R
      ∧ (∀ (c1 c2 : Cell F) (rest : List (Cell F)) (i1 : Fin c1.nf) (i2 : Fin c2.nf),
          cells.Perm (c1 :: c2 :: rest) →
          c2.faces i2 = c1.faces i1 →
          (c1.faces i1).boundary = false →
          (c1.faces i1).frontCell = some c2.handle →
          c1.handle ≠ c2.handle →
          (∀ k, (c1.faces k).id = (c1.faces i1).id → k = i1) →
          (∀ k, (c2.faces k).id = (c1.faces i1).id → k = i2) →
          (∀ c ∈ rest, ∀ k, (c.faces k).id ≠ (c1.faces i1).id) →
          R.res (aut.indexU (c1.faces i1).id)
            = (MP c1 *ᵥ uc u c1) i1 + (MP c2 *ᵥ uc u c2) i2
              - (c1.faces i1).area * (p c1.handle - p c2.handle))
      ∧ (∀ (c : Cell F) (rest : List (Cell F)) (i : Fin c.nf),
          cells.Perm (c :: rest) →
          (c.faces i).boundary = true →
          (c.faces i).frontCell ≠ some c.handle →
          (∀ k, (c.faces k).id = (c.faces i).id → k = i) →
          (∀ c0 ∈ rest, ∀ k, (c0.faces k).id ≠ (c.faces i).id) →
          R.res (aut.indexU (c.faces i).id)
            = (MP c *ᵥ uc u c) i
              - (c.faces i).area * (p c.handle - exactSolution (c.faces i).xf)) := by
  obtain ⟨R, hR, hres⟩ := assembleGlobalSystem_sum sqrtF aut p u cells
    (fun c hc _ => hok c hc)
  refine ⟨R, hR, ?_, ?_⟩
  · intro c1 c2 rest i1 i2 hperm hsame hb hfront hne hu1 hu2 hrest
    have hg1 : c1.ghost = false := hg c1 (hperm.mem_iff.2 (List.mem_cons_self _ _))
    have hg2 : c2.ghost = false :=
      hg c2 (hperm.mem_iff.2 (List.mem_cons_of_mem _ (List.mem_cons_self _ _)))
    have hid : (c2.faces i2).id = (c1.faces i1).id := by rw [hsame]
    rw [hres, (hperm.map _).sum_eq, List.map_cons, List.map_cons, List.sum_cons, List.sum_cons,
      sum_cellResidual_rest aut p u rest _ hinj hdisj hrest, add_zero,
      cellResidual_face aut p u c1 i1 hinj hdisj hg1 hu1, ← hid,
      cellResidual_face aut p u c2 i2 hinj hdisj hg2 (fun k hk => hu2 k (hk.trans hid))]
    have hs1 : sign c1 i1 = 1 := by
      unfold sign
      rw [if_neg]
      rw [hfront]
      intro h
      exact hne (Option.some.inj h).symm
    have hs2 : sign c2 i2 = -1 := by
      unfold sign
      rw [hsame, if_pos hfront]
    have hl1 : lam c1 i1 = 0 := by
      unfold lam
      rw [hb]
      simp
    have hl2 : lam c2 i2 = 0 := by
      unfold lam
      rw [hsame, hb]
      simp
    rw [hs1, hs2, hl1, hl2, hsame]
    ring
  · intro c rest i hperm hb hfront hu hrest
    have hg1 : c.ghost = false := hg c (hperm.mem_iff.2 (List.mem_cons_self _ _))
    rw [hres, (hperm.map _).sum_eq, List.map_cons, List.sum_cons,
      sum_cellResidual_rest aut p u rest _ hinj hdisj hrest, add_zero,
      cellResidual_face aut p u c i hinj hdisj hg1 hu]
    have hs1 : sign c i = 1 := by
      unfold sign
      rw [if_neg hfront]
    have hl1 : lam c i = exactSolution (c.faces i).xf := by
      unfold lam
      rw [hb]
      simp
    rw [hs1, hl1]
    ring

end MFD

namespace MFD

theorem upperCell_RN : (RP upperCell)ᵀ * NP upperCell = upperCell.volume • D upperCell := by
  ext j k
  fin_cases j <;> fin_cases k <;>
  · simp [RP, NP, NP0, D, sign, upperCell, Matrix.mul_apply, Fin.sum_univ_four,
      Fin.sum_univ_two]
    try norm_num

theorem test_passes {F : Type} [LinearOrderedField F] (sqrtF : F → F) (hsqrt : sqrtF 0 = 0)
    (cell : Cell F) (hRN : (RP cell)ᵀ * NP cell = cell.volume • D cell) :
    ¬ FrobeniusNorm sqrtF (test cell) > 1 / 1000 := by
  have htest : test cell = 0 := by rw [test, hRN, sub_self]
  have hnorm : FrobeniusNorm sqrtF (test cell) = 0 := by
    rw [FrobeniusNorm, htest]
    simpa using hsqrt
  rw [hnorm]
  norm_num

theorem evenOdd_inj : Function.Injective evenOdd.indexU := by
  intro a b h
  simp only [evenOdd] at h
  omega

theorem evenOdd_disj : ∀ h f, evenOdd.indexP h ≠ evenOdd.indexU f := by
  intro h f
  simp only [evenOdd]
  omega

/-- C14, witness: the mesh of `squareCell` and `upperCell`, which share the face 2; the face 0
of `squareCell` is a boundary face. -/
theorem face_equations_witness :
    Function.Injective evenOdd.indexU ∧ (∀ h f, evenOdd.indexP h ≠ evenOdd.indexU f)
    ∧ (∀ cell ∈ [squareCell, upperCell], cell.ghost = false)
    ∧ (∀ cell ∈ [squareCell, upperCell], ¬ FrobeniusNorm Rat.sqrt (test cell) > 1 / 1000)
    ∧ ∃ R, assembleGlobalSystem Rat.sqrt evenOdd [squareCell, upperCell]
          (fun h => (h : ℚ)) (fun f => (f : ℚ)) = some R
      ∧ R.res (evenOdd.indexU 2)
          = (MP upperCell *ᵥ uc (fun f => (f : ℚ)) upperCell) (0 : Fin 4)
            + (MP squareCell *ᵥ uc (fun f => (f : ℚ)) squareCell) (2 : Fin 4) - 1 * (8 - 7)
      ∧ R.res (evenOdd.indexU 0)
          = (MP squareCell *ᵥ uc (fun f => (f : ℚ)) squareCell) (0 : Fin 4)
            - 1 * (7 - 1 / 2) := by
  have hg : ∀ cell ∈ [squareCell, upperCell], cell.ghost = false := by
    intro cell hc
    simp only [List.mem_cons, List.mem_singleton, List.not_mem_nil, or_false] at hc
    rcases hc with rfl | rfl <;> rfl
  have hok : ∀ cell ∈ [squareCell, upperCell],
      ¬ FrobeniusNorm Rat.sqrt (test cell) > 1 / 1000 := by
    intro cell hc
    simp only [List.mem_cons, List.mem_singleton, List.not_mem_nil, or_false] at hc
    rcases hc with rfl | rfl
    · exact test_passes Rat.sqrt Rat_sqrt_zero _ squareCell_RN
    · exact test_passes Rat.sqrt Rat_sqrt_zero _ upperCell_RN
  refine ⟨evenOdd_inj, evenOdd_disj, hg, hok, ?_⟩
  obtain ⟨R, hR, hint, hbnd⟩ := face_equations Rat.sqrt evenOdd [squareCell, upperCell]
    (fun h => (h : ℚ)) (fun f => (f : ℚ)) evenOdd_inj evenOdd_disj hg hok
  refine ⟨R, hR, ?_, ?_⟩
  · have h := hint upperCell squareCell [] (0 : Fin 4) (2 : Fin 4) (List.Perm.swap _ _ _) rfl rfl
      rfl (by decide)
      (by intro k; fin_cases k <;> simp [upperCell])
      (by intro k; fin_cases k <;> simp [upperCell, squareCell])
      (by simp)
    simpa [upperCell, squareCell] using h
  · have h := hbnd squareCell [upperCell] (0 : Fin 4) (List.Perm.refl _) rfl (by decide)
      (by intro k; fin_cases k <;> simp [squareCell])
      (by
        intro c0 hc0 k
        simp only [List.mem_singleton] at hc0
        subst hc0
        fin_cases k <;> simp [upperCell, squareCell])
    simpa [squareCell, exactSolution] using h

end MFD

namespace MFD
variable {F : Type} [LinearOrderedField F]

theorem MP_mul_NP (cell : Cell F) (hdR : ((RP cell)ᵀ * NP cell).det ≠ 0)
    (hdN : ((NP cell)ᵀ * NP cell).det ≠ 0) : MP cell * NP cell = RP cell := by
  rw [MP, Matrix.add_mul, MP0_mul_NP cell hdR, MP1_mul_NP cell hdN, add_zero]

theorem NP_mulVec (cell : Cell F) (g : F × F) (i : Fin cell.nf) :
    (NP cell *ᵥ ![g.1, g.2]) i = -normalFlux cell g i := by
  simp [NP, NP0, D, Matrix.mulVec, Matrix.dotProduct, Matrix.mul_apply, Fin.sum_univ_two,
    normalFlux]
  ring

theorem RP_mulVec (cell : Cell F) (g : F × F) (i : Fin cell.nf) :
    (RP cell *ᵥ ![g.1, g.2]) i = sign cell i * (cell.faces i).area
      * (((cell.faces i).xf.1 - cell.xP.1) * g.1 + ((cell.faces i).xf.2 - cell.xP.2) * g.2) := by
  simp [RP, Matrix.mulVec, Matrix.dotProduct, Fin.sum_univ_two]
  ring

/-- The operator `MP` applied to the exact normal fluxes of a field with gradient `g`. -/
theorem MP_mulVec_flux (cell : Cell F) (hdR : ((RP cell)ᵀ * NP cell).det ≠ 0)
    (hdN : ((NP cell)ᵀ * NP cell).det ≠ 0) (g : F × F) (u : Nat → F)
    (hu : ∀ i, u (cell.faces i).id = normalFlux cell g i) (i : Fin cell.nf) :
    (MP cell *ᵥ uc u cell) i = -(sign cell i * (cell.faces i).area
      * (((cell.faces i).xf.1 - cell.xP.1) * g.1 + ((cell.faces i).xf.2 - cell.xP.2) * g.2)) := by
  have huc : uc u cell = -(NP cell *ᵥ ![g.1, g.2]) := by
    funext k
    rw [Pi.neg_apply, NP_mulVec, neg_neg]
    exact hu k
  rw [huc, Matrix.mulVec_neg, Pi.neg_apply, Matrix.mulVec_mulVec, MP_mul_NP cell hdR hdN,
    RP_mulVec]

/-- The entry of `MF * uc - res` for exact data of an affine field. -/
theorem face_entry_affine (cell : Cell F) (hdR : ((RP cell)ᵀ * NP cell).det ≠ 0)
    (hdN : ((NP cell)ᵀ * NP cell).det ≠ 0) (a : FEM.Affine F) (u : Nat → F)
    (hu : ∀ i, u (cell.faces i).id = normalFlux cell a.g i)
    (lamv : Fin cell.nf → F) (i : Fin cell.nf) :
    (MP cell *ᵥ uc u cell - resWith cell (a.eval cell.xP) lamv) i
      = sign cell i * (cell.faces i).area * (lamv i - a.eval (cell.faces i).xf) := by
  rw [Pi.sub_apply, MP_mulVec_flux cell hdR hdN a.g u hu i]
  simp only [resWith, FEM.Affine.eval]
  ring

/-- The cell equation for exact normal fluxes, when the faces of the cell close up. -/
theorem divergence_affine (cell : Cell F) (g : F × F) (u : Nat → F)
    (hu : ∀ i, u (cell.faces i).id = normalFlux cell g i)
    (hc1 : ∑ i, sign cell i * (cell.faces i).area * (cell.faces i).n.1 = 0)
    (hc2 : ∑ i, sign cell i * (cell.faces i).area * (cell.faces i).n.2 = 0) :
    ∑ i, divCoef cell i * uc u cell i = 0 := by
  have h : ∀ i, divCoef cell i * uc u cell i
      = sign cell i * (cell.faces i).area * (cell.faces i).n.1
          * (-(cell.tagD 0 * g.1 + cell.tagD 2 * g.2) / cell.volume)
        + sign cell i * (cell.faces i).area * (cell.faces i).n.2
          * (-(cell.tagD 2 * g.1 + cell.tagD 1 * g.2) / cell.volume) := by
    intro i
    simp only [divCoef, uc, hu i, normalFlux]
    ring
  simp only [h]
  rw [Finset.sum_add_distrib, ← Finset.sum_mul, ← Finset.sum_mul, hc1, hc2, zero_mul, zero_mul,
    add_zero]

/-- The faces of a polygonal cell close up: when face `i` runs from `s i` to `t i` and the end
points chain up, `Area` is the length of the face, the unit normal is orthogonal to the face and
`a_i * n_i` looks outward, the vectors `a_i * Area_i * n_i` sum to zero. -/
theorem faces_close_up (cell : Cell F) (s t : Fin cell.nf → F × F)
    (σ : Equiv.Perm (Fin cell.nf)) (hclosed : ∀ i, t i = s (σ i))
    (hpos : ∀ i, 0 ≤ (cell.faces i).area)
    (hlen : ∀ i, (cell.faces i).area * (cell.faces i).area
      = ((t i).1 - (s i).1) * ((t i).1 - (s i).1) + ((t i).2 - (s i).2) * ((t i).2 - (s i).2))
    (hunit : ∀ i, (cell.faces i).n.1 * (cell.faces i).n.1
      + (cell.faces i).n.2 * (cell.faces i).n.2 = 1)
    (horth : ∀ i, (cell.faces i).n.1 * ((t i).1 - (s i).1)
      + (cell.faces i).n.2 * ((t i).2 - (s i).2) = 0)
    (hout : ∀ i, 0 ≤ sign cell i * ((cell.faces i).n.1 * (rot (s i) (t i)).1
      + (cell.faces i).n.2 * (rot (s i) (t i)).2)) :
    (∑ i, sign cell i * (cell.faces i).area * (cell.faces i).n.1 = 0)
    ∧ ∑ i, sign cell i * (cell.faces i).area * (cell.faces i).n.2 = 0 := by
  have hn : ∀ i, sign cell i * (cell.faces i).area * (cell.faces i).n.1 = (t i).2 - (s i).2 ∧
      sign cell i * (cell.faces i).area * (cell.faces i).n.2 = -((t i).1 - (s i).1) := by
    intro i
    have ho := hout i
    simp only [rot] at ho
    exact scaled_normal ((t i).1 - (s i).1) ((t i).2 - (s i).2) (cell.faces i).n.1
      (cell.faces i).n.2 (sign cell i) (cell.faces i).area (sign_cases cell i) (hpos i)
      (hlen i) (hunit i) (horth i) (by linarith)
  constructor
  · rw [Finset.sum_congr rfl (fun i _ => (hn i).1), Finset.sum_sub_distrib,
      sum_closed s t σ hclosed (fun p => p.2), sub_self]
  · rw [Finset.sum_congr rfl (fun i _ => (hn i).2), Finset.sum_neg_distrib,
      Finset.sum_sub_distrib, sum_closed s t σ hclosed (fun p => p.1), sub_self, neg_zero]

/-- C15: for a cell with `RP^T * NP = Volume * D`, both inverses defined, whose faces close up
(`sum_i a_i * Area_i * n_i = 0`, as the faces of every polygon do), and an affine function `u`
with gradient `g`: when the cell pressure is `u(xP)` and the flux unknown of every face is
`-(n_i^T D g)`, the tensor is symmetric, the cell equation `sum_i a_i * Area_i / Volume * u_i`
is zero and entry `i` of `MF * uc - res` is `a_i * Area_i * (lam_i - u(xf_i))`, `MF` being the
matrix that `assembleLocalSystem` returns; it is zero where `lam_i = u(xf_i)`, the entries of
two such cells for a shared face with `lam_i = 0` and opposite signs cancel, and for the field
`exactSolution` the entries computed by the driver are zero on the boundary faces. -/
theorem affine_exactness (cell : Cell F)
    (hRN : (RP cell)ᵀ * NP cell = cell.volume • D cell)
    (hdR : ((RP cell)ᵀ * NP cell).det ≠ 0) (hdN : ((NP cell)ᵀ * NP cell).det ≠ 0)
    (hc1 : ∑ i, sign cell i * (cell.faces i).area * (cell.faces i).n.1 = 0)
    (hc2 : ∑ i, sign cell i * (cell.faces i).area * (cell.faces i).n.2 = 0)
    (a : FEM.Affine F) (u : Nat → F)
    (hu : ∀ i, u (cell.faces i).id = normalFlux cell a.g i) :
    (D cell)ᵀ = D cell
    ∧ (∀ sqrtF : F → F, sqrtF 0 = 0 → assembleLocalSystem sqrtF cell = some (MP cell))
    ∧ ∑ i, divCoef cell i * uc u cell i = 0
    ∧ (∀ (lamv : Fin cell.nf → F) (i : Fin cell.nf),
        (MP cell *ᵥ uc u cell - resWith cell (a.eval cell.xP) lamv) i
          = sign cell i * (cell.faces i).area * (lamv i - a.eval (cell.faces i).xf))
    ∧ (∀ (lamv : Fin cell.nf → F) (i : Fin cell.nf), lamv i = a.eval (cell.faces i).xf →
        (MP cell *ᵥ uc u cell - resWith cell (a.eval cell.xP) lamv) i = 0)
    ∧ (∀ (c2 : Cell F) (lamv : Fin cell.nf → F) (lamv2 : Fin c2.nf → F) (i : Fin cell.nf)
        (i2 : Fin c2.nf),
        ((RP c2)ᵀ * NP c2).det ≠ 0 → ((NP c2)ᵀ * NP c2).det ≠ 0 →
        (∀ k, u (c2.faces k).id = normalFlux c2 a.g k) →
        c2.faces i2 = cell.faces i → sign c2 i2 = -sign cell i →
        lamv i = 0 → lamv2 i2 = 0 →
        (MP cell *ᵥ uc u cell - resWith cell (a.eval cell.xP) lamv) i
          + (MP c2 *ᵥ uc u c2 - resWith c2 (a.eval c2.xP) lamv2) i2 = 0)
    ∧ (a = ⟨0, (1, 0)⟩ → ∀ i, (cell.faces i).boundary = true →
        ucNew cell (MP cell) (exactSolution cell.xP) u i = 0) := by
  refine ⟨?_, fun sqrtF h0 => assembleLocalSystem_of_test_zero sqrtF h0 cell hRN,
    divergence_affine cell a.g u hu hc1 hc2,
    face_entry_affine cell hdR hdN a u hu, ?_, ?_, ?_⟩
  · ext i j
    fin_cases i <;> fin_cases j <;> simp [D]
  · intro lamv i h
    rw [face_entry_affine cell hdR hdN a u hu, h, sub_self, mul_zero]
  · intro c2 lamv lamv2 i i2 hdR2 hdN2 hu2 hsame hs h1 h2
    rw [face_entry_affine cell hdR hdN a u hu, face_entry_affine c2 hdR2 hdN2 a u hu2, hs, hsame,
      h1, h2]
    ring
  · intro ha i hb
    have h := face_entry_affine cell hdR hdN a u hu (lam cell) i
    have hl : lam cell i = a.eval (cell.faces i).xf := by
      simp [lam, hb, exactSolution, ha, FEM.Affine.eval]
    have hp : exactSolution cell.xP = a.eval cell.xP := by
      simp [exactSolution, ha, FEM.Affine.eval]
    rw [ucNew, res, hp, h, hl, sub_self, mul_zero]

theorem squareCell_closed :
    (∑ i, sign squareCell i * (squareCell.faces i).area * (squareCell.faces i).n.1 = 0)
    ∧ ∑ i, sign squareCell i * (squareCell.faces i).area * (squareCell.faces i).n.2 = 0 := by
  constructor <;> simp [sign, squareCell, Fin.sum_univ_four]

theorem squareCell_detRN : ((RP squareCell)ᵀ * NP squareCell).det ≠ 0 := by
  rw [squareCell_RN]
  simp [D, squareCell, Matrix.det_fin_two]

theorem squareCell_detNN : ((NP squareCell)ᵀ * NP squareCell).det ≠ 0 := by
  rw [squareCell_NN]
  simp [Matrix.det_fin_two]

theorem upperCell_NN : (NP upperCell)ᵀ * NP upperCell = !![2, 0; 0, 200] := by
  ext j k
  fin_cases j <;> fin_cases k <;>
  · simp only [Matrix.mul_apply, Matrix.transpose_apply, NP]
    simp [NP0, D, upperCell, Fin.sum_univ_four, Fin.sum_univ_two]
    try norm_num

theorem upperCell_detRN : ((RP upperCell)ᵀ * NP upperCell).det ≠ 0 := by
  rw [upperCell_RN]
  simp [D, upperCell, Matrix.det_fin_two]

theorem upperCell_detNN : ((NP upperCell)ᵀ * NP upperCell).det ≠ 0 := by
  rw [upperCell_NN]
  simp [Matrix.det_fin_two]

theorem squareCell_flux (i : Fin squareCell.nf) :
    affineFlux (squareCell.faces i).id = normalFlux squareCell (3, 5) i := by
  fin_cases i <;> simp [affineFlux, normalFlux, squareCell] <;> norm_num

theorem upperCell_flux (i : Fin upperCell.nf) :
    affineFlux (upperCell.faces i).id = normalFlux upperCell (3, 5) i := by
  fin_cases i <;> simp [affineFlux, normalFlux, upperCell] <;> norm_num

/-- C15, witness: `squareCell` with the field `2 + 3 x + 5 y`; the entries of `squareCell` and
`upperCell` for their common face cancel. -/
theorem affine_exactness_witness :
    (RP squareCell)ᵀ * NP squareCell = squareCell.volume • D squareCell
    ∧ ((RP squareCell)ᵀ * NP squareCell).det ≠ 0 ∧ ((NP squareCell)ᵀ * NP squareCell).det ≠ 0
    ∧ (∑ i, sign squareCell i * (squareCell.faces i).area * (squareCell.faces i).n.1 = 0)
    ∧ (∑ i, sign squareCell i * (squareCell.faces i).area * (squareCell.faces i).n.2 = 0)
    ∧ (∀ i, affineFlux (squareCell.faces i).id = normalFlux squareCell (3, 5) i)
    ∧ ∑ i, divCoef squareCell i * uc affineFlux squareCell i = 0
    ∧ (∀ (lamv : Fin squareCell.nf → ℚ) (i : Fin squareCell.nf),
        (MP squareCell *ᵥ uc affineFlux squareCell
            - resWith squareCell ((⟨2, (3, 5)⟩ : FEM.Affine ℚ).eval squareCell.xP) lamv) i
          = sign squareCell i * (squareCell.faces i).area
            * (lamv i - (⟨2, (3, 5)⟩ : FEM.Affine ℚ).eval (squareCell.faces i).xf))
    ∧ (MP squareCell *ᵥ uc affineFlux squareCell
          - resWith squareCell ((⟨2, (3, 5)⟩ : FEM.Affine ℚ).eval squareCell.xP) 0) (2 : Fin 4)
        + (MP upperCell *ᵥ uc affineFlux upperCell
          - resWith upperCell ((⟨2, (3, 5)⟩ : FEM.Affine ℚ).eval upperCell.xP) 0) (0 : Fin 4)
        = 0 :=
  have h := affine_exactness squareCell squareCell_RN squareCell_detRN squareCell_detNN
    squareCell_closed.1 squareCell_closed.2 ⟨2, (3, 5)⟩ affineFlux squareCell_flux
  ⟨squareCell_RN, squareCell_detRN, squareCell_detNN, squareCell_closed.1, squareCell_closed.2,
    squareCell_flux, h.2.2.1, h.2.2.2.1,
    h.2.2.2.2.2.1 upperCell 0 0 (2 : Fin 4) (0 : Fin 4) upperCell_detRN upperCell_detNN
      upperCell_flux rfl (by simp [sign, squareCell, upperCell]) rfl rfl⟩

end MFD

namespace MFD
variable {F : Type} [LinearOrderedField F]

theorem processCell_none (sqrtF : F → F) (aut : Automatizator) (p u : Nat → F)
    (cells : List (Cell F)) : cells.foldl (processCell sqrtF aut p u) none = none := by
  induction cells with
  | nil => rfl
  | cons c rest ih => exact ih

/-- A cell without ghost status that fails the test of `assembleLocalSystem` ends the cell
loop of `assembleGlobalSystem`. -/
theorem foldl_processCell_exit (sqrtF : F → F) (aut : Automatizator) (p u : Nat → F)
    (cells : List (Cell F))
    (h : ∃ c ∈ cells, c.ghost = false ∧ FrobeniusNorm sqrtF (test c) > 1 / 1000)
    (R : Option (Residual F)) :
    cells.foldl (processCell sqrtF aut p u) R = none := by
  induction cells generalizing R with
  | nil =>
    obtain ⟨c, hc, _⟩ := h
    exact absurd hc (List.not_mem_nil c)
  | cons c rest ih =>
    rw [List.foldl_cons]
    cases R with
    | none => exact processCell_none sqrtF aut p u rest
    | some R0 =>
      obtain ⟨c0, hc0, hg, hbad⟩ := h
      rcases List.mem_cons.1 hc0 with rfl | hrest
      · have hp : processCell sqrtF aut p u (some R0) c0 = none := by
          simp only [processCell, hg, assembleLocalSystem, if_pos hbad, Bool.false_eq_true,
            if_false]
        rw [hp]
        exact processCell_none sqrtF aut p u rest
      · exact ih ⟨c0, hrest, hg, hbad⟩ _

/-- C18: `assembleLocalSystem` of the MFD driver takes its `exit(1)`, handing back no local
operator, exactly when the Frobenius norm of `RP^T * NP - Volume * D` is greater than `1e-3`;
it returns `MF = MP0 + MP1` exactly when that norm is at most `1e-3`; and a run whose mesh has a
cell without ghost status with a norm greater than `1e-3` ends with exit status 1 and without
a solution file. -/
theorem assembleLocalSystem_exit_iff (sqrtF : F → F) (cell : Cell F) :
    (assembleLocalSystem sqrtF cell = none ↔ FrobeniusNorm sqrtF (test cell) > 1 / 1000)
    ∧ (assembleLocalSystem sqrtF cell = some (MP0 cell + MP1 cell)
        ↔ FrobeniusNorm sqrtF (test cell) ≤ 1 / 1000)
    ∧ ∀ (aut : Automatizator) (Solve : Residual F → SolverResult F) (m : Mesh F)
        (p pEx u : Nat → F), cell ∈ m.cells → cell.ghost = false →
        FrobeniusNorm sqrtF (test cell) > 1 / 1000 →
        main sqrtF aut Solve 2 m p pEx u = ⟨1, none⟩ := by
  refine ⟨?_, ?_, ?_⟩
  · unfold assembleLocalSystem
    by_cases h : FrobeniusNorm sqrtF (test cell) > 1 / 1000
    · simp [h]
    · simp [h]
  · unfold assembleLocalSystem
    by_cases h : FrobeniusNorm sqrtF (test cell) > 1 / 1000
    · simp only [if_pos h, not_le.2 h, iff_false]
      exact fun hn => Option.noConfusion hn
    · simp only [if_neg h, not_lt.1 h, iff_true]
      rfl
  · intro aut Solve m p pEx u hc hg hbad
    have hnone : assembleGlobalSystem sqrtF aut m.cells p u = none :=
      foldl_processCell_exit sqrtF aut p u m.cells ⟨cell, hc, hg, hbad⟩ _
    simp only [main, hnone]
    simp

theorem badCell_norm : FrobeniusNorm Rat.sqrt (test badCell) = 5 := by
  have ht : test badCell = !![-3, 0; 0, -4] := by
    ext j k
    fin_cases j <;> fin_cases k <;>
    · simp [test, RP, NP, NP0, D, sign, badCell, Matrix.mul_apply, Fin.sum_univ_four,
        Fin.sum_univ_two]
      try norm_num
  rw [FrobeniusNorm, ht]
  simp only [Fin.sum_univ_two]
  simp
  norm_num [Rat_sqrt_25]

/-- C18, witness: `squareCell` passes the test and gets `MP0 + MP1`; `badCell`, whose norm is
5, does not, and a run on the mesh of the two cells ends with status 1 and no file. -/
theorem assembleLocalSystem_exit_iff_witness :
    FrobeniusNorm Rat.sqrt (test squareCell) ≤ 1 / 1000
    ∧ assembleLocalSystem Rat.sqrt squareCell = some (MP0 squareCell + MP1 squareCell)
    ∧ FrobeniusNorm Rat.sqrt (test badCell) > 1 / 1000
    ∧ assembleLocalSystem Rat.sqrt badCell = none
    ∧ main Rat.sqrt evenOdd (fun _ => ⟨true, fun _ => 0⟩) 2 ⟨[squareCell, badCell], []⟩
        (fun _ => 0) (fun _ => 0) (fun _ => 0) = ⟨1, none⟩ :=
  have h1 : FrobeniusNorm Rat.sqrt (test squareCell) ≤ 1 / 1000 :=
    not_lt.1 (test_passes Rat.sqrt Rat_sqrt_zero _ squareCell_RN)
  have h2 : FrobeniusNorm Rat.sqrt (test badCell) > 1 / 1000 := by
    rw [badCell_norm]
    norm_num
  ⟨h1, (assembleLocalSystem_exit_iff Rat.sqrt squareCell).2.1.2 h1, h2,
    (assembleLocalSystem_exit_iff Rat.sqrt badCell).1.2 h2,
    (assembleLocalSystem_exit_iff Rat.sqrt badCell).2.2 evenOdd _ ⟨[squareCell, badCell], []⟩ _ _ _
      (by simp) rfl h2⟩

end MFD

namespace VEM3D
variable {F : Type} [LinearOrderedField F]

theorem dirichletLoop_res3 (cell : Cell F) (W : Matrix (Fin cell.nn) (Fin cell.nn) F)
    (i : Fin cell.nn) (R : Residual F) (r : Nat) :
    (dirichletLoop cell W i R).res r = R.res r
      + ∑ j : Fin cell.nn,
          if (cell.nodes j).ghost = false ∧ (cell.nodes j).dirichlet = false
              ∧ (cell.nodes j).index = r
          then (cell.nodes i).bc * W j i else 0 := by
  unfold dirichletLoop
  rw [foldl_res _ _ (fun j r =>
      if (cell.nodes j).ghost = false ∧ (cell.nodes j).dirichlet = false
          ∧ (cell.nodes j).index = r
      then (cell.nodes i).bc * W j i else 0), sum_finRange]
  intro R j r
  cases hg : (cell.nodes j).ghost <;> cases h : (cell.nodes j).dirichlet
  · simp [addConst_res, eq_comm]
  · simp
  · simp
  · simp

theorem unknownLoop_res3 (u : Nat → F) (cell : Cell F)
    (W : Matrix (Fin cell.nn) (Fin cell.nn) F) (i : Fin cell.nn) (R : Residual F) (r : Nat) :
    (unknownLoop u cell W i R).res r = R.res r
      + if (cell.nodes i).index = r then
          ∑ j : Fin cell.nn, (if (cell.nodes j).dirichlet = false
            then W j i * u (cell.nodes j).index else 0)
        else 0 := by
  unfold unknownLoop
  rw [foldl_res _ _ (fun j r => if (cell.nodes i).index = r then
      (if (cell.nodes j).dirichlet = false then W j i * u (cell.nodes j).index else 0) else 0),
    sum_finRange]
  · congr 1
    split_ifs with h
    · rfl
    · simp
  · intro R j r
    cases h : (cell.nodes j).dirichlet
    · simp [addVar_res, eq_comm]
    · simp

/-- The residual after one cell of the 3D assembler, as the code accumulates it. -/
theorem assembleCell_res3 (u : Nat → F) (cell : Cell F)
    (W : Matrix (Fin cell.nn) (Fin cell.nn) F) (rhs : Fin cell.nn → F) (R : Residual F)
    (r : Nat) :
    (assembleCell u cell W rhs R).res r = R.res r
      + ∑ i : Fin cell.nn,
          if (cell.nodes i).dirichlet = true then
            ∑ j : Fin cell.nn,
              if (cell.nodes j).ghost = false ∧ (cell.nodes j).dirichlet = false
                  ∧ (cell.nodes j).index = r
              then (cell.nodes i).bc * W j i else 0
          else
            if (cell.nodes i).ghost = false ∧ (cell.nodes i).index = r then
              (∑ j : Fin cell.nn, (if (cell.nodes j).dirichlet = false
                then W j i * u (cell.nodes j).index else 0)) - rhs i
            else 0 := by
  unfold assembleCell
  rw [foldl_res _ _ (fun i r =>
      if (cell.nodes i).dirichlet = true then
        ∑ j : Fin cell.nn,
          if (cell.nodes j).ghost = false ∧ (cell.nodes j).dirichlet = false
              ∧ (cell.nodes j).index = r
          then (cell.nodes i).bc * W j i else 0
      else
        if (cell.nodes i).ghost = false ∧ (cell.nodes i).index = r then
          (∑ j : Fin cell.nn, (if (cell.nodes j).dirichlet = false
            then W j i * u (cell.nodes j).index else 0)) - rhs i
        else 0), sum_finRange]
  intro R i r
  cases h : (cell.nodes i).dirichlet
  · cases hg : (cell.nodes i).ghost
    · simp only [Bool.false_eq_true, if_false, Bool.not_false, if_true, addConst_res,
        unknownLoop_res3, true_and]
      by_cases hr : (cell.nodes i).index = r
      · simp [hr]
        ring
      · simp [hr, Ne.symm hr]
    · simp
  · simp only [if_true, dirichletLoop_res3]

/-- The function `main` of the 3D driver with two arguments always reaches `saveSolution`. -/
theorem main_saves (sqrtF : F → F) (rhsF : (Fin 3 → F) → F) (inv : Inverter F)
    (Solve : Residual F → SolverResult F) (m : Mesh F) :
    main sqrtF rhsF inv Solve 2 m = ⟨0, some (saveSolution m.procs "res")⟩ := by
  simp [main]

theorem assembleGlobalSystem_single (sqrtF : F → F) (rhsF : (Fin 3 → F) → F) (inv : Inverter F)
    (cell : Cell F) (u : Nat → F) :
    assembleGlobalSystem sqrtF rhsF inv [cell] u
      = assembleCell u cell (assembleLocalSystem sqrtF rhsF inv cell).W
          (assembleLocalSystem sqrtF rhsF inv cell).b Residual.empty := rfl

theorem assembleLocalSystem_W (sqrtF : F → F) (rhsF : (Fin 3 → F) → F) (inv : Inverter F)
    (cell : Cell F) :
    (assembleLocalSystem sqrtF rhsF inv cell).W
      = ((inv (B sqrtF cell * D sqrtF cell)).1 * B sqrtF cell)ᵀ * G sqrtF cell
          * ((inv (B sqrtF cell * D sqrtF cell)).1 * B sqrtF cell)
        + (1 - D sqrtF cell * ((inv (B sqrtF cell * D sqrtF cell)).1 * B sqrtF cell))ᵀ
          * (1 - D sqrtF cell * ((inv (B sqrtF cell * D sqrtF cell)).1 * B sqrtF cell)) := rfl

theorem assembleLocalSystem_printed (sqrtF : F → F) (rhsF : (Fin 3 → F) → F) (inv : Inverter F)
    (cell : Cell F) :
    (assembleLocalSystem sqrtF rhsF inv cell).printed
      = decide ((inv (B sqrtF cell * D sqrtF cell)).2 > 0) := rfl

theorem saveSolution_one : saveSolution 1 "res" = resVtk := by
  decide

theorem flatCell_diam : diam Rat.sqrt flatCell = 5 := by
  have : diam2 flatCell = 25 := by
    simp [diam2, flatCell, List.finRange, List.pmap, List.range, List.range.loop]
    norm_num
  rw [diam, this, Rat_sqrt_25]

theorem flatCell_gid :
    gid_cnodes flatCell 10 = some (0 : Fin 4) ∧ gid_cnodes flatCell 11 = some (1 : Fin 4) ∧
    gid_cnodes flatCell 12 = some (2 : Fin 4) ∧ gid_cnodes flatCell 13 = some (3 : Fin 4) := by
  refine ⟨?_, ?_, ?_, ?_⟩ <;>
  · simp [gid_cnodes, flatCell, List.finRange, List.pmap, List.range, List.range.loop]
    try rfl

theorem flatCell_B_row (j : Fin n_polys) (hj : j ≠ 0) (i : Fin flatCell.nn) :
    B Rat.sqrt flatCell j i = 0 := by
  obtain ⟨g0, g1, g2, g3⟩ := flatCell_gid
  have hf : flatCell.faces
      = [⟨12, ![0, 0, -1], [10, 13, 12, 11]⟩, ⟨12, ![0, 0, 1], [10, 11, 12, 13]⟩] := rfl
  have t0 : flatCell.tagD 0 = 10 := rfl
  have t1 : flatCell.tagD 1 = 2 := rfl
  have t2 : flatCell.tagD 2 = 1 := rfl
  have t3 : flatCell.tagD 3 = 0 := rfl
  have t4 : flatCell.tagD 4 = 0 := rfl
  have t5 : flatCell.tagD 5 = 0 := rfl
  have e2 : ∀ h, (⟨2, h⟩ : Fin 4) = 2 := fun _ => rfl
  have e3 : ∀ h, (⟨3, h⟩ : Fin 4) = 3 := fun _ => rfl
  revert hj
  simp only [B, Matrix.of_apply, flatCell_diam, hf, List.map, List.sum_cons, List.sum_nil,
    g0, g1, g2, g3, List.length, knrm, t0, t1, t2, t3, t4, t5]
  fin_cases j <;> fin_cases i <;>
  · simp [e2, e3, Matrix.vecHead, Matrix.vecTail]

theorem flatCell_det : (B Rat.sqrt flatCell * D Rat.sqrt flatCell).det = 0 := by
  apply Matrix.det_eq_zero_of_row_eq_zero (1 : Fin 4)
  intro k
  rw [Matrix.mul_apply]
  apply Finset.sum_eq_zero
  intro i _
  rw [flatCell_B_row 1 (by decide) i, zero_mul]

theorem flatCell_Invert : Invert (B Rat.sqrt flatCell * D Rat.sqrt flatCell) = 0 := by
  rw [Invert, flatCell_det]
  simp

theorem flatCell_W (rhsF : (Fin 3 → ℚ) → ℚ) :
    (assembleLocalSystem Rat.sqrt rhsF invertErr flatCell).W = 1 := by
  simp only [assembleLocalSystem, invertErr, flatCell_Invert]
  simp

theorem flatCell_b (rhsF : (Fin 3 → ℚ) → ℚ) (i : Fin flatCell.nn) :
    (assembleLocalSystem Rat.sqrt rhsF invertErr flatCell).b i = 0 := by
  simp [assembleLocalSystem, b, flatCell]

/-- C19: on `flatCell` the inversion of `B*D` reports an error (`ierr = 1`, the matrix being
singular), the assertions hold, and yet `assembleLocalSystem` hands back a matrix `W` (the unit
matrix for the exact routine), `assembleGlobalSystem` adds it to the residual, whose entries
0 to 3 become the values 7 of the unknowns, and the run ends with status 0 after writing
`res.vtk`; the same holds for every inversion routine that reports `ierr > 0` on this cell. -/
theorem ierr_not_fatal :
    (B Rat.sqrt flatCell * D Rat.sqrt flatCell).det = 0
    ∧ (invertErr (B Rat.sqrt flatCell * D Rat.sqrt flatCell)).2 = 1
    ∧ assertsHold flatCell = true
    ∧ (assembleLocalSystem Rat.sqrt (fun _ => 1) invertErr flatCell).printed = true
    ∧ (assembleLocalSystem Rat.sqrt (fun _ => 1) invertErr flatCell).W = 1
    ∧ (∀ r, r < 4 →
        (assembleGlobalSystem Rat.sqrt (fun _ => 1) invertErr [flatCell] (fun _ => 7)).res r = 7)
    ∧ main Rat.sqrt (fun _ => 1) invertErr (fun _ => ⟨true, fun _ => 0⟩) 2 flatMesh
        = ⟨0, some resVtk⟩
    ∧ ∀ (inv : Inverter ℚ) (Solve : Residual ℚ → SolverResult ℚ),
        (inv (B Rat.sqrt flatCell * D Rat.sqrt flatCell)).2 > 0 →
        (assembleLocalSystem Rat.sqrt (fun _ => 1) inv flatCell).printed = true
        ∧ (assembleLocalSystem Rat.sqrt (fun _ => 1) inv flatCell).W
            = ((inv (B Rat.sqrt flatCell * D Rat.sqrt flatCell)).1 * B Rat.sqrt flatCell)ᵀ
                * G Rat.sqrt flatCell
                * ((inv (B Rat.sqrt flatCell * D Rat.sqrt flatCell)).1 * B Rat.sqrt flatCell)
              + (1 - D Rat.sqrt flatCell
                  * ((inv (B Rat.sqrt flatCell * D Rat.sqrt flatCell)).1 * B Rat.sqrt flatCell))ᵀ
                * (1 - D Rat.sqrt flatCell
                  * ((inv (B Rat.sqrt flatCell * D Rat.sqrt flatCell)).1 * B Rat.sqrt flatCell))
        ∧ assembleGlobalSystem Rat.sqrt (fun _ => 1) inv [flatCell] (fun _ => 7)
            = assembleCell (fun _ => 7) flatCell
                (assembleLocalSystem Rat.sqrt (fun _ => 1) inv flatCell).W
                (assembleLocalSystem Rat.sqrt (fun _ => 1) inv flatCell).b Residual.empty
        ∧ main Rat.sqrt (fun _ => 1) inv Solve 2 flatMesh = ⟨0, some resVtk⟩ := by
  have hmain : ∀ (inv : Inverter ℚ) (Solve : Residual ℚ → SolverResult ℚ),
      main Rat.sqrt (fun _ => 1) inv Solve 2 flatMesh = ⟨0, some resVtk⟩ := by
    intro inv Solve
    rw [main_saves]
    exact congrArg (fun s => (⟨0, some s⟩ : Outcome)) saveSolution_one
  have hierr : (invertErr (B Rat.sqrt flatCell * D Rat.sqrt flatCell)).2 = 1 := by
    simp only [invertErr, flatCell_det, if_true]
  refine ⟨flatCell_det, hierr, by decide, ?_, flatCell_W _, ?_, hmain _ _, ?_⟩
  · rw [assembleLocalSystem_printed, hierr]
    decide
  · intro r hr
    rw [assembleGlobalSystem_single, assembleCell_res3, flatCell_W]
    have h0 : (Residual.empty : Residual ℚ).res r = 0 := rfl
    rw [h0, zero_add]
    simp only [flatCell_b]
    interval_cases r <;>
    simp [flatCell, Fin.sum_univ_four, Matrix.one_apply]
  · intro inv Solve hpos
    refine ⟨?_, assembleLocalSystem_W _ _ _ _, assembleGlobalSystem_single _ _ _ _ _,
      hmain inv Solve⟩
    rw [assembleLocalSystem_printed]
    exact decide_eq_true hpos

end VEM3D

section Runs
variable {F : Type} [LinearOrderedField F]

theorem solveSystem_failed_fem (nodes : List (FEM.Node F)) (tagSol tagSolEx : Nat → F)
    (out : SolverResult F) (h : out.solved = false) :
    FEM.solveSystem nodes tagSol tagSolEx out = none := by
  simp [FEM.solveSystem, h]

theorem main_failed_fem (Solve : FEM.LinearSystem F → SolverResult F)
    (h : ∀ s, (Solve s).solved = false) (m : FEM.Mesh F) (tagSol tagSolEx : Nat → F) :
    FEM.main Solve 2 m tagSol tagSolEx = ⟨1, none⟩ := by
  simp [FEM.main, solveSystem_failed_fem _ _ _ _ (h _)]

theorem solveSystem_failed_mfd (aut : MFD.Automatizator) (m : MFD.Mesh F) (p pEx u : Nat → F)
    (out : SolverResult F) (h : out.solved = false) :
    MFD.solveSystem aut m p pEx u out = none := by
  simp [MFD.solveSystem, h]

theorem main_failed_mfd (sqrtF : F → F) (aut : MFD.Automatizator)
    (Solve : Residual F → SolverResult F) (h : ∀ R, (Solve R).solved = false) (m : MFD.Mesh F)
    (p pEx u : Nat → F) :
    MFD.main sqrtF aut Solve 2 m p pEx u = ⟨1, none⟩ := by
  unfold MFD.main
  cases hR : MFD.assembleGlobalSystem sqrtF aut m.cells p u with
  | none => simp
  | some R => simp [solveSystem_failed_mfd _ _ _ _ _ _ (h R)]

theorem solveSystem_failed_vem2d (nodes : List (VEM2D.MeshNode F)) (out : SolverResult F)
    (h : out.solved = false) : VEM2D.solveSystem nodes out = none := by
  simp [VEM2D.solveSystem, h]

theorem main_failed_vem2d (sqrtF : F → F) (Solve : Residual F → SolverResult F)
    (h : ∀ R, (Solve R).solved = false) (m : VEM2D.Mesh F) :
    VEM2D.main sqrtF Solve 2 m = ⟨1, none⟩ := by
  unfold VEM2D.main
  cases hR : VEM2D.assembleGlobalSystem sqrtF m.cells (VEM2D.unknownValue m.nodes) with
  | none => simp
  | some R => simp [solveSystem_failed_vem2d _ _ (h R)]

theorem solveSystem_failed_vem3d (nodes : List (VEM3D.MeshNode F)) (out : SolverResult F)
    (h : out.solved = false) : VEM3D.solveSystem nodes out = (nodes, none) := by
  simp [VEM3D.solveSystem, h]

end Runs

/-- C20: with a linear solver that reports failure, `solveSystem` of the FEM, MFD and 2D VEM
drivers takes its `exit(1)` before any value is updated and their runs end with status 1
without a file; `solveSystem` of the 3D VEM driver returns with the nodes as they were, and the
run of the 3D driver goes on to `saveSolution`: it writes `res.vtk` and ends with status 0. -/
theorem failed_solve_still_saves :
    failedSolve.solved = false
    ∧ FEM.main (fun _ => failedSolve) 2 FEM.squareMesh (fun _ => 7) (fun _ => 0) = ⟨1, none⟩
    ∧ MFD.main Rat.sqrt MFD.evenOdd (fun _ => failedSolve) 2 ⟨[MFD.squareCell], []⟩
        (fun _ => 7) (fun _ => 0) (fun _ => 7) = ⟨1, none⟩
    ∧ VEM2D.main Rat.sqrt (fun _ => failedSolve) 2 VEM2D.oneFreeMesh = ⟨1, none⟩
    ∧ VEM3D.solveSystem VEM3D.freeTetraNodes failedSolve = (VEM3D.freeTetraNodes, none)
    ∧ VEM3D.main Rat.sqrt (fun _ => 1) VEM3D.invertErr (fun _ => failedSolve) 2
        VEM3D.freeTetraMesh = ⟨0, some resVtk⟩
    ∧ (∀ (SolveL : FEM.LinearSystem ℚ → SolverResult ℚ) (Solve : Residual ℚ → SolverResult ℚ),
        (∀ s, (SolveL s).solved = false) → (∀ R, (Solve R).solved = false) →
        (∀ m tagSol tagSolEx, FEM.main SolveL 2 m tagSol tagSolEx = ⟨1, none⟩)
        ∧ (∀ sqrtF aut m p pEx u, MFD.main sqrtF aut Solve 2 m p pEx u = ⟨1, none⟩)
        ∧ (∀ sqrtF m, VEM2D.main sqrtF Solve 2 m = ⟨1, none⟩)
        ∧ (∀ sqrtF rhsF inv (m : VEM3D.Mesh ℚ),
            VEM3D.main sqrtF rhsF inv Solve 2 m = ⟨0, some (VEM3D.saveSolution m.procs "res")⟩
            ∧ ∀ R, VEM3D.solveSystem m.nodes (Solve R) = (m.nodes, none))) := by
  have hf : failedSolve.solved = false := rfl
  refine ⟨hf, main_failed_fem _ (fun _ => hf) _ _ _, main_failed_mfd _ _ _ (fun _ => hf) _ _ _ _,
    main_failed_vem2d _ _ (fun _ => hf) _, solveSystem_failed_vem3d _ _ hf, ?_, ?_⟩
  · rw [VEM3D.main_saves]
    exact congrArg (fun s => (⟨0, some s⟩ : Outcome)) VEM3D.saveSolution_one
  · intro SolveL Solve hL hR
    exact ⟨fun m a b => main_failed_fem SolveL hL m a b,
      fun sqrtF aut m p pEx u => main_failed_mfd sqrtF aut Solve hR m p pEx u,
      fun sqrtF m => main_failed_vem2d sqrtF Solve hR m,
      fun sqrtF rhsF inv m => ⟨VEM3D.main_saves sqrtF rhsF inv Solve m,
        fun R => solveSystem_failed_vem3d m.nodes (Solve R) (hR R)⟩⟩

namespace VEM3D
variable {F : Type} [LinearOrderedField F]

theorem tetraCell_BDinv :
    BDinv Rat.sqrt tetraCell = Matrix.diagonal ![1, 5 / 4, 25 / 4, 25 / 2] := by
  have hX : (B Rat.sqrt tetraCell * D Rat.sqrt tetraCell : Matrix (Fin 4) (Fin 4) ℚ)
      * Matrix.diagonal ![1, 5 / 4, 25 / 4, 25 / 2] = 1 := by
    have hd : (fun i : Fin 4 => (![1, 4 / 5, 4 / 25, 2 / 25] : Fin 4 → ℚ) i
        * (![1, 5 / 4, 25 / 4, 25 / 2] : Fin 4 → ℚ) i) = fun _ => 1 := by
      funext i
      fin_cases i <;> simp
    rw [tetraCell_BD, Matrix.diagonal_mul_diagonal, hd, Matrix.diagonal_one]
  have hI := Invert_mul_self (B Rat.sqrt tetraCell * D Rat.sqrt tetraCell) tetraCell_BD_det
  calc BDinv Rat.sqrt tetraCell
      = Invert (B Rat.sqrt tetraCell * D Rat.sqrt tetraCell)
          * ((B Rat.sqrt tetraCell * D Rat.sqrt tetraCell : Matrix (Fin 4) (Fin 4) ℚ)
            * Matrix.diagonal ![1, 5 / 4, 25 / 4, 25 / 2]) := by
        rw [hX, Matrix.mul_one, BDinv]
    _ = Matrix.diagonal ![1, 5 / 4, 25 / 4, 25 / 2] := by
        rw [← Matrix.mul_assoc, hI, Matrix.one_mul]

set_option maxHeartbeats 4000000 in
theorem tetraCell_Proj : Proj Rat.sqrt tetraCell
    = (!![1 / 4, 1 / 4, 1 / 4, 1 / 4; -5 / 3, 5 / 3, 0, 0; -5 / 4, 0, 5 / 4, 0;
      -5, 0, 0, 5] : Matrix (Fin 4) (Fin 4) ℚ) := by
  have e2 : ∀ h, (⟨2, h⟩ : Fin 4) = 2 := fun _ => rfl
  have e3 : ∀ h, (⟨3, h⟩ : Fin 4) = 3 := fun _ => rfl
  rw [Proj, tetraCell_BDinv, tetraCell_B]
  ext i j
  rw [Matrix.diagonal_mul]
  fin_cases i <;> fin_cases j <;>
  · simp [e2, e3, Matrix.vecHead, Matrix.vecTail]
    try norm_num

set_option maxHeartbeats 4000000 in
theorem tetraCell_Se : Se Rat.sqrt tetraCell = 0 := by
  have e2 : ∀ h, (⟨2, h⟩ : Fin 4) = 2 := fun _ => rfl
  have e3 : ∀ h, (⟨3, h⟩ : Fin 4) = 3 := fun _ => rfl
  rw [Se, tetraCell_Proj, tetraCell_D]
  ext i j
  fin_cases i <;> fin_cases j <;>
  · simp [Matrix.mul_apply, Fin.sum_univ_four, Matrix.one_apply, e2, e3, Matrix.vecHead,
      Matrix.vecTail]
    try norm_num

theorem tetraCell_G : G Rat.sqrt tetraCell = Matrix.diagonal ![0, 4 / 5, 4 / 25, 2 / 25] := by
  have e1 : ∀ h, (⟨1, h⟩ : Fin 4) = 1 := fun _ => rfl
  have e2 : ∀ h, (⟨2, h⟩ : Fin 4) = 2 := fun _ => rfl
  have e3 : ∀ h, (⟨3, h⟩ : Fin 4) = 3 := fun _ => rfl
  have n1 : (1 : Fin 4) ≠ 0 := by decide
  have n2 : (2 : Fin 4) ≠ 0 := by decide
  have n3 : (3 : Fin 4) ≠ 0 := by decide
  ext i j
  simp only [G, Matrix.of_apply, tetraCell_BD]
  fin_cases i <;> fin_cases j <;> simp [Matrix.diagonal, e1, e2, e3, n1, n2, n3]

set_option maxHeartbeats 4000000 in
theorem tetraCell_W_apex : W Rat.sqrt tetraCell (3 : Fin 4) (3 : Fin 4) = 2 := by
  rw [W, tetraCell_Se, tetraCell_G, tetraCell_Proj]
  simp [Matrix.mul_apply, Fin.sum_univ_four, Matrix.diagonal, Matrix.vecHead, Matrix.vecTail]
  norm_num

end VEM3D

namespace VEM3D
variable {F : Type} [LinearOrderedField F]

/-- The cell loop of the 3D driver does not look at the status of the cell. -/
theorem processCell_status (sqrtF : F → F) (rhsF : (Fin 3 → F) → F) (inv : Inverter F)
    (u : Nat → F) (R : Residual F) (cell : Cell F) (g : Bool) :
    processCell sqrtF rhsF inv u R { cell with ghost := g }
      = processCell sqrtF rhsF inv u R cell := rfl

/-- With the exact inversion routine, the matrix handed back for a relabelled cell is the
matrix `W` of the cell. -/
theorem W_relabel (sqrtF : F → F) (rhsF : (Fin 3 → F) → F) (c : Cell F)
    (dir : Fin c.nn → Bool) (idx : Fin c.nn → Nat) (g : Bool) :
    (assembleLocalSystem sqrtF rhsF invertErr (relabel c dir idx g)).W = W sqrtF c := rfl

/-- A residual entry none of whose nodes in the cell is a node with unknown that is not a ghost
is left alone by the cell. -/
theorem assembleCell_res_ghost_row (u : Nat → F) (cell : Cell F)
    (Wm : Matrix (Fin cell.nn) (Fin cell.nn) F) (rhs : Fin cell.nn → F) (R : Residual F)
    (r : Nat)
    (h : ∀ i, (cell.nodes i).index = r →
      (cell.nodes i).ghost = true ∨ (cell.nodes i).dirichlet = true) :
    (assembleCell u cell Wm rhs R).res r = R.res r := by
  rw [assembleCell_res3]
  have hz : ∀ i : Fin cell.nn,
      (if (cell.nodes i).dirichlet = true then
          ∑ j : Fin cell.nn,
            if (cell.nodes j).ghost = false ∧ (cell.nodes j).dirichlet = false
                ∧ (cell.nodes j).index = r
            then (cell.nodes i).bc * Wm j i else 0
        else
          if (cell.nodes i).ghost = false ∧ (cell.nodes i).index = r then
            (∑ j : Fin cell.nn, (if (cell.nodes j).dirichlet = false
              then Wm j i * u (cell.nodes j).index else 0)) - rhs i
          else 0) = 0 := by
    intro i
    split_ifs with hd hr
    · apply Finset.sum_eq_zero
      intro j _
      rw [if_neg]
      rintro ⟨hg, hdj, hj⟩
      rcases h j hj with h1 | h1
      · rw [hg] at h1
        exact Bool.noConfusion h1
      · rw [hdj] at h1
        exact Bool.noConfusion h1
    · rcases h i hr.2 with h1 | h1
      · rw [hr.1] at h1
        exact Bool.noConfusion h1
      · exact absurd h1 hd
    · rfl
  rw [Finset.sum_congr rfl (fun i _ => hz i), Finset.sum_const_zero, add_zero]

/-- The residual entry 0 after the ghost tetrahedron, for any local matrix and load. -/
theorem ghostTetra_row (u : Nat → ℚ) (Wm : Matrix (Fin 4) (Fin 4) ℚ) (rhs : Fin 4 → ℚ) :
    (assembleCell u ghostTetra Wm rhs Residual.empty).res 0 = Wm 3 3 * u 0 - rhs 3 := by
  rw [assembleCell_res3]
  have h0 : (Residual.empty : Residual ℚ).res 0 = 0 := rfl
  have v3 : ((3 : Fin 4) : ℕ) = 3 := rfl
  rw [h0, zero_add]
  simp [ghostTetra, relabel, tetraCell, Fin.sum_univ_four, v3]

/-- C21, counterexample: `ghostTetra` has the status `Ghost`, and yet `assembleGlobalSystem`
of the 3D driver, on the mesh made of this cell with the unknown equal to 7, leaves 14 in the
residual entry 0, which is `W(3,3) = 2` times the unknown of the node `(0,0,1)`. -/
theorem ghost_cell_contributes :
    ghostTetra.ghost = true
    ∧ (ghostTetra.nodes (3 : Fin 4)).ghost = false
    ∧ (ghostTetra.nodes (3 : Fin 4)).dirichlet = false
    ∧ (ghostTetra.nodes (3 : Fin 4)).index = 0
    ∧ (assembleLocalSystem Rat.sqrt (fun _ => 0) invertErr ghostTetra).W (3 : Fin 4) (3 : Fin 4)
        = 2
    ∧ (Residual.empty : Residual ℚ).res 0 = 0
    ∧ (assembleGlobalSystem Rat.sqrt (fun _ => 0) invertErr [ghostTetra] (fun _ => 7)).res 0
        = 14 := by
  have hW : (assembleLocalSystem Rat.sqrt (fun _ => 0) invertErr ghostTetra).W
      = W Rat.sqrt tetraCell :=
    W_relabel Rat.sqrt (fun _ => 0) tetraCell _ _ true
  refine ⟨rfl, rfl, rfl, rfl, ?_, rfl, ?_⟩
  · rw [hW]
    exact tetraCell_W_apex
  · rw [assembleGlobalSystem_single, hW]
    have h := ghostTetra_row (fun _ => 7) (W Rat.sqrt tetraCell)
      (assembleLocalSystem Rat.sqrt (fun _ => 0) invertErr ghostTetra).b
    rw [tetraCell_W_apex] at h
    rw [h]
    simp [assembleLocalSystem, b]
    norm_num

end VEM3D

section Ghosts
variable {F : Type} [LinearOrderedField F]

/-- C21 (amended): in the FEM, MFD and 2D VEM drivers a pass of the cell loop of
`assembleGlobalSystem` over a cell with the status `Ghost` leaves the matrix, the right-hand
side and the residual as they were. The 3D VEM driver does not look at the status of the cell:
a pass adds the same terms whether the cell is a ghost or not, and it leaves alone every
residual entry none of whose nodes in the cell is a node with unknown that is not a ghost. -/
theorem ghost_cells :
    (∀ (s : FEM.LinearSystem F) (cell : FEM.Cell F), cell.ghost = true →
        FEM.processCell s cell = s)
    ∧ (∀ (sqrtF : F → F) (aut : MFD.Automatizator) (p u : Nat → F) (R : Residual F)
        (cell : MFD.Cell F), cell.ghost = true →
        MFD.processCell sqrtF aut p u (some R) cell = some R)
    ∧ (∀ (sqrtF : F → F) (u : Nat → F) (R : Residual F) (cell : VEM2D.Cell F),
        cell.ghost = true → VEM2D.processCell sqrtF u (some R) cell = some R)
    ∧ (∀ (sqrtF : F → F) (rhsF : (Fin 3 → F) → F) (inv : VEM3D.Inverter F) (u : Nat → F)
        (R : Residual F) (cell : VEM3D.Cell F) (g : Bool),
        VEM3D.processCell sqrtF rhsF inv u R { cell with ghost := g }
          = VEM3D.processCell sqrtF rhsF inv u R cell)
    ∧ (∀ (sqrtF : F → F) (rhsF : (Fin 3 → F) → F) (inv : VEM3D.Inverter F) (u : Nat → F)
        (R : Residual F) (cell : VEM3D.Cell F) (r : Nat),
        (∀ i, (cell.nodes i).index = r →
          (cell.nodes i).ghost = true ∨ (cell.nodes i).dirichlet = true) →
        (VEM3D.processCell sqrtF rhsF inv u R cell).res r = R.res r) := by
  refine ⟨?_, ?_, ?_, ?_, ?_⟩
  · intro s cell hg
    simp [FEM.processCell, hg]
  · intro sqrtF aut p u R cell hg
    simp [MFD.processCell, hg]
  · intro sqrtF u R cell hg
    simp [VEM2D.processCell, hg]
  · intro sqrtF rhsF inv u R cell g
    exact VEM3D.processCell_status sqrtF rhsF inv u R cell g
  · intro sqrtF rhsF inv u R cell r h
    exact VEM3D.assembleCell_res_ghost_row u cell _ _ R r h

/-- C21, witness: the ghost triangle `ghostCell` of the FEM driver, the ghost copies of
`squareCell` and `oneFreeTriangle`, and the residual entry 5 after `ghostTetra`, none of whose
nodes has the index 5. -/
theorem ghost_cells_witness :
    FEM.ghostCell.ghost = true
    ∧ FEM.processCell FEM.zeroSys FEM.ghostCell = FEM.zeroSys
    ∧ MFD.processCell Rat.sqrt MFD.evenOdd (fun _ => 7) (fun _ => 7)
        (some Residual.empty) { MFD.squareCell with ghost := true } = some Residual.empty
    ∧ VEM2D.processCell Rat.sqrt (fun _ => 7) (some Residual.empty)
        { VEM2D.oneFreeTriangle with ghost := true } = some Residual.empty
    ∧ (VEM3D.processCell Rat.sqrt (fun _ => 0) VEM3D.invertErr (fun _ => 7)
        Residual.empty VEM3D.ghostTetra).res 5 = 0 :=
  have h := ghost_cells (F := ℚ)
  ⟨rfl, h.1 _ _ rfl, h.2.1 _ _ _ _ _ _ rfl, h.2.2.1 _ _ _ _ rfl,
    h.2.2.2.2 _ _ _ _ _ VEM3D.ghostTetra 5 (by
      intro i hi
      fin_cases i <;> simp [VEM3D.ghostTetra, VEM3D.relabel] at hi)⟩

end Ghosts

namespace FEM
variable {F : Type} [LinearOrderedField F]

theorem assembleGlobalSystem_size (m : Mesh F) (s : LinearSystem F) :
    (assembleGlobalSystem m s).size = m.NumberOfNodes + 1 := by
  rw [assembleGlobalSystem, (foldl_processCell m.cells _).2.2]

/-- C22: the size of the system of the FEM driver is `NumberOfNodes() + 1` for every mesh, so it
never is the number of nodes minus the number of Dirichlet nodes; on the mesh of `bndCell`,
with 3 nodes of which 1 is a Dirichlet node, the size is 4 and not 2. -/
theorem size_is_nodes_plus_one :
    (∀ (m : Mesh ℚ) (s : LinearSystem ℚ), (assembleGlobalSystem m s).size = m.NumberOfNodes + 1)
    ∧ (∀ (m : Mesh ℚ) (s : LinearSystem ℚ),
        (assembleGlobalSystem m s).size ≠ m.NumberOfNodes - m.numDirNodes)
    ∧ bndMesh.NumberOfNodes = 3 ∧ bndMesh.numDirNodes = 1
    ∧ (assembleGlobalSystem bndMesh zeroSys).size = 4
    ∧ (assembleGlobalSystem bndMesh zeroSys).size ≠ bndMesh.NumberOfNodes - bndMesh.numDirNodes
    := by
  have hne : ∀ (m : Mesh ℚ) (s : LinearSystem ℚ),
      (assembleGlobalSystem m s).size ≠ m.NumberOfNodes - m.numDirNodes := by
    intro m s
    rw [assembleGlobalSystem_size]
    omega
  refine ⟨assembleGlobalSystem_size, hne, rfl, rfl, ?_, hne _ _⟩
  rw [assembleGlobalSystem_size]
  rfl

end FEM

namespace FEM
variable {F : Type} [LinearOrderedField F]

theorem holeCell_stiff : computeStiffMatrix holeCell 2 2 = 1 / 2 := by
  have hd : detBk holeCell = 1 := by simp [detBk, Bk, holeCell]
  rw [computeStiffMatrix_gradPhi, area]
  simp only [tensorForm, gradPhi, hd]
  simp [Bk, holeCell, Dxx, Dyy, Dxy]

/-- A free node that is alone in the node list gets the solver output at its `GlobalID`. -/
theorem solveSystem_single (n : Node F) (tagSol tagSolEx : Nat → F) (out : SolverResult F)
    (hs : out.solved = true) (hd : n.dirichlet = false) :
    (solveSystem [n] tagSol tagSolEx out).map (fun r => r.1 n.localID)
      = some (out.sol n.globalID) := by
  simp [solveSystem, hs, hd]

/-- C23, at the failing input: in `holeMesh` the free node `(0,1)` has the `LocalID` 3 and the
`GlobalID` 2. `assembleGlobalSystem` puts its equation in row 3 (`A[3][3] = 1/2`) and leaves
row 2 empty, and `solveSystem`, given the solver output `sol[i] = i`, stores `sol[2] = 2` in
the node, not `sol[3]`. -/
theorem solve_reads_globalID :
    (holeCell.nodes 2).dirichlet = false ∧ (holeCell.nodes 2).localID = 3
    ∧ (holeCell.nodes 2).globalID = 2
    ∧ (assembleGlobalSystem holeMesh zeroSys).A 3 3 = 1 / 2
    ∧ (∀ c, (assembleGlobalSystem holeMesh zeroSys).A 2 c = 0)
    ∧ (solveSystem holeMesh.nodes (fun _ => 0) (fun _ => 0) ⟨true, fun i => (i : ℚ)⟩).map
        (fun r => r.1 3) = some 2
    ∧ (solveSystem holeMesh.nodes (fun _ => 0) (fun _ => 0) ⟨true, fun i => (i : ℚ)⟩).map
        (fun r => r.1 3) ≠ some ((fun i : Nat => (i : ℚ)) 3) := by
  have hsol : (solveSystem holeMesh.nodes (fun _ => 0) (fun _ => 0)
      ⟨true, fun i => (i : ℚ)⟩).map (fun r => r.1 3) = some 2 := by
    simp [solveSystem, holeMesh, holeCell, Function.update]
  refine ⟨rfl, rfl, rfl, ?_, ?_, hsol, ?_⟩
  · rw [assembleGlobalSystem, (foldl_processCell holeMesh.cells _).1]
    have hc : contribA holeCell 3 3 = computeStiffMatrix holeCell 2 2 := by
      simp [contribA, Fin.sum_univ_three, holeCell]
    simp [holeMesh, hc, holeCell_stiff, zeroSys]
  · intro c
    rw [assembleGlobalSystem_row_untouched]
    · rfl
    · intro cell hcell _ i hf
      have : cell = holeCell := by simpa [holeMesh] using hcell
      subst this
      fin_cases i
      · simp [holeCell]
      · simp [holeCell] at hf
      · simp [holeCell]
  · rw [hsol]
    norm_num

end FEM

section Integrals
open MeasureTheory

theorem integral_linear (b u : ℝ) : ∫ t in (0:ℝ)..u, b * t = b * u ^ 2 / 2 := by
  have h : ∫ x in (0:ℝ)..u, b * x = b * ∫ x in (0:ℝ)..u, x :=
    intervalIntegral.integral_const_mul b (fun x => x)
  rw [h, integral_id]
  ring

theorem integral_affine_line (a b u : ℝ) :
    ∫ t in (0:ℝ)..u, (a + b * t) = a * u + b * u ^ 2 / 2 := by
  have h1 : IntervalIntegrable (fun t : ℝ => b * t) volume 0 u :=
    (continuous_const.mul continuous_id).intervalIntegrable _ _
  rw [intervalIntegral.integral_add intervalIntegrable_const h1, integral_linear]
  simp
  ring

theorem integral_quadratic (a0 a1 a2 u : ℝ) :
    ∫ s in (0:ℝ)..u, (a0 + a1 * s + a2 * s ^ 2) = a0 * u + a1 * u ^ 2 / 2 + a2 * u ^ 3 / 3 := by
  have h1 : IntervalIntegrable (fun t : ℝ => a1 * t) volume 0 u :=
    (continuous_const.mul continuous_id).intervalIntegrable _ _
  have h2 : IntervalIntegrable (fun t : ℝ => a2 * t ^ 2) volume 0 u :=
    (continuous_const.mul (continuous_pow 2)).intervalIntegrable _ _
  rw [intervalIntegral.integral_add (intervalIntegrable_const.add h1) h2,
    intervalIntegral.integral_add intervalIntegrable_const h1, integral_linear]
  simp [integral_pow]
  ring


/-- The integral over the reference triangle of a constant times the affine function with the
values `w0`, `w1`, `w2` at its vertices. -/
theorem integral_ref_triangle (c w0 w1 w2 : ℝ) :
    ∫ s in (0:ℝ)..1, ∫ t in (0:ℝ)..(1 - s), c * ((1 - s - t) * w0 + s * w1 + t * w2)
      = c * (w0 + w1 + w2) / 6 := by
  have hin : ∀ s : ℝ, ∫ t in (0:ℝ)..(1 - s), c * ((1 - s - t) * w0 + s * w1 + t * w2)
      = c * (w0 + w2) / 2 + c * (w1 - (w0 + w2)) * s + c * ((w0 + w2) / 2 - w1) * s ^ 2 := by
    intro s
    have hf : (fun t : ℝ => c * ((1 - s - t) * w0 + s * w1 + t * w2))
        = fun t : ℝ => c * ((1 - s) * w0 + s * w1) + c * (w2 - w0) * t := by
      funext t
      ring
    rw [hf, integral_affine_line]
    ring
  simp_rw [hin]
  rw [integral_quadratic]
  ring

end Integrals

namespace FEM
variable {F : Type} [LinearOrderedField F]

theorem integrateRHSSteps_eq (cell : Cell F) : integrateRHSSteps cell = integrateRHS cell := by
  funext i
  fin_cases i <;> simp [integrateRHSSteps, integrateRHS, Function.update]

/-- An affine function along the map from the reference triangle. -/
theorem eval_refMap (cell : Cell F) (p : Affine F) (s t : F) :
    p.eval (refMap cell s t)
      = (1 - s - t) * p.eval (cell.nodes 0).x + s * p.eval (cell.nodes 1).x
        + t * p.eval (cell.nodes 2).x := by
  simp only [Affine.eval, refMap]
  ring

/-- The load of a vertex is the integral of the right-hand side times the hat function of the
vertex, written over the reference triangle. -/
theorem integrateRHS_integral (cell : Cell ℝ) (phi : Fin 3 → Affine ℝ)
    (hphi : ∀ i j, (phi i).eval (cell.nodes j).x = if i = j then 1 else 0) (i : Fin 3) :
    integrateRHS cell i
      = |detBk cell| * ∫ s in (0:ℝ)..1, ∫ t in (0:ℝ)..(1 - s),
          exactSolutionRHS (refMap cell s t) * (phi i).eval (refMap cell s t) := by
  have h : ∀ s t : ℝ, exactSolutionRHS (refMap cell s t) * (phi i).eval (refMap cell s t)
      = (-2 * Dxx) * ((1 - s - t) * (if i = 0 then 1 else 0) + s * (if i = 1 then 1 else 0)
          + t * (if i = 2 then 1 else 0)) := by
    intro s t
    rw [eval_refMap, hphi, hphi, hphi]
    rfl
  simp_rw [h]
  rw [integral_ref_triangle]
  fin_cases i <;> simp [integrateRHS, exactSolutionRHS] <;> ring

/-- C24: for a triangle with `det B` not zero, the load vector that `integrateRHS` builds
statement by statement has three equal entries `(f(x0) + f(x1) + f(x2)) * |det B| / 18`, with
`f = exactSolutionRHS`; they sum to the area times the mean of `f` at the vertices; each is
`f * Area / 3`, `f` being the constant `-2 * Dxx`; and over the reals each is the integral over
the triangle, written over the reference triangle with the factor `|det B|`, of `f` times the
hat function of the vertex. -/
theorem integrateRHS_entries (cell : Cell F) (hdet : detBk cell ≠ 0) :
    0 < area cell
    ∧ integrateRHSSteps cell = integrateRHS cell
    ∧ (∀ i, integrateRHS cell i
        = (exactSolutionRHS (cell.nodes 0).x + exactSolutionRHS (cell.nodes 1).x
          + exactSolutionRHS (cell.nodes 2).x) * |detBk cell| / 18)
    ∧ ∑ i, integrateRHS cell i
        = area cell * ((exactSolutionRHS (cell.nodes 0).x + exactSolutionRHS (cell.nodes 1).x
          + exactSolutionRHS (cell.nodes 2).x) / 3)
    ∧ (∀ i, integrateRHS cell i = exactSolutionRHS (cell.nodes i).x * area cell / 3)
    ∧ (∀ i, integrateRHS cell i = -2 * Dxx * area cell / 3)
    ∧ ∀ (cellR : Cell ℝ) (phi : Fin 3 → Affine ℝ), detBk cellR ≠ 0 →
        (∀ i j, (phi i).eval (cellR.nodes j).x = if i = j then 1 else 0) →
        ∀ i, integrateRHS cellR i
          = |detBk cellR| * ∫ s in (0:ℝ)..1, ∫ t in (0:ℝ)..(1 - s),
              exactSolutionRHS (refMap cellR s t) * (phi i).eval (refMap cellR s t) := by
  refine ⟨?_, integrateRHSSteps_eq cell, fun _ => rfl, ?_, ?_, ?_,
    fun cellR phi _ hphi i => integrateRHS_integral cellR phi hphi i⟩
  · rw [area]
    exact div_pos (abs_pos.2 hdet) (by norm_num)
  · simp only [Fin.sum_univ_three, integrateRHS, area]
    ring
  · intro i
    simp only [integrateRHS, area, exactSolutionRHS]
    ring
  · intro i
    simp only [integrateRHS, area, exactSolutionRHS]
    ring

/-- C24, witness: the reference triangle, where every entry of the load is `-100/3`. -/
theorem integrateRHS_entries_witness :
    detBk refCell ≠ 0
    ∧ 0 < area refCell
    ∧ integrateRHSSteps refCell = integrateRHS refCell
    ∧ (∀ i, integrateRHS refCell i = -100 / 3)
    ∧ ∑ i, integrateRHS refCell i = -100 := by
  have hd : detBk refCell = 1 := by simp [detBk, Bk, refCell]
  have hdet : detBk refCell ≠ 0 := by rw [hd]; norm_num
  have h := integrateRHS_entries refCell hdet
  have ha : area refCell = 1 / 2 := by rw [area, hd]; norm_num
  refine ⟨hdet, h.1, h.2.1, ?_, ?_⟩
  · intro i
    rw [h.2.2.2.2.2.1 i, ha]
    simp only [Dxx]
    norm_num
  · rw [h.2.2.2.1, ha]
    simp only [exactSolutionRHS, Dxx]
    norm_num

end FEM
